import Mathlib

/-!
Search server: a shallow embedding of `search-server/main.cpp`.

The C++ program keeps an inverted index (`word_to_document_freqs_`), a document
catalog (`documents_`) and the insertion order of the document ids
(`documents_index_`).  This file embeds the engine and proves properties of it.

Conventions of the embedding

* `std::string` is a list of characters (`Str`); a character is identified with
  its code, so the test `c >= 0 && c < 32` of `IsValidWord` is `c < ' '`.
* `std::map` and `std::set` are lists kept in strictly ascending key order; the
  iteration order of the container is the order of the list.
* The number type of the engine is a parameter `R`.  `Binary64` is the `double`
  of the program: a value is a rational number and every operation rounds its
  exact result to the nearest number of 53 significant bits, ties to even.  An
  ordered field `R` (the rationals, the reals) is the exact arithmetic in which
  the specification states its formulas.  `AddDocument` is embedded for both;
  the functions that rank documents are embedded over an ordered field, with
  `std::log` a parameter `ln : R → R` (instantiated with `Real.log` where the
  value of the logarithm matters).
* `throw` is an `Except` error; a member function that mutates the engine
  returns the outcome together with the engine as it is left behind.
* `ParseQueryWord` reads `text[-1]`, a byte in front of the character buffer
  whose value the program does not determine; the value read is the parameter
  `oob`.
* `int` is `Int`; the sum of `ComputeAverageRating` wraps to 32 bits at every
  step, and the division truncates toward zero.
* `std::sort` is embedded as the library (libstdc++) implements it: introsort
  (median-of-three partitioning, heap sort at the depth limit) followed by an
  insertion sort; on a range of at most 16 elements it is the insertion sort
  alone.  The theorems on the order of the results use only what every
  `std::sort` guarantees: the result is a rearrangement of the input, sorted
  when the comparator is a strict weak order on it.
-/

set_option linter.unusedSectionVars false

namespace SearchEngine

/-- A `std::string`: the sequence of its characters. -/
abbrev Str := List Char

/-- The exceptions thrown by the engine, one constructor per kind of `throw`. -/
inductive Error where
  /-- Constructor: `invalid_argument`, a stop word has a special character. -/
  | ValidationError
  /-- `AddDocument`: `invalid_argument`, negative document id. -/
  | InvalidId
  /-- `AddDocument`: `invalid_argument`, id of a previously added document. -/
  | DuplicateId
  /-- `invalid_argument("It is forbidden to use special characters")`. -/
  | InvalidCharacter
  /-- `invalid_argument("Query empty ")`. -/
  | EmptyQuery
  /-- `invalid_argument`: more than one minus sign or no text after the minus sign. -/
  | MalformedMinus
  /-- `GetDocumentId`: `out_of_range`. -/
  | OutOfRange
  /-- `std::out_of_range` thrown by `std::map::at` for a missing key. -/
  | NotFound
  deriving DecidableEq, Repr

/-! ## Ordered containers -/

/-- A `std::map<κ, υ>`: the key-value pairs in iteration order. -/
abbrev StdMap (κ υ : Type) := List (κ × υ)

/-- A `std::set<κ>`: the elements in iteration order. -/
abbrev StdSet (κ : Type) := List κ

namespace StdMap

variable {κ υ : Type} [LinearOrder κ]

/-- The method `find`: the value stored under `k`, if any. -/
def find : StdMap κ υ → κ → Option υ
  | [], _ => none
  | (k', v) :: m, k => if k' = k then some v else find m k

/-- The method `count`: 1 when the key is present, else 0. -/
def count (m : StdMap κ υ) (k : κ) : Nat :=
  match m.find k with
  | some _ => 1
  | none => 0

/-- The method `at`: the value stored under `k`, or `std::out_of_range`. -/
def atKey (m : StdMap κ υ) (k : κ) : Except Error υ :=
  match m.find k with
  | some v => .ok v
  | none => .error Error.NotFound

/-- The statement `m[k] = f (m[k])`, where `operator[]` first stores the
value-initialised `d` under a missing key. -/
def upsert (k : κ) (d : υ) (f : υ → υ) : StdMap κ υ → StdMap κ υ
  | [] => [(k, f d)]
  | (k', v) :: m =>
    if k = k' then (k', f v) :: m
    else if k < k' then (k, f d) :: (k', v) :: m
    else (k', v) :: upsert k d f m

/-- The method `emplace`: stores `v` under `k` unless the key is present. -/
def emplace (k : κ) (v : υ) : StdMap κ υ → StdMap κ υ
  | [] => [(k, v)]
  | (k', v') :: m =>
    if k = k' then (k', v') :: m
    else if k < k' then (k, v) :: (k', v') :: m
    else (k', v') :: emplace k v m

/-- The method `erase(key)`. -/
def erase (k : κ) : StdMap κ υ → StdMap κ υ
  | [] => []
  | (k', v) :: m => if k' = k then erase k m else (k', v) :: erase k m

/-- The keys in iteration order. -/
def keys (m : StdMap κ υ) : List κ := m.map Prod.fst

/-- The invariant of the container: keys strictly ascending. -/
def WF (m : StdMap κ υ) : Prop := m.keys.Pairwise (· < ·)

end StdMap

namespace StdSet

variable {κ : Type} [LinearOrder κ]

/-- The method `insert`. -/
def insert (k : κ) : StdSet κ → StdSet κ
  | [] => [k]
  | k' :: m =>
    if k = k' then k' :: m
    else if k < k' then k :: k' :: m
    else k' :: insert k m

/-- The method `count`. -/
def count (m : StdSet κ) (k : κ) : Nat := if k ∈ m then 1 else 0

end StdSet

/-! ## The type `double` -/

/-- The integer nearest to `y`; of two nearest integers, the even one. -/
def nearestEven (y : ℚ) : ℤ :=
  if y - ⌊y⌋ < 1 / 2 then ⌊y⌋
  else if 1 / 2 < y - ⌊y⌋ then ⌊y⌋ + 1
  else if ⌊y⌋ % 2 = 0 then ⌊y⌋ else ⌊y⌋ + 1

/-- Rounding to the nearest `double`, ties to even: the rounding of every
arithmetic operation on `double` (IEEE 754 binary64, 53 significant bits).  The
exponent is not bounded: overflow and subnormal numbers are outside the model. -/
def roundNearestEven (x : ℚ) : ℚ :=
  if x = 0 then 0
  else
    let e := Int.log 2 |x| - 52
    (if x < 0 then -1 else 1) * nearestEven (|x| / 2 ^ e) * 2 ^ e

/-- A finite `double`, given by its value. -/
structure Binary64 where
  val : ℚ
  deriving DecidableEq

namespace Binary64

/-- The `double` 0.0. -/
instance : Zero Binary64 := ⟨⟨0⟩⟩

/-- The `double` 1.0. -/
instance : One Binary64 := ⟨⟨1⟩⟩

/-- The addition of `double`: the exact sum, rounded. -/
instance : Add Binary64 := ⟨fun a b => ⟨roundNearestEven (a.val + b.val)⟩⟩

/-- The division of `double`: the exact quotient, rounded.  The program divides
by the number of words of a document with at least one word, never by zero. -/
instance : Div Binary64 := ⟨fun a b => ⟨roundNearestEven (a.val / b.val)⟩⟩

/-- The conversion `static_cast<double>` of an unsigned integer. -/
instance : NatCast Binary64 := ⟨fun n => ⟨roundNearestEven n⟩⟩

end Binary64

/-! ## The free functions and types of the program -/

/-- The constant `MAX_RESULT_DOCUMENT_COUNT`. -/
def MAX_RESULT_DOCUMENT_COUNT : Nat := 5

/-- The constant `EPSILON = 1e-6`. -/
def EPSILON {R : Type} [LinearOrderedField R] : R := 1 / 1000000

/-- The loop of `SplitIntoWords`: `words` and `word` are the two locals. -/
def SplitIntoWordsLoop : List Char → List Str → Str → List Str
  | [], words, word => words ++ [word]
  | c :: cs, words, word =>
    if c = ' ' then SplitIntoWordsLoop cs (words ++ [word]) []
    else SplitIntoWordsLoop cs words (word ++ [c])

/-- The function `SplitIntoWords`. -/
def SplitIntoWords (text : Str) : List Str := SplitIntoWordsLoop text [] []

/-- The struct `Document`, a ranked result. -/
structure Document (R : Type) where
  id : Int
  relevance : R
  rating : Int

/-- The function `MakeUniqueNonEmptyStrings`. -/
def MakeUniqueNonEmptyStrings (strings : List Str) : StdSet Str :=
  strings.foldl (fun non_empty_strings str =>
    if !str.isEmpty then StdSet.insert str non_empty_strings else non_empty_strings) []

/-- The enum `DocumentStatus`. -/
inductive DocumentStatus where
  | ACTUAL
  | IRRELEVANT
  | BANNED
  | REMOVED
  deriving DecidableEq, Repr

/-- The struct `SearchServer::DocumentData`. -/
structure DocumentData where
  rating : Int
  status : DocumentStatus
  deriving DecidableEq, Repr

/-- The struct `SearchServer::QueryWord`. -/
structure QueryWord where
  data : Str
  is_minus : Bool
  is_stop : Bool
  deriving DecidableEq, Repr

/-- The struct `SearchServer::Query`. -/
structure Query where
  plus_words : StdSet Str
  minus_words : StdSet Str
  deriving DecidableEq, Repr

/-- The data members of the class `SearchServer`. -/
structure SearchServer (R : Type) where
  stop_words_ : StdSet Str
  word_to_document_freqs_ : StdMap Str (StdMap Int R)
  documents_ : StdMap Int DocumentData
  documents_index_ : List Int

/-- The static member `IsValidWord`: no character with a code in `[0, 32)`. -/
def IsValidWord (word : Str) : Bool :=
  !(word.any (fun c => decide (Char.ofNat 0 ≤ c) && decide (c < ' ')))

/-- The static member `IsValidMinusWord`; `word[1]` of a one-character string is
the terminating null character. -/
def IsValidMinusWord (word : Str) : Bool :=
  if word.isEmpty then false
  else if word = ['-'] then false
  else if word.getD 0 (Char.ofNat 0) = '-' ∧ word.getD 1 (Char.ofNat 0) = '-' then false
  else true

/-- Two's complement wrap-around of a value to the range of a 32-bit `int`. -/
def wrapInt32 (x : Int) : Int := (x + 2147483648) % 4294967296 - 2147483648

/-- The static member `ComputeAverageRating`: `accumulate` in `int` arithmetic,
then the truncating division of `int`. -/
def ComputeAverageRating (ratings : List Int) : Int :=
  if ratings.isEmpty then 0
  else
    let rating_sum := ratings.foldl (fun acc r => wrapInt32 (acc + r)) 0
    Int.tdiv rating_sum (ratings.length : Int)

/-- The validation at the head of both `FindTopDocuments` and `MatchDocument`:
the loop over the words of the raw query. -/
def ValidateQueryWords : List Str → Except Error Unit
  | [] => .ok ()
  | word :: rest =>
    if !IsValidWord word then .error Error.InvalidCharacter
    else if !IsValidMinusWord word then .error Error.MalformedMinus
    else ValidateQueryWords rest

/-- The validation at the head of both `FindTopDocuments` and `MatchDocument`. -/
def ValidateRawQuery (raw_query : Str) : Except Error Unit :=
  if raw_query.isEmpty then .error Error.EmptyQuery
  else ValidateQueryWords (SplitIntoWords raw_query)

/-- The comparator passed to `std::sort` by `FindTopDocuments`. -/
def DocumentBefore {R : Type} [LinearOrderedField R] (lhs rhs : Document R) : Bool :=
  if |lhs.relevance - rhs.relevance| < EPSILON then decide (lhs.rating > rhs.rating)
  else decide (lhs.relevance > rhs.relevance)

/-- The library function `std::__unguarded_linear_insert`: `val` moves toward
the front of the range past every element it is ordered before, and stops behind
the first element it is not ordered before.  The range in front of `val` is
given last element first, and so is the result. -/
def unguardedLinearInsert {α : Type} (comp : α → α → Bool) (val : α) : List α → List α
  | [] => [val]
  | next :: front =>
    if comp val next then next :: unguardedLinearInsert comp val front
    else val :: next :: front

/-- One round of the loop of `std::__insertion_sort`: `val` enters the sorted
range in front of it (given last element first): at the very front when
`comp(val, *first)`, by `__unguarded_linear_insert` otherwise. -/
def insertionStep {α : Type} (comp : α → α → Bool) (sorted_range : List α) (val : α) : List α :=
  match sorted_range.getLast? with
  | none => [val]
  | some first =>
    if comp val first then sorted_range ++ [val]
    else unguardedLinearInsert comp val sorted_range

/-- The library function `std::__final_insertion_sort`: `__insertion_sort` on
the first 16 elements, then `__unguarded_linear_insert` for each of the others. -/
def finalInsertionSort {α : Type} (comp : α → α → Bool) (range : List α) : List α :=
  ((range.drop 16).foldl (fun sorted_range val => unguardedLinearInsert comp val sorted_range)
    ((range.take 16).foldl (insertionStep comp) [])).reverse

/-- The library function `std::iter_swap` on two positions of a range. -/
def iterSwap {α : Type} (range : List α) (i j : Nat) : List α :=
  match range[i]?, range[j]? with
  | some x, some y => (range.set i y).set j x
  | _, _ => range

/-- The library function `std::__move_median_to_first`. -/
def moveMedianToFirst {α : Type} (comp : α → α → Bool) (range : List α)
    (result a b c : Nat) : List α :=
  match range[a]?, range[b]?, range[c]? with
  | some va, some vb, some vc =>
    if comp va vb then
      if comp vb vc then iterSwap range result b
      else if comp va vc then iterSwap range result c
      else iterSwap range result a
    else if comp va vc then iterSwap range result a
    else if comp vb vc then iterSwap range result c
    else iterSwap range result b
  | _, _, _ => range

/-- The loop `while (comp(first, pivot)) ++first` of `__unguarded_partition`. -/
def scanUp {α : Type} (comp : α → α → Bool) (range : List α) (pivot : α) : Nat → Nat → Nat
  | 0, first => first
  | fuel + 1, first =>
    match range[first]? with
    | some v => if comp v pivot then scanUp comp range pivot fuel (first + 1) else first
    | none => first

/-- The loop `while (comp(pivot, last)) --last` of `__unguarded_partition`. -/
def scanDown {α : Type} (comp : α → α → Bool) (range : List α) (pivot : α) : Nat → Nat → Nat
  | 0, last => last
  | fuel + 1, last =>
    match range[last]? with
    | some v => if comp pivot v then scanDown comp range pivot fuel (last - 1) else last
    | none => last

/-- The library function `std::__unguarded_partition`: the cut and the range. -/
def unguardedPartition {α : Type} (comp : α → α → Bool) :
    Nat → List α → Nat → Nat → Nat → Nat × List α
  | 0, range, first, _, _ => (first, range)
  | fuel + 1, range, first, last, pivot =>
    match range[pivot]? with
    | none => (first, range)
    | some p =>
      let first := scanUp comp range p range.length first
      let last := scanDown comp range p range.length (last - 1)
      if first < last then
        unguardedPartition comp fuel (iterSwap range first last) (first + 1) last pivot
      else (first, range)

/-- The library function `std::__unguarded_partition_pivot`. -/
def unguardedPartitionPivot {α : Type} (comp : α → α → Bool) (range : List α)
    (first last : Nat) : Nat × List α :=
  let mid := first + (last - first) / 2
  unguardedPartition comp range.length
    (moveMedianToFirst comp range first (first + 1) mid (last - 1)) (first + 1) last first

/-- The library function `std::__push_heap`; `first` is the start of the heap. -/
def pushHeap {α : Type} (comp : α → α → Bool) (first : Nat) (topIndex : Nat) (value : α) :
    Nat → List α → Nat → List α
  | 0, range, holeIndex => range.set (first + holeIndex) value
  | fuel + 1, range, holeIndex =>
    let parent := (holeIndex - 1) / 2
    match range[first + parent]? with
    | none => range.set (first + holeIndex) value
    | some vp =>
      if holeIndex > topIndex ∧ comp vp value then
        pushHeap comp first topIndex value fuel (range.set (first + holeIndex) vp) parent
      else range.set (first + holeIndex) value

/-- The first loop of `std::__adjust_heap`: the hole moves down to a leaf.  The
result is the range, the hole and the second child. -/
def siftHole {α : Type} (comp : α → α → Bool) (first len : Nat) :
    Nat → List α → Nat → Nat → List α × Nat × Nat
  | 0, range, holeIndex, secondChild => (range, holeIndex, secondChild)
  | fuel + 1, range, holeIndex, secondChild =>
    if secondChild < (len - 1) / 2 then
      let secondChild := 2 * (secondChild + 1)
      match range[first + secondChild]?, range[first + (secondChild - 1)]? with
      | some v2, some v1 =>
        let secondChild := if comp v2 v1 then secondChild - 1 else secondChild
        let v := if comp v2 v1 then v1 else v2
        siftHole comp first len fuel (range.set (first + holeIndex) v) secondChild secondChild
      | _, _ => (range, holeIndex, secondChild)
    else (range, holeIndex, secondChild)

/-- The library function `std::__adjust_heap`. -/
def adjustHeap {α : Type} (comp : α → α → Bool) (first : Nat) (range : List α)
    (holeIndex len : Nat) (value : α) : List α :=
  let (range, hole, secondChild) := siftHole comp first len range.length range holeIndex holeIndex
  if len % 2 = 0 ∧ secondChild = (len - 2) / 2 then
    let secondChild := 2 * (secondChild + 1)
    match range[first + (secondChild - 1)]? with
    | some v =>
      pushHeap comp first holeIndex value range.length (range.set (first + hole) v)
        (secondChild - 1)
    | none => pushHeap comp first holeIndex value range.length range hole
  else pushHeap comp first holeIndex value range.length range hole

/-- The loop of `std::__make_heap`, from `parent` down to 0. -/
def makeHeapLoop {α : Type} (comp : α → α → Bool) (first len : Nat) : Nat → List α → List α
  | parent, range =>
    match range[first + parent]? with
    | none => range
    | some value =>
      let range := adjustHeap comp first range parent len value
      match parent with
      | 0 => range
      | parent + 1 => makeHeapLoop comp first len parent range

/-- The library function `std::__make_heap` on `[first, first + len)`. -/
def makeHeap {α : Type} (comp : α → α → Bool) (first len : Nat) (range : List α) : List α :=
  if len < 2 then range else makeHeapLoop comp first len ((len - 2) / 2) range

/-- The library function `std::__sort_heap` on `[first, first + len)`, with
`__pop_heap` in its loop. -/
def sortHeap {α : Type} (comp : α → α → Bool) (first : Nat) : Nat → List α → List α
  | 0, range => range
  | len + 1, range =>
    if len + 1 > 1 then
      match range[first + len]?, range[first]? with
      | some value, some top =>
        sortHeap comp first len (adjustHeap comp first (range.set (first + len) top) 0 len value)
      | _, _ => range
    else range

/-- The library function `std::__partial_sort(first, last, last)`: heap sort. -/
def heapSort {α : Type} (comp : α → α → Bool) (range : List α) (first last : Nat) : List α :=
  sortHeap comp first (last - first) (makeHeap comp first (last - first) range)

/-- The library function `std::__introsort_loop` on `[first, last)`. -/
def introsortLoop {α : Type} (comp : α → α → Bool) : Nat → List α → Nat → Nat → List α
  | 0, range, first, last =>
    if last - first > 16 then heapSort comp range first last else range
  | depth_limit + 1, range, first, last =>
    if last - first > 16 then
      let cut := unguardedPartitionPivot comp range first last
      introsortLoop comp depth_limit
        (introsortLoop comp depth_limit cut.2 cut.1 last) first cut.1
    else range

/-- The call `std::sort(first, last, comp)` as the library (libstdc++) runs it:
`__introsort_loop` with the depth limit `2 * floor(log2(n))`, then
`__final_insertion_sort`.  Positions are natural numbers and the loops carry
the length of the range as fuel: a loop that the library would continue outside
the range, which it does only with a comparator that is not a strict weak order
and with undefined behaviour, ends at the border of the range here. -/
def stdSort {α : Type} (comp : α → α → Bool) (range : List α) : List α :=
  finalInsertionSort comp (introsortLoop comp (2 * Nat.log2 range.length) range 0 range.length)

namespace SearchServer

variable {R : Type}

/-- The constructor from a container of stop words. -/
def create (stop_words : List Str) : Except Error (SearchServer R) :=
  if stop_words.all IsValidWord then
    .ok ⟨MakeUniqueNonEmptyStrings stop_words, [], [], []⟩
  else .error Error.ValidationError

/-- The constructor from a string of stop words. -/
def createFromText (stop_words_text : Str) : Except Error (SearchServer R) :=
  create (SplitIntoWords stop_words_text)

/-- The member `IsStopWord`. -/
def IsStopWord (s : SearchServer R) (word : Str) : Bool :=
  decide (StdSet.count s.stop_words_ word > 0)

/-- The member `SplitIntoWordsNoStop`. -/
def SplitIntoWordsNoStop (s : SearchServer R) (text : Str) : List Str :=
  (SplitIntoWords text).filter (fun word => !s.IsStopWord word)

/-- The member `GetDocumentCount`. -/
def GetDocumentCount (s : SearchServer R) : Int := (s.documents_.length : Int)

/-- The loop of `AddDocument` that records the term frequencies:
`word_to_document_freqs_[word][document_id] += 1.0 / words.size()`, in the
arithmetic of `R`. -/
def AddWords [Zero R] [One R] [Add R] [Div R] [NatCast R] (document_id : Int) (size : Nat) :
    List Str → StdMap Str (StdMap Int R) → StdMap Str (StdMap Int R)
  | [], index => index
  | word :: rest, index =>
    AddWords document_id size rest
      (StdMap.upsert word [] (StdMap.upsert document_id 0 (fun x => x + 1 / (size : R))) index)

/-- The member `AddDocument`: the outcome and the engine left behind. -/
def AddDocument [Zero R] [One R] [Add R] [Div R] [NatCast R] (s : SearchServer R) (document_id : Int)
    (document : Str)
    (status : DocumentStatus) (ratings : List Int) : Except Error Unit × SearchServer R :=
  if document_id < 0 then (.error Error.InvalidId, s)
  else if (s.documents_.find document_id).isSome then (.error Error.DuplicateId, s)
  else
    let words := s.SplitIntoWordsNoStop document
    if !(words.all IsValidWord) then (.error Error.InvalidCharacter, s)
    else
      (.ok (),
        { s with
          word_to_document_freqs_ := AddWords document_id words.length words s.word_to_document_freqs_
          documents_ := StdMap.emplace document_id ⟨ComputeAverageRating ratings, status⟩ s.documents_
          documents_index_ := s.documents_index_ ++ [document_id] })

/-- The member `GetDocumentId`.  An index inside `[0, GetDocumentCount())` but
outside the vector is outside the language; it is reported as `OutOfRange` too. -/
def GetDocumentId (s : SearchServer R) (index : Int) : Except Error Int :=
  if 0 ≤ index ∧ index < s.GetDocumentCount then
    match s.documents_index_[index.toNat]? with
    | some id => .ok id
    | none => .error Error.OutOfRange
  else .error Error.OutOfRange

/-- The member `ParseQueryWord`; `oob text` is the value read by `text[-1]`. -/
def ParseQueryWord (s : SearchServer R) (oob : Str → Char) (text : Str) :
    Except Error QueryWord :=
  if text.isEmpty then .error Error.EmptyQuery
  else
    let is_minus := decide (text.getD 0 (Char.ofNat 0) = '-')
    let text := if is_minus then text.drop 1 else text
    if text.isEmpty then .error Error.MalformedMinus
    else if oob text = '-' then .error Error.MalformedMinus
    else if !IsValidWord text then .error Error.InvalidCharacter
    else .ok ⟨text, is_minus, s.IsStopWord text⟩

/-- The loop of `ParseQuery`. -/
def ParseQueryLoop (s : SearchServer R) (oob : Str → Char) : List Str → Query → Except Error Query
  | [], query => .ok query
  | word :: rest, query =>
    match s.ParseQueryWord oob word with
    | .error e => .error e
    | .ok query_word =>
      if !query_word.is_stop then
        if query_word.is_minus then
          ParseQueryLoop s oob rest { query with minus_words := StdSet.insert query_word.data query.minus_words }
        else
          ParseQueryLoop s oob rest { query with plus_words := StdSet.insert query_word.data query.plus_words }
      else ParseQueryLoop s oob rest query

/-- The member `ParseQuery`. -/
def ParseQuery (s : SearchServer R) (oob : Str → Char) (text : Str) : Except Error Query :=
  ParseQueryLoop s oob (SplitIntoWords text) ⟨[], []⟩

/-- The member `ComputeWordInverseDocumentFreq`. -/
def ComputeWordInverseDocumentFreq [LinearOrderedField R] (ln : R → R) (s : SearchServer R) (word : Str) :
    Except Error R :=
  match s.word_to_document_freqs_.atKey word with
  | .error e => .error e
  | .ok postings => .ok (ln ((s.GetDocumentCount : R) * 1 / (postings.length : R)))

/-- The inner loop of the plus-word pass of `FindAllDocuments`. -/
def AccumulatePostings [LinearOrderedField R] (s : SearchServer R)
    (document_predicate : Int → DocumentStatus → Int → Bool)
    (inverse_document_freq : R) : StdMap Int R → StdMap Int R → Except Error (StdMap Int R)
  | [], document_to_relevance => .ok document_to_relevance
  | (document_id, term_freq) :: rest, document_to_relevance =>
    match s.documents_.atKey document_id with
    | .error e => .error e
    | .ok document_data =>
      if document_predicate document_id document_data.status document_data.rating then
        AccumulatePostings s document_predicate inverse_document_freq rest
          (StdMap.upsert document_id 0 (fun x => x + term_freq * inverse_document_freq)
            document_to_relevance)
      else
        AccumulatePostings s document_predicate inverse_document_freq rest document_to_relevance

/-- The plus-word pass of `FindAllDocuments`. -/
def AccumulatePlusWords [LinearOrderedField R] (ln : R → R) (s : SearchServer R)
    (document_predicate : Int → DocumentStatus → Int → Bool) :
    List Str → StdMap Int R → Except Error (StdMap Int R)
  | [], document_to_relevance => .ok document_to_relevance
  | word :: rest, document_to_relevance =>
    if s.word_to_document_freqs_.count word = 0 then
      AccumulatePlusWords ln s document_predicate rest document_to_relevance
    else
      match s.ComputeWordInverseDocumentFreq ln word with
      | .error e => .error e
      | .ok inverse_document_freq =>
        match s.word_to_document_freqs_.atKey word with
        | .error e => .error e
        | .ok postings =>
          match s.AccumulatePostings document_predicate inverse_document_freq postings
              document_to_relevance with
          | .error e => .error e
          | .ok relevance => AccumulatePlusWords ln s document_predicate rest relevance

/-- The inner loop of the minus-word pass of `FindAllDocuments`. -/
def ErasePostings : StdMap Int R → StdMap Int R → StdMap Int R
  | [], document_to_relevance => document_to_relevance
  | (document_id, _) :: rest, document_to_relevance =>
    ErasePostings rest (StdMap.erase document_id document_to_relevance)

/-- The minus-word pass of `FindAllDocuments`. -/
def EraseMinusWords (s : SearchServer R) : List Str → StdMap Int R → Except Error (StdMap Int R)
  | [], document_to_relevance => .ok document_to_relevance
  | word :: rest, document_to_relevance =>
    if s.word_to_document_freqs_.count word = 0 then
      EraseMinusWords s rest document_to_relevance
    else
      match s.word_to_document_freqs_.atKey word with
      | .error e => .error e
      | .ok postings => EraseMinusWords s rest (ErasePostings postings document_to_relevance)

/-- The final loop of `FindAllDocuments`. -/
def EmitDocuments (s : SearchServer R) : StdMap Int R → Except Error (List (Document R))
  | [] => .ok []
  | (document_id, relevance) :: rest =>
    match s.documents_.atKey document_id with
    | .error e => .error e
    | .ok document_data =>
      match EmitDocuments s rest with
      | .error e => .error e
      | .ok matched_documents => .ok (⟨document_id, relevance, document_data.rating⟩ :: matched_documents)

/-- The member `FindAllDocuments`. -/
def FindAllDocuments [LinearOrderedField R] (ln : R → R) (s : SearchServer R) (query : Query)
    (document_predicate : Int → DocumentStatus → Int → Bool) : Except Error (List (Document R)) :=
  match s.AccumulatePlusWords ln document_predicate query.plus_words [] with
  | .error e => .error e
  | .ok document_to_relevance =>
    match s.EraseMinusWords query.minus_words document_to_relevance with
    | .error e => .error e
    | .ok document_to_relevance => s.EmitDocuments document_to_relevance

/-- The member template `FindTopDocuments(raw_query, document_predicate)`. -/
def FindTopDocuments [LinearOrderedField R] (ln : R → R) (oob : Str → Char) (s : SearchServer R)
    (raw_query : Str)
    (document_predicate : Int → DocumentStatus → Int → Bool) : Except Error (List (Document R)) :=
  match ValidateRawQuery raw_query with
  | .error e => .error e
  | .ok _ =>
    match s.ParseQuery oob raw_query with
    | .error e => .error e
    | .ok query =>
      match s.FindAllDocuments ln query document_predicate with
      | .error e => .error e
      | .ok matched_documents =>
        let matched_documents := stdSort DocumentBefore matched_documents
        if matched_documents.length > MAX_RESULT_DOCUMENT_COUNT then
          .ok (matched_documents.take MAX_RESULT_DOCUMENT_COUNT)
        else .ok matched_documents

/-- The overload `FindTopDocuments(raw_query, status)`. -/
def FindTopDocumentsByStatus [LinearOrderedField R] (ln : R → R) (oob : Str → Char)
    (s : SearchServer R)
    (raw_query : Str) (status : DocumentStatus) : Except Error (List (Document R)) :=
  s.FindTopDocuments ln oob raw_query (fun _ doc_status _ => decide (doc_status = status))

/-- The overload `FindTopDocuments(raw_query)`. -/
def FindTopDocumentsActual [LinearOrderedField R] (ln : R → R) (oob : Str → Char)
    (s : SearchServer R)
    (raw_query : Str) : Except Error (List (Document R)) :=
  s.FindTopDocumentsByStatus ln oob raw_query DocumentStatus.ACTUAL

/-- The plus-word loop of `MatchDocument`. -/
def MatchPlusWords (s : SearchServer R) (document_id : Int) :
    List Str → List Str → Except Error (List Str)
  | [], matched_words => .ok matched_words
  | word :: rest, matched_words =>
    if s.word_to_document_freqs_.count word = 0 then
      MatchPlusWords s document_id rest matched_words
    else
      match s.word_to_document_freqs_.atKey word with
      | .error e => .error e
      | .ok postings =>
        if StdMap.count postings document_id ≠ 0 then
          MatchPlusWords s document_id rest (matched_words ++ [word])
        else MatchPlusWords s document_id rest matched_words

/-- The minus-word loop of `MatchDocument`, with its `clear` and `break`. -/
def MatchMinusWords (s : SearchServer R) (document_id : Int) :
    List Str → List Str → Except Error (List Str)
  | [], matched_words => .ok matched_words
  | word :: rest, matched_words =>
    if s.word_to_document_freqs_.count word = 0 then
      MatchMinusWords s document_id rest matched_words
    else
      match s.word_to_document_freqs_.atKey word with
      | .error e => .error e
      | .ok postings =>
        if StdMap.count postings document_id ≠ 0 then .ok []
        else MatchMinusWords s document_id rest matched_words

/-- The member `MatchDocument`. -/
def MatchDocument (oob : Str → Char) (s : SearchServer R) (raw_query : Str) (document_id : Int) :
    Except Error (List Str × DocumentStatus) :=
  match ValidateRawQuery raw_query with
  | .error e => .error e
  | .ok _ =>
    match s.ParseQuery oob raw_query with
    | .error e => .error e
    | .ok query =>
      match s.MatchPlusWords document_id query.plus_words [] with
      | .error e => .error e
      | .ok matched_words =>
        match s.MatchMinusWords document_id query.minus_words matched_words with
        | .error e => .error e
        | .ok matched_words =>
          match s.documents_.atKey document_id with
          | .error e => .error e
          | .ok document_data => .ok (matched_words, document_data.status)

end SearchServer

/-! ## Definitions used in the statements and proofs -/

/-- The first word of a text and the words after it: a structurally recursive
description of what `SplitIntoWords` computes. -/
def splitFirst : List Char → Str × List Str
  | [] => ([], [])
  | c :: cs =>
    if c = ' ' then ([], (splitFirst cs).1 :: (splitFirst cs).2)
    else (c :: (splitFirst cs).1, (splitFirst cs).2)

/-- The document `document_id` contains `word`: the index has a posting for the
document under the word. -/
def SearchServer.WordInDocument {R : Type} (s : SearchServer R) (word : Str) (document_id : Int) :
    Bool :=
  match StdMap.find s.word_to_document_freqs_ word with
  | none => false
  | some postings => (StdMap.find postings document_id).isSome

/-- The engine constructed without stop words. -/
def emptyEngine {R : Type} : SearchServer R := ⟨[], [], [], []⟩

/-- The engines the program can build: a constructed engine, then any number
of successful `AddDocument` calls. -/
inductive Reachable {R : Type} [Zero R] [One R] [Add R] [Div R] [NatCast R] : SearchServer R → Prop
  | create (stop_words : List Str) (s : SearchServer R)
      (h : SearchServer.create stop_words = .ok s) : Reachable s
  | add (s : SearchServer R) (document_id : Int) (document : Str) (status : DocumentStatus)
      (ratings : List Int) (hs : Reachable s)
      (h : (s.AddDocument document_id document status ratings).1 = .ok ()) :
      Reachable (s.AddDocument document_id document status ratings).2

/-- The consistency of the three containers of an engine: keys ascending, every
posting refers to a catalogued document, one order entry per catalogued
document. -/
structure Consistent {R : Type} (s : SearchServer R) : Prop where
  index_wf : StdMap.WF s.word_to_document_freqs_
  postings_wf : ∀ p ∈ s.word_to_document_freqs_, StdMap.WF p.2
  postings_ids : ∀ p ∈ s.word_to_document_freqs_, ∀ id ∈ StdMap.keys p.2,
    id ∈ StdMap.keys s.documents_
  catalog_wf : StdMap.WF s.documents_
  order_length : s.documents_index_.length = s.documents_.length

/-- The arguments of one call of `AddDocument`. -/
structure AddCall where
  document_id : Int
  document : Str
  status : DocumentStatus
  ratings : List Int

/-- A sequence of `AddDocument` calls; a call that throws leaves the engine as
it was and the sequence goes on, as in the driver of the program. -/
def runCalls {R : Type} [Zero R] [One R] [Add R] [Div R] [NatCast R] (s : SearchServer R) :
    List AddCall → SearchServer R
  | [] => s
  | c :: cs => runCalls (s.AddDocument c.document_id c.document c.status c.ratings).2 cs

/-- The calls of a sequence that succeed, in order. -/
def succeededCalls {R : Type} [Zero R] [One R] [Add R] [Div R] [NatCast R] (s : SearchServer R) :
    List AddCall → List AddCall
  | [] => []
  | c :: cs =>
    match (s.AddDocument c.document_id c.document c.status c.ratings).1 with
    | .ok _ => c :: succeededCalls (s.AddDocument c.document_id c.document c.status c.ratings).2 cs
    | .error _ => succeededCalls (s.AddDocument c.document_id c.document c.status c.ratings).2 cs

/-- The engine constructed with the stop word "and". -/
def scenarioFresh {R : Type} : SearchServer R :=
  ⟨MakeUniqueNonEmptyStrings ["and".toList], [], [], []⟩

/-- The two documents of the scenario. -/
def scenarioCalls : List AddCall :=
  [⟨1, "fluffy cat fluffy tail".toList, DocumentStatus.ACTUAL, [8, 2, 3, 4]⟩,
   ⟨2, "fluffy dog and stylish collar".toList, DocumentStatus.ACTUAL, [1, 2, 3, 4]⟩]

/-- The engine of the scenario: stop word "and", documents 1 and 2. -/
def scenarioEngine {R : Type} [Zero R] [One R] [Add R] [Div R] [NatCast R] : SearchServer R :=
  runCalls scenarioFresh scenarioCalls

/-- The calls of the demo of `main` up to document 3, with the texts in English:
two good documents, a negative id, a repeated id, a control character. -/
def demoCalls : List AddCall :=
  [⟨1, "fluffy cat fluffy tail".toList, DocumentStatus.ACTUAL, [8, 2, 3, 4]⟩,
   ⟨2, "fluffy dog and stylish collar".toList, DocumentStatus.ACTUAL, [1, 2, 3, 4]⟩,
   ⟨-1, "fluffy dog and stylish collar".toList, DocumentStatus.ACTUAL, [1, 2, 3, 4]⟩,
   ⟨2, "big fluffy cat big dog".toList, DocumentStatus.ACTUAL, [1, 2, 3, 4, 5]⟩,
   ⟨3, 'b' :: 'i' :: 'g' :: ' ' :: 's' :: Char.ofNat 18 :: 't' :: [], DocumentStatus.ACTUAL, [1, 3, 2, 4, 5]⟩,
   ⟨4, "big fluffy dog and fluffy cat".toList, DocumentStatus.ACTUAL, [1, 2, 3, 4, 5]⟩]

/-- The document predicate accepts the catalogued document `document_id`. -/
def SearchServer.Accepts {R : Type} (s : SearchServer R)
    (document_predicate : Int → DocumentStatus → Int → Bool) (document_id : Int) : Bool :=
  match StdMap.find s.documents_ document_id with
  | none => false
  | some document_data => document_predicate document_id document_data.status document_data.rating

/-- The term frequency recorded for a word and a document, 0 without a posting. -/
def SearchServer.termFreq {R : Type} [LinearOrderedField R] (s : SearchServer R) (word : Str)
    (document_id : Int) : R :=
  match StdMap.find s.word_to_document_freqs_ word with
  | none => 0
  | some postings => (StdMap.find postings document_id).getD 0

/-- The number of documents indexed under a word. -/
def SearchServer.docFreq {R : Type} (s : SearchServer R) (word : Str) : Nat :=
  match StdMap.find s.word_to_document_freqs_ word with
  | none => 0
  | some postings => postings.length

/-- What the postings `postings`, weighted by `idf`, add to the relevance of
the document `document_id`. -/
def SearchServer.postingsShare {R : Type} [LinearOrderedField R] (s : SearchServer R)
    (document_predicate : Int → DocumentStatus → Int → Bool) (idf : R)
    (postings : StdMap Int R) (document_id : Int) : R :=
  ((postings.filter (fun p => decide (p.1 = document_id) && s.Accepts document_predicate p.1)).map
    (fun p => p.2 * idf)).sum

/-- What the plus-word `word` adds to the relevance of the document. -/
def SearchServer.wordShare {R : Type} [LinearOrderedField R] (ln : R → R) (s : SearchServer R)
    (document_predicate : Int → DocumentStatus → Int → Bool) (word : Str) (document_id : Int) : R :=
  match StdMap.find s.word_to_document_freqs_ word with
  | none => 0
  | some postings =>
    s.postingsShare document_predicate
      (ln ((s.GetDocumentCount : R) * 1 / (postings.length : R))) postings document_id

/-- The document is eligible for the query: accepted by the predicate, a
plus-word is indexed for it, no minus-word is. -/
def SearchServer.Eligible {R : Type} (s : SearchServer R) (query : Query)
    (document_predicate : Int → DocumentStatus → Int → Bool) (document_id : Int) : Bool :=
  s.Accepts document_predicate document_id &&
    query.plus_words.any (fun w => s.WordInDocument w document_id) &&
    !query.minus_words.any (fun w => s.WordInDocument w document_id)

/-- The words joined with single spaces. -/
def joinWords : List Str → Str
  | [] => []
  | [w] => w
  | w :: w' :: ws => w ++ ' ' :: joinWords (w' :: ws)

/-- The index entry for a word and a document: the term frequency stored under
`word_to_document_freqs_[word][document_id]`, if there is one. -/
def SearchServer.entry {R : Type} (s : SearchServer R) (word : Str) (document_id : Int) :
    Option R :=
  match StdMap.find s.word_to_document_freqs_ word with
  | none => none
  | some postings => StdMap.find postings document_id

/-- The sum, over all indexed words, of the term frequency recorded for the
document (0 for a word without a posting for it). -/
def SearchServer.termFreqSum {R : Type} [LinearOrderedField R] (s : SearchServer R)
    (document_id : Int) : R :=
  (s.word_to_document_freqs_.map (fun p => (StdMap.find p.2 document_id).getD 0)).sum

/-- The retained tokens of a document, in the words of the specification: the
space-delimited tokens of the text that are not in the set of stop words. -/
def SearchServer.retainedTokens {R : Type} (s : SearchServer R) (document : Str) : List Str :=
  (SplitIntoWords document).filter (fun w => decide (w ∉ s.stop_words_))

/-- The sum, over the words of an index, of the values of the term frequencies
recorded in `double` for the document (0 for a word without a posting for it);
the sum itself is exact. -/
def indexValueSum (index : StdMap Str (StdMap Int Binary64)) (document_id : Int) : ℚ :=
  (index.map (fun p => ((StdMap.find p.2 document_id).getD 0).val)).sum

/-- The sum, over all indexed words, of the values of the term frequencies
recorded in `double` for the document. -/
def SearchServer.termFreqValueSum (s : SearchServer Binary64) (document_id : Int) : ℚ :=
  indexValueSum s.word_to_document_freqs_ document_id

/-- The same sum accumulated in `double`: the term frequencies recorded for the
document are added to 0.0 one by one, in the iteration order of the index. -/
def SearchServer.termFreqDoubleSum (s : SearchServer Binary64) (document_id : Int) : Binary64 :=
  s.word_to_document_freqs_.foldl
    (fun sum p => sum + (StdMap.find p.2 document_id).getD 0) 0

/-! ## Basic facts about the containers and the word predicates -/

namespace StdMap

variable {κ υ : Type} [LinearOrder κ]

theorem find_isSome_iff (m : StdMap κ υ) (k : κ) : (m.find k).isSome ↔ k ∈ m.keys := by
  induction m with
  | nil => simp [find, keys]
  | cons p m ih =>
    obtain ⟨k', v⟩ := p
    by_cases h : k' = k
    · simp [find, keys, h]
    · have h2 : ¬ k = k' := fun e => h e.symm
      simp only [keys] at ih
      simp [find, keys, h, h2, ih]

theorem find_eq_none_iff (m : StdMap κ υ) (k : κ) : m.find k = none ↔ k ∉ m.keys := by
  rw [← find_isSome_iff]
  cases m.find k <;> simp

end StdMap

theorem char_lt_space_iff (c : Char) : c < ' ' ↔ c.toNat < 32 := by
  rw [Char.lt_def, UInt32.lt_def, BitVec.lt_def]
  rfl

theorem char_zero_le (c : Char) : Char.ofNat 0 ≤ c := by
  rw [Char.le_def, UInt32.le_def, BitVec.le_def]
  exact Nat.zero_le _

theorem IsValidWord_eq_false_iff (word : Str) :
    IsValidWord word = false ↔ ∃ c ∈ word, c.toNat < 32 := by
  simp [IsValidWord, char_zero_le, char_lt_space_iff]

theorem IsValidWord_eq_true_iff (word : Str) :
    IsValidWord word = true ↔ ∀ c ∈ word, 32 ≤ c.toNat := by
  simp [IsValidWord, char_zero_le, char_lt_space_iff]

/-! ## C1: failures of `AddDocument` -/

section AddDocumentFailures

variable {R : Type} [LinearOrderedField R]

/-- C1: `AddDocument` fails with `InvalidId` for a negative id, with
`DuplicateId` for a non-negative id found in the catalog, and with
`InvalidCharacter` when (the id passing both tests) a token of the text that is
not a stop word has a character with a code below 32; such a text makes the call
fail whatever the id, and every failing call leaves the engine as it was. -/
theorem C1_AddDocument_failure_atomic (s : SearchServer R) (id : Int) (text : Str)
    (status : DocumentStatus) (ratings : List Int) :
    (id < 0 → s.AddDocument id text status ratings = (.error Error.InvalidId, s)) ∧
    (0 ≤ id → id ∈ s.documents_.keys →
      s.AddDocument id text status ratings = (.error Error.DuplicateId, s)) ∧
    ((∃ word ∈ SplitIntoWords text, s.IsStopWord word = false ∧ ∃ c ∈ word, c.toNat < 32) →
      (0 ≤ id → id ∉ s.documents_.keys →
        s.AddDocument id text status ratings = (.error Error.InvalidCharacter, s)) ∧
      ∃ e, s.AddDocument id text status ratings = (.error e, s)) ∧
    (∀ e, (s.AddDocument id text status ratings).1 = .error e →
      (s.AddDocument id text status ratings).2 = s) := by
  have hbad : (∃ word ∈ SplitIntoWords text, s.IsStopWord word = false ∧ ∃ c ∈ word, c.toNat < 32) →
      (!((s.SplitIntoWordsNoStop text).all IsValidWord)) = true := by
    rintro ⟨word, hw, hs, hc⟩
    have hv : IsValidWord word = false := (IsValidWord_eq_false_iff word).2 hc
    simp only [Bool.not_eq_true', List.all_eq_false, SearchServer.SplitIntoWordsNoStop]
    exact ⟨word, by simp [List.mem_filter, hw, hs], by simp [hv]⟩
  refine ⟨?_, ?_, ?_, ?_⟩
  · intro h
    simp [SearchServer.AddDocument, h]
  · intro h0 hmem
    have h1 : ¬ id < 0 := not_lt.mpr h0
    have h2 : (s.documents_.find id).isSome = true := (StdMap.find_isSome_iff _ _).2 hmem
    simp [SearchServer.AddDocument, h1, h2]
  · intro hb
    have hb2 := hbad hb
    constructor
    · intro h0 hmem
      have h1 : ¬ id < 0 := not_lt.mpr h0
      have h2 : (s.documents_.find id).isSome = false := by
        rw [(StdMap.find_eq_none_iff _ _).2 hmem]; rfl
      unfold SearchServer.AddDocument
      rw [if_neg h1, h2]
      simp only [Bool.false_eq_true, if_false]
      rw [if_pos hb2]
    · unfold SearchServer.AddDocument
      by_cases h1 : id < 0
      · exact ⟨_, by rw [if_pos h1]⟩
      · rw [if_neg h1]
        by_cases h2 : (s.documents_.find id).isSome = true
        · exact ⟨_, by rw [if_pos h2]⟩
        · rw [if_neg h2]
          exact ⟨_, by simp only []; rw [if_pos hb2]⟩
  · intro e
    unfold SearchServer.AddDocument
    by_cases h1 : id < 0
    · simp [h1]
    · rw [if_neg h1]
      by_cases h2 : (s.documents_.find id).isSome = true
      · simp [h2]
      · rw [if_neg h2]
        by_cases h3 : (!((s.SplitIntoWordsNoStop text).all IsValidWord)) = true
        · simp only []; rw [if_pos h3]; simp
        · simp only []; rw [if_neg h3]; simp

end AddDocumentFailures

/-! ## The words of a text -/

theorem SplitIntoWordsLoop_eq (cs : List Char) (words : List Str) (word : Str) :
    SplitIntoWordsLoop cs words word
      = words ++ (word ++ (splitFirst cs).1) :: (splitFirst cs).2 := by
  induction cs generalizing words word with
  | nil => simp [SplitIntoWordsLoop, splitFirst]
  | cons c cs ih =>
    by_cases h : c = ' '
    · simp [SplitIntoWordsLoop, splitFirst, h, ih]
    · simp [SplitIntoWordsLoop, splitFirst, h, ih]

theorem SplitIntoWords_eq (text : Str) :
    SplitIntoWords text = (splitFirst text).1 :: (splitFirst text).2 := by
  simp [SplitIntoWords, SplitIntoWordsLoop_eq]

theorem splitFirst_chars (cs : List Char) :
    (∀ c ∈ (splitFirst cs).1, c ∈ cs) ∧ ∀ w ∈ (splitFirst cs).2, ∀ c ∈ w, c ∈ cs := by
  induction cs with
  | nil => simp [splitFirst]
  | cons c cs ih =>
    obtain ⟨ih1, ih2⟩ := ih
    by_cases h : c = ' '
    · simp only [splitFirst, h, if_true]
      refine ⟨by simp, ?_⟩
      intro w hw d hd
      rcases List.mem_cons.1 hw with rfl | hw
      · exact List.mem_cons_of_mem _ (ih1 d hd)
      · exact List.mem_cons_of_mem _ (ih2 w hw d hd)
    · simp only [splitFirst, h, if_false]
      constructor
      · intro d hd
        rcases List.mem_cons.1 hd with rfl | hd
        · exact List.mem_cons_self _ _
        · exact List.mem_cons_of_mem _ (ih1 d hd)
      · intro w hw d hd
        exact List.mem_cons_of_mem _ (ih2 w hw d hd)

theorem SplitIntoWords_chars (text : Str) (w : Str) (hw : w ∈ SplitIntoWords text) :
    ∀ c ∈ w, c ∈ text := by
  rw [SplitIntoWords_eq] at hw
  rcases List.mem_cons.1 hw with rfl | hw
  · exact (splitFirst_chars text).1
  · exact (splitFirst_chars text).2 w hw

theorem ValidateQueryWords_malformed (ws : List Str) (hv : ∀ w ∈ ws, IsValidWord w = true)
    (hm : ∃ w ∈ ws, IsValidMinusWord w = false) :
    ValidateQueryWords ws = .error Error.MalformedMinus := by
  induction ws with
  | nil => simp at hm
  | cons w ws ih =>
    have hw : IsValidWord w = true := hv w (List.mem_cons_self _ _)
    by_cases h : IsValidMinusWord w = true
    · obtain ⟨x, hx, hx2⟩ := hm
      have hx3 : x ∈ ws := by
        rcases List.mem_cons.1 hx with rfl | hx
        · rw [h] at hx2; cases hx2
        · exact hx
      simp [ValidateQueryWords, hw, h, ih (fun y hy => hv y (List.mem_cons_of_mem _ hy)) ⟨x, hx3, hx2⟩]
    · simp [ValidateQueryWords, hw, h]

theorem IsValidMinusWord_dash : IsValidMinusWord ['-'] = false := by decide

theorem IsValidMinusWord_dashdash (rest : Str) : IsValidMinusWord ('-' :: '-' :: rest) = false := by
  simp [IsValidMinusWord]

theorem ValidateRawQuery_malformed (raw_query : Str) (hne : raw_query ≠ [])
    (hc : ∀ c ∈ raw_query, 32 ≤ c.toNat)
    (hm : ∃ word ∈ SplitIntoWords raw_query, word = ['-'] ∨ ∃ rest, word = '-' :: '-' :: rest) :
    ValidateRawQuery raw_query = .error Error.MalformedMinus := by
  have h1 : raw_query.isEmpty = false := by
    cases raw_query with
    | nil => exact absurd rfl hne
    | cons c cs => rfl
  unfold ValidateRawQuery
  rw [h1]
  simp only [Bool.false_eq_true, if_false]
  apply ValidateQueryWords_malformed
  · intro w hw
    rw [IsValidWord_eq_true_iff]
    intro c hcw
    exact hc c (SplitIntoWords_chars raw_query w hw c hcw)
  · obtain ⟨w, hw, hd⟩ := hm
    refine ⟨w, hw, ?_⟩
    rcases hd with rfl | ⟨rest, rfl⟩
    · exact IsValidMinusWord_dash
    · exact IsValidMinusWord_dashdash rest

/-! ## C6: rejected queries -/

section QueryRejections

variable {R : Type} [LinearOrderedField R]

/-- C6: `FindTopDocuments` and `MatchDocument` reject the empty query with
`EmptyQuery`, and reject with `MalformedMinus` every non-empty query without
control characters that has a word equal to "-" or starting with "--". -/
theorem C6_query_rejections (ln : R → R) (oob : Str → Char) (s : SearchServer R)
    (document_predicate : Int → DocumentStatus → Int → Bool) (document_id : Int) :
    s.FindTopDocuments ln oob [] document_predicate = .error Error.EmptyQuery ∧
    s.MatchDocument oob [] document_id = .error Error.EmptyQuery ∧
    ∀ raw_query : Str, raw_query ≠ [] → (∀ c ∈ raw_query, 32 ≤ c.toNat) →
      (∃ word ∈ SplitIntoWords raw_query, word = ['-'] ∨ ∃ rest, word = '-' :: '-' :: rest) →
      s.FindTopDocuments ln oob raw_query document_predicate = .error Error.MalformedMinus ∧
      s.MatchDocument oob raw_query document_id = .error Error.MalformedMinus := by
  refine ⟨rfl, rfl, ?_⟩
  intro raw_query hne hc hm
  have h := ValidateRawQuery_malformed raw_query hne hc hm
  constructor
  · simp [SearchServer.FindTopDocuments, h]
  · simp [SearchServer.MatchDocument, h]

/-- C6 at the queries "-", "--cat", "fluffy --cat" and "fluffy -": each is
rejected with `MalformedMinus` by both functions. -/
theorem C6_query_rejections_witness :
    ∀ raw_query ∈ ["-".toList, "--cat".toList, "fluffy --cat".toList, "fluffy -".toList],
      (emptyEngine (R := ℚ)).FindTopDocuments (fun x => x) (fun _ => 'x') raw_query
          (fun _ _ _ => true) = .error Error.MalformedMinus ∧
      (emptyEngine (R := ℚ)).MatchDocument (fun _ => 'x') raw_query 1 =
        .error Error.MalformedMinus := by
  have h := (C6_query_rejections (fun x => x) (fun _ => 'x') (emptyEngine (R := ℚ))
    (fun _ _ _ => true) 1).2.2
  intro raw_query hmem
  simp only [List.mem_cons, List.mem_singleton, List.not_mem_nil, or_false] at hmem
  rcases hmem with rfl | rfl | rfl | rfl
  · exact h _ (by decide) (by decide) ⟨"-".toList, by decide, Or.inl rfl⟩
  · exact h _ (by decide) (by decide) ⟨"--cat".toList, by decide, Or.inr ⟨"cat".toList, rfl⟩⟩
  · exact h _ (by decide) (by decide) ⟨"--cat".toList, by decide, Or.inr ⟨"cat".toList, rfl⟩⟩
  · exact h _ (by decide) (by decide) ⟨"-".toList, by decide, Or.inl rfl⟩

end QueryRejections

/-! ## Facts about the ordered containers -/

namespace StdMap

variable {κ υ : Type} [LinearOrder κ]

theorem mem_keys_upsert (k : κ) (d : υ) (f : υ → υ) (m : StdMap κ υ) (x : κ) :
    x ∈ (upsert k d f m).keys ↔ x = k ∨ x ∈ m.keys := by
  induction m with
  | nil => simp [upsert, keys]
  | cons p m ih =>
    obtain ⟨k', v⟩ := p
    simp only [keys] at ih
    by_cases h1 : k = k'
    · subst h1; simp [upsert, keys]
    · by_cases h2 : k < k'
      · simp [upsert, keys, h1, h2]
      · simp [upsert, keys, h1, h2, ih]; tauto

theorem WF_upsert (k : κ) (d : υ) (f : υ → υ) (m : StdMap κ υ) (hm : m.WF) :
    (upsert k d f m).WF := by
  induction m with
  | nil => simp [upsert, WF, keys]
  | cons p m ih =>
    obtain ⟨k', v⟩ := p
    have hm2 : (k' :: keys m).Pairwise (· < ·) := hm
    rw [List.pairwise_cons] at hm2
    by_cases h1 : k = k'
    · subst h1; simpa [upsert, WF, keys] using hm
    · by_cases h2 : k < k'
      · simp only [upsert, h1, h2, if_false, if_true]
        show (k :: k' :: keys m).Pairwise (· < ·)
        rw [List.pairwise_cons]
        refine ⟨?_, hm⟩
        intro x hx
        rcases List.mem_cons.1 hx with rfl | hx
        · exact h2
        · exact lt_trans h2 (hm2.1 x hx)
      · simp only [upsert, h1, h2, if_false]
        show (k' :: (upsert k d f m).keys).Pairwise (· < ·)
        rw [List.pairwise_cons]
        refine ⟨?_, ih hm2.2⟩
        intro x hx
        rcases (mem_keys_upsert k d f m x).1 hx with rfl | hx
        · exact lt_of_le_of_ne (not_lt.1 h2) (fun e => h1 e.symm)
        · exact hm2.1 x hx

theorem find_eq_none_of_lt (m : StdMap κ υ) (k k' : κ) (v : υ) (hm : WF ((k', v) :: m))
    (h : k < k') : find ((k', v) :: m) k = none := by
  rw [find_eq_none_iff]
  have hm2 : (k' :: keys m).Pairwise (· < ·) := hm
  rw [List.pairwise_cons] at hm2
  intro hk
  rcases List.mem_cons.1 hk with rfl | hk
  · exact lt_irrefl _ h
  · exact lt_asymm h (hm2.1 k hk)

theorem find_upsert (k : κ) (d : υ) (f : υ → υ) (m : StdMap κ υ) (hm : m.WF) (x : κ) :
    find (upsert k d f m) x = if x = k then some (f ((find m k).getD d)) else find m x := by
  induction m with
  | nil =>
    by_cases hx : x = k
    · simp [upsert, find, hx]
    · have hx2 : ¬ k = x := fun e => hx e.symm
      simp [upsert, find, hx, hx2]
  | cons p m ih =>
    obtain ⟨k', v⟩ := p
    have hm2 : (k' :: keys m).Pairwise (· < ·) := hm
    rw [List.pairwise_cons] at hm2
    by_cases h1 : k = k'
    · subst h1
      by_cases hx : x = k
      · simp [upsert, find, hx]
      · have hx2 : ¬ k = x := fun e => hx e.symm
        simp [upsert, find, hx, hx2]
    · by_cases h2 : k < k'
      · have h3 := find_eq_none_of_lt m k k' v hm h2
        simp only [upsert, h1, h2, if_false, if_true, h3, Option.getD_none]
        by_cases hx : x = k
        · simp [find, hx]
        · have hx2 : ¬ k = x := fun e => hx e.symm
          simp [find, hx, hx2]
      · have h1b : ¬ k' = k := fun e => h1 e.symm
        simp only [upsert, h1, h2, if_false, find, h1b]
        by_cases hx : k' = x
        · have hx3 : ¬ x = k := fun e => h1b (hx.trans e)
          simp [hx, hx3]
        · simp only [hx, if_false]
          exact ih hm2.2

theorem mem_keys_emplace (k : κ) (v : υ) (m : StdMap κ υ) (x : κ) :
    x ∈ (emplace k v m).keys ↔ x = k ∨ x ∈ m.keys := by
  induction m with
  | nil => simp [emplace, keys]
  | cons p m ih =>
    obtain ⟨k', v'⟩ := p
    simp only [keys] at ih
    by_cases h1 : k = k'
    · subst h1; simp [emplace, keys]
    · by_cases h2 : k < k'
      · simp [emplace, keys, h1, h2]
      · simp [emplace, keys, h1, h2, ih]; tauto

theorem WF_emplace (k : κ) (v : υ) (m : StdMap κ υ) (hm : m.WF) : (emplace k v m).WF := by
  induction m with
  | nil => simp [emplace, WF, keys]
  | cons p m ih =>
    obtain ⟨k', v'⟩ := p
    have hm2 : (k' :: keys m).Pairwise (· < ·) := hm
    rw [List.pairwise_cons] at hm2
    by_cases h1 : k = k'
    · subst h1; simpa [emplace, WF, keys] using hm
    · by_cases h2 : k < k'
      · simp only [emplace, h1, h2, if_false, if_true]
        show (k :: k' :: keys m).Pairwise (· < ·)
        rw [List.pairwise_cons]
        refine ⟨?_, hm⟩
        intro x hx
        rcases List.mem_cons.1 hx with rfl | hx
        · exact h2
        · exact lt_trans h2 (hm2.1 x hx)
      · simp only [emplace, h1, h2, if_false]
        show (k' :: (emplace k v m).keys).Pairwise (· < ·)
        rw [List.pairwise_cons]
        refine ⟨?_, ih hm2.2⟩
        intro x hx
        rcases (mem_keys_emplace k v m x).1 hx with rfl | hx
        · exact lt_of_le_of_ne (not_lt.1 h2) (fun e => h1 e.symm)
        · exact hm2.1 x hx

theorem find_emplace (k : κ) (v : υ) (m : StdMap κ υ) (hm : m.WF) (x : κ) :
    find (emplace k v m) x = if x = k then some ((find m k).getD v) else find m x := by
  induction m with
  | nil =>
    by_cases hx : x = k
    · simp [emplace, find, hx]
    · have hx2 : ¬ k = x := fun e => hx e.symm
      simp [emplace, find, hx, hx2]
  | cons p m ih =>
    obtain ⟨k', v'⟩ := p
    have hm2 : (k' :: keys m).Pairwise (· < ·) := hm
    rw [List.pairwise_cons] at hm2
    by_cases h1 : k = k'
    · subst h1
      by_cases hx : x = k
      · simp [emplace, find, hx]
      · have hx2 : ¬ k = x := fun e => hx e.symm
        simp [emplace, find, hx, hx2]
    · by_cases h2 : k < k'
      · have h3 := find_eq_none_of_lt m k k' v' hm h2
        simp only [emplace, h1, h2, if_false, if_true, h3, Option.getD_none]
        by_cases hx : x = k
        · simp [find, hx]
        · have hx2 : ¬ k = x := fun e => hx e.symm
          simp [find, hx, hx2]
      · have h1b : ¬ k' = k := fun e => h1 e.symm
        simp only [emplace, h1, h2, if_false, find, h1b]
        by_cases hx : k' = x
        · have hx3 : ¬ x = k := fun e => h1b (hx.trans e)
          simp [hx, hx3]
        · simp only [hx, if_false]
          exact ih hm2.2

theorem length_emplace (k : κ) (v : υ) (m : StdMap κ υ) (hk : k ∉ m.keys) :
    (emplace k v m).length = m.length + 1 := by
  induction m with
  | nil => simp [emplace]
  | cons p m ih =>
    obtain ⟨k', v'⟩ := p
    have h1 : ¬ k = k' := fun e => hk (by simp [keys, e])
    have h3 : k ∉ keys m := fun e => hk (by simp only [keys] at e; simp [keys, e])
    by_cases h2 : k < k'
    · simp [emplace, h1, h2]
    · simp [emplace, h1, h2, ih h3]

theorem find_erase (k : κ) (m : StdMap κ υ) (x : κ) :
    find (erase k m) x = if x = k then none else find m x := by
  induction m with
  | nil => simp [erase, find]
  | cons p m ih =>
    obtain ⟨k', v⟩ := p
    by_cases h1 : k' = k
    · subst h1
      by_cases hx : x = k'
      · subst hx
        simpa [erase] using ih
      · have hx2 : ¬ k' = x := fun e => hx e.symm
        simp [erase, find, hx, hx2, ih]
    · by_cases hx : k' = x
      · subst hx
        simp [erase, find, h1]
      · simp [erase, find, h1, hx, ih]

theorem erase_sublist (k : κ) (m : StdMap κ υ) : List.Sublist (erase k m) m := by
  induction m with
  | nil => simp [erase]
  | cons p m ih =>
    obtain ⟨k', v⟩ := p
    by_cases h1 : k' = k
    · simp only [erase, h1, if_true]
      exact List.Sublist.cons _ (h1 ▸ ih)
    · simp only [erase, h1, if_false]
      exact List.Sublist.cons₂ _ ih

theorem WF_erase (k : κ) (m : StdMap κ υ) (hm : m.WF) : (erase k m).WF :=
  List.Pairwise.sublist ((erase_sublist k m).map Prod.fst) hm

theorem WF_nodup (m : StdMap κ υ) (hm : m.WF) : m.keys.Nodup :=
  List.Pairwise.imp (fun h => ne_of_lt h) hm

theorem find_eq_some_of_mem (m : StdMap κ υ) (hm : m.WF) (k : κ) (v : υ) (h : (k, v) ∈ m) :
    find m k = some v := by
  induction m with
  | nil => simp at h
  | cons p m ih =>
    obtain ⟨k', v'⟩ := p
    have hm2 : (k' :: keys m).Pairwise (· < ·) := hm
    rw [List.pairwise_cons] at hm2
    rcases List.mem_cons.1 h with h | h
    · cases h; simp [find]
    · have hk : k ∈ keys m := List.mem_map.2 ⟨(k, v), h, rfl⟩
      have h1 : ¬ k' = k := ne_of_lt (hm2.1 k hk)
      simp only [find, h1, if_false]
      exact ih hm2.2 h

theorem mem_of_find_eq_some (m : StdMap κ υ) (k : κ) (v : υ) (h : find m k = some v) :
    (k, v) ∈ m := by
  induction m with
  | nil => simp [find] at h
  | cons p m ih =>
    obtain ⟨k', v'⟩ := p
    by_cases h1 : k' = k
    · simp only [find, h1, if_true, Option.some.injEq] at h
      simp [h1, h]
    · simp only [find, h1, if_false] at h
      exact List.mem_cons_of_mem _ (ih h)

end StdMap

namespace StdSet

variable {κ : Type} [LinearOrder κ]

theorem mem_insert (k : κ) (m : StdSet κ) (x : κ) : x ∈ insert k m ↔ x = k ∨ x ∈ m := by
  induction m with
  | nil => simp [insert]
  | cons k' m ih =>
    by_cases h1 : k = k'
    · subst h1; simp [insert]
    · by_cases h2 : k < k'
      · simp [insert, h1, h2]
      · simp [insert, h1, h2, ih]; tauto

theorem sorted_insert (k : κ) (m : StdSet κ) (hm : m.Pairwise (· < ·)) :
    (insert k m).Pairwise (· < ·) := by
  induction m with
  | nil => simp [insert]
  | cons k' m ih =>
    have hm2 := hm
    rw [List.pairwise_cons] at hm2
    by_cases h1 : k = k'
    · subst h1; simpa [insert] using hm
    · by_cases h2 : k < k'
      · simp only [insert, h1, h2, if_false, if_true]
        rw [List.pairwise_cons]
        refine ⟨?_, hm⟩
        intro x hx
        rcases List.mem_cons.1 hx with rfl | hx
        · exact h2
        · exact lt_trans h2 (hm2.1 x hx)
      · simp only [insert, h1, h2, if_false]
        rw [List.pairwise_cons]
        refine ⟨?_, ih hm2.2⟩
        intro x hx
        rcases (mem_insert k m x).1 hx with rfl | hx
        · exact lt_of_le_of_ne (not_lt.1 h2) (fun e => h1 e.symm)
        · exact hm2.1 x hx

end StdSet

/-! ## Successful `AddDocument` calls and the consistency of the engine -/

namespace StdMap

variable {κ υ : Type} [LinearOrder κ]

theorem forall_upsert (P : υ → Prop) (k : κ) (d : υ) (f : υ → υ) (m : StdMap κ υ)
    (hm : ∀ p ∈ m, P p.2) (hd : P (f d)) (hf : ∀ v, P v → P (f v)) :
    ∀ p ∈ upsert k d f m, P p.2 := by
  induction m with
  | nil =>
    intro p hp
    simp only [upsert, List.mem_singleton] at hp
    subst hp; exact hd
  | cons q m ih =>
    obtain ⟨k', v⟩ := q
    have hm1 : P v := hm (k', v) (List.mem_cons_self _ _)
    have hm2 : ∀ p ∈ m, P p.2 := fun p hp => hm p (List.mem_cons_of_mem _ hp)
    intro p hp
    by_cases h1 : k = k'
    · simp only [upsert, h1, if_true] at hp
      rcases List.mem_cons.1 hp with rfl | hp
      · exact hf v hm1
      · exact hm2 p hp
    · by_cases h2 : k < k'
      · simp only [upsert, h1, h2, if_false, if_true] at hp
        rcases List.mem_cons.1 hp with rfl | hp
        · exact hd
        · exact hm p hp
      · simp only [upsert, h1, h2, if_false] at hp
        rcases List.mem_cons.1 hp with rfl | hp
        · exact hm1
        · exact ih hm2 p hp

end StdMap

section Consistency

variable {R : Type} [Zero R] [One R] [Add R] [Div R] [NatCast R]

theorem AddDocument_ok_iff (s : SearchServer R) (id : Int) (text : Str)
    (status : DocumentStatus) (ratings : List Int) :
    (s.AddDocument id text status ratings).1 = .ok () ↔
      0 ≤ id ∧ id ∉ StdMap.keys s.documents_ ∧
        (s.SplitIntoWordsNoStop text).all IsValidWord = true := by
  unfold SearchServer.AddDocument
  by_cases h1 : id < 0
  · have h1b : ¬ 0 ≤ id := not_le.mpr h1
    simp [h1, h1b]
  · rw [if_neg h1]
    have h1b : 0 ≤ id := not_lt.mp h1
    by_cases h2 : (StdMap.find s.documents_ id).isSome = true
    · have h2b : id ∈ StdMap.keys s.documents_ := (StdMap.find_isSome_iff _ _).1 h2
      rw [if_pos h2]
      simp [h2b]
    · have h2b : id ∉ StdMap.keys s.documents_ := fun e => h2 ((StdMap.find_isSome_iff _ _).2 e)
      rw [if_neg h2]
      by_cases h3 : (s.SplitIntoWordsNoStop text).all IsValidWord = true
      · simp only [h3, Bool.not_true, Bool.false_eq_true, if_false]
        exact ⟨fun _ => ⟨h1b, h2b, trivial⟩, fun _ => trivial⟩
      · have h3b : (!(s.SplitIntoWordsNoStop text).all IsValidWord) = true := by
          simpa using h3
        simp only [h3b, if_true]
        constructor
        · intro h; cases h
        · intro h; exact absurd h.2.2 h3

theorem AddDocument_ok_state (s : SearchServer R) (id : Int) (text : Str)
    (status : DocumentStatus) (ratings : List Int)
    (h : (s.AddDocument id text status ratings).1 = .ok ()) :
    (s.AddDocument id text status ratings).2 =
      { s with
        word_to_document_freqs_ :=
          SearchServer.AddWords id (s.SplitIntoWordsNoStop text).length
            (s.SplitIntoWordsNoStop text) s.word_to_document_freqs_
        documents_ := StdMap.emplace id ⟨ComputeAverageRating ratings, status⟩ s.documents_
        documents_index_ := s.documents_index_ ++ [id] } := by
  obtain ⟨h1, h2, h3⟩ := (AddDocument_ok_iff s id text status ratings).1 h
  have h1b : ¬ id < 0 := not_lt.mpr h1
  have h2b : (StdMap.find s.documents_ id).isSome = false := by
    rw [(StdMap.find_eq_none_iff _ _).2 h2]; rfl
  unfold SearchServer.AddDocument
  rw [if_neg h1b, h2b]
  simp only [Bool.false_eq_true, if_false, h3, Bool.not_true]

theorem AddDocument_error_state (s : SearchServer R) (id : Int) (text : Str)
    (status : DocumentStatus) (ratings : List Int) (e : Error)
    (h : (s.AddDocument id text status ratings).1 = .error e) :
    (s.AddDocument id text status ratings).2 = s := by
  revert h
  unfold SearchServer.AddDocument
  by_cases h1 : id < 0
  · simp [h1]
  · rw [if_neg h1]
    by_cases h2 : (StdMap.find s.documents_ id).isSome = true
    · simp [h2]
    · rw [if_neg h2]
      by_cases h3 : (!((s.SplitIntoWordsNoStop text).all IsValidWord)) = true
      · simp only []; rw [if_pos h3]; simp
      · simp only []; rw [if_neg h3]; simp

theorem AddWords_WF (id : Int) (n : Nat) (words : List Str) (index : StdMap Str (StdMap Int R))
    (h : StdMap.WF index) : StdMap.WF (SearchServer.AddWords id n words index) := by
  induction words generalizing index with
  | nil => exact h
  | cons w ws ih => exact ih _ (StdMap.WF_upsert _ _ _ _ h)

theorem AddWords_forall (P : StdMap Int R → Prop) (id : Int) (n : Nat) (words : List Str)
    (index : StdMap Str (StdMap Int R)) (h : ∀ p ∈ index, P p.2)
    (hf : ∀ ps, P ps → P (StdMap.upsert id 0 (fun x => x + 1 / (n : R)) ps))
    (h0 : P []) :
    ∀ p ∈ SearchServer.AddWords id n words index, P p.2 := by
  induction words generalizing index with
  | nil => exact h
  | cons w ws ih =>
    exact ih _ (StdMap.forall_upsert P _ _ _ _ h (hf _ h0) hf)

theorem Consistent_AddDocument (s : SearchServer R) (id : Int) (text : Str)
    (status : DocumentStatus) (ratings : List Int) (hs : Consistent s)
    (h : (s.AddDocument id text status ratings).1 = .ok ()) :
    Consistent (s.AddDocument id text status ratings).2 := by
  obtain ⟨_, h2, _⟩ := (AddDocument_ok_iff s id text status ratings).1 h
  rw [AddDocument_ok_state s id text status ratings h]
  refine ⟨?_, ?_, ?_, ?_, ?_⟩
  · exact AddWords_WF _ _ _ _ hs.index_wf
  · exact AddWords_forall (fun ps => StdMap.WF ps) _ _ _ _ hs.postings_wf
      (fun ps hps => StdMap.WF_upsert _ _ _ _ hps) (by simp [StdMap.WF, StdMap.keys])
  · apply AddWords_forall (fun ps => ∀ x ∈ StdMap.keys ps,
      x ∈ StdMap.keys (StdMap.emplace id ⟨ComputeAverageRating ratings, status⟩ s.documents_))
    · intro p hp x hx
      exact (StdMap.mem_keys_emplace _ _ _ _).2 (Or.inr (hs.postings_ids p hp x hx))
    · intro ps hps x hx
      rcases (StdMap.mem_keys_upsert _ _ _ _ _).1 hx with rfl | hx
      · exact (StdMap.mem_keys_emplace _ _ _ _).2 (Or.inl rfl)
      · exact hps x hx
    · intro x hx; simp [StdMap.keys] at hx
  · exact StdMap.WF_emplace _ _ _ hs.catalog_wf
  · show (s.documents_index_ ++ [id]).length = (StdMap.emplace id _ s.documents_).length
    rw [StdMap.length_emplace _ _ _ h2, List.length_append, hs.order_length]
    rfl

theorem Consistent_create (stop_words : List Str) (s : SearchServer R)
    (h : SearchServer.create stop_words = .ok s) : Consistent s := by
  unfold SearchServer.create at h
  by_cases hv : stop_words.all IsValidWord = true
  · rw [if_pos hv] at h
    cases h
    exact ⟨by simp [StdMap.WF, StdMap.keys], by simp, by simp, by simp [StdMap.WF, StdMap.keys], rfl⟩
  · rw [if_neg hv] at h
    cases h

theorem Reachable.consistent {s : SearchServer R} (h : Reachable s) : Consistent s := by
  induction h with
  | create stop_words s h => exact Consistent_create stop_words s h
  | add s id text status ratings _ h ih => exact Consistent_AddDocument s id text status ratings ih h

theorem Consistent_runCalls (s : SearchServer R) (calls : List AddCall) (hs : Consistent s) :
    Consistent (runCalls s calls) := by
  induction calls generalizing s with
  | nil => exact hs
  | cons c cs ih =>
    apply ih
    cases h : (s.AddDocument c.document_id c.document c.status c.ratings).1 with
    | ok u => exact Consistent_AddDocument s _ _ _ _ hs h
    | error e => rw [AddDocument_error_state s _ _ _ _ e h]; exact hs

theorem Reachable_runCalls (s : SearchServer R) (calls : List AddCall) (hs : Reachable s) :
    Reachable (runCalls s calls) := by
  induction calls generalizing s with
  | nil => exact hs
  | cons c cs ih =>
    apply ih
    cases h : (s.AddDocument c.document_id c.document c.status c.ratings).1 with
    | ok u => exact Reachable.add s _ _ _ _ hs h
    | error e => rw [AddDocument_error_state s _ _ _ _ e h]; exact hs

end Consistency

/-! ## C9: the document count and the insertion order -/

section DocumentOrder

variable {R : Type} [LinearOrderedField R]

theorem runCalls_order (s : SearchServer R) (calls : List AddCall) :
    (runCalls s calls).documents_index_ =
      s.documents_index_ ++ (succeededCalls s calls).map AddCall.document_id := by
  induction calls generalizing s with
  | nil => simp [runCalls, succeededCalls]
  | cons c cs ih =>
    cases h : (s.AddDocument c.document_id c.document c.status c.ratings).1 with
    | ok u =>
      simp only [runCalls, succeededCalls, h, ih]
      rw [AddDocument_ok_state s _ _ _ _ h]
      simp
    | error e =>
      simp only [runCalls, succeededCalls, h, ih]
      rw [AddDocument_error_state s _ _ _ _ e h]

theorem create_order (stop_words : List Str) (s : SearchServer R)
    (h : SearchServer.create stop_words = .ok s) : s.documents_index_ = [] := by
  unfold SearchServer.create at h
  by_cases hv : stop_words.all IsValidWord = true
  · rw [if_pos hv] at h; cases h; rfl
  · rw [if_neg hv] at h; cases h

/-- C9: after any sequence of `AddDocument` calls on a freshly constructed
engine, `GetDocumentCount` is the number of calls that succeeded,
`GetDocumentId(i)` is the id of the `(i+1)`-th successful call for
`0 <= i < GetDocumentCount`, and `GetDocumentId(i)` fails with `OutOfRange` for
every other `i`. -/
theorem C9_count_and_order (stop_words : List Str) (s0 : SearchServer R)
    (h0 : SearchServer.create stop_words = .ok s0) (calls : List AddCall) :
    (runCalls s0 calls).GetDocumentCount = ((succeededCalls s0 calls).length : Int) ∧
    (∀ i : Int, 0 ≤ i → i < (runCalls s0 calls).GetDocumentCount →
      ∃ c, (succeededCalls s0 calls)[i.toNat]? = some c ∧
        (runCalls s0 calls).GetDocumentId i = .ok c.document_id) ∧
    (∀ i : Int, i < 0 ∨ (runCalls s0 calls).GetDocumentCount ≤ i →
      (runCalls s0 calls).GetDocumentId i = .error Error.OutOfRange) := by
  have hc : Consistent (runCalls s0 calls) :=
    Consistent_runCalls s0 calls (Consistent_create stop_words s0 h0)
  have ho : (runCalls s0 calls).documents_index_ =
      (succeededCalls s0 calls).map AddCall.document_id := by
    rw [runCalls_order, create_order stop_words s0 h0]; rfl
  have hn : (runCalls s0 calls).GetDocumentCount = ((succeededCalls s0 calls).length : Int) := by
    unfold SearchServer.GetDocumentCount
    rw [← hc.order_length, ho, List.length_map]
  refine ⟨hn, ?_, ?_⟩
  · intro i hi0 hi1
    rw [hn] at hi1
    have hlt : i.toNat < (succeededCalls s0 calls).length := by omega
    refine ⟨(succeededCalls s0 calls)[i.toNat], List.getElem?_eq_getElem hlt, ?_⟩
    unfold SearchServer.GetDocumentId
    rw [if_pos ⟨hi0, by rw [hn]; exact hi1⟩, ho, List.getElem?_map, List.getElem?_eq_getElem hlt]
    rfl
  · intro i hi
    unfold SearchServer.GetDocumentId
    rw [if_neg]
    intro h
    omega

/-- C9 on the calls of the demo: three of the six calls succeed. -/
theorem C9_count_and_order_witness :
    (runCalls (scenarioFresh (R := ℚ)) demoCalls).GetDocumentCount = 3 ∧
    (runCalls (scenarioFresh (R := ℚ)) demoCalls).GetDocumentId 2 = .ok 4 ∧
    (runCalls (scenarioFresh (R := ℚ)) demoCalls).GetDocumentId 3 = .error Error.OutOfRange := by
  have h := C9_count_and_order ["and".toList] (scenarioFresh (R := ℚ)) rfl demoCalls
  have h3 : succeededCalls (scenarioFresh (R := ℚ)) demoCalls =
      [⟨1, "fluffy cat fluffy tail".toList, DocumentStatus.ACTUAL, [8, 2, 3, 4]⟩,
       ⟨2, "fluffy dog and stylish collar".toList, DocumentStatus.ACTUAL, [1, 2, 3, 4]⟩,
       ⟨4, "big fluffy dog and fluffy cat".toList, DocumentStatus.ACTUAL, [1, 2, 3, 4, 5]⟩] := rfl
  rw [h3] at h
  obtain ⟨h1, h2, h4⟩ := h
  refine ⟨h1, ?_, h4 3 (Or.inr (by rw [h1]; decide))⟩
  obtain ⟨c, hc1, hc2⟩ := h2 2 (by decide) (by rw [h1]; decide)
  have hc3 : c = ⟨4, "big fluffy dog and fluffy cat".toList, DocumentStatus.ACTUAL, [1, 2, 3, 4, 5]⟩ := by
    simpa using hc1.symm
  rw [hc2, hc3]

end DocumentOrder

/-! ## C5: `MatchDocument` -/

namespace StdMap

variable {κ υ : Type} [LinearOrder κ]

theorem count_eq_zero_iff (m : StdMap κ υ) (k : κ) : count m k = 0 ↔ find m k = none := by
  unfold count
  cases find m k <;> simp

theorem count_ne_zero_iff (m : StdMap κ υ) (k : κ) :
    count m k ≠ 0 ↔ (find m k).isSome = true := by
  unfold count
  cases find m k <;> simp

theorem atKey_of_find (m : StdMap κ υ) (k : κ) (v : υ) (h : find m k = some v) :
    atKey m k = .ok v := by
  unfold atKey
  rw [h]

end StdMap

section Matching

variable {R : Type} [LinearOrderedField R]

theorem MatchPlusWords_eq (s : SearchServer R) (id : Int) (words matched : List Str) :
    s.MatchPlusWords id words matched =
      .ok (matched ++ words.filter (fun w => s.WordInDocument w id)) := by
  induction words generalizing matched with
  | nil => simp [SearchServer.MatchPlusWords]
  | cons w ws ih =>
    unfold SearchServer.MatchPlusWords
    cases hf : StdMap.find s.word_to_document_freqs_ w with
    | none =>
      have hc : StdMap.count s.word_to_document_freqs_ w = 0 :=
        (StdMap.count_eq_zero_iff _ _).2 hf
      have hw : s.WordInDocument w id = false := by simp [SearchServer.WordInDocument, hf]
      rw [if_pos hc, ih, List.filter_cons_of_neg (by simp [hw])]
    | some postings =>
      have hc : ¬ StdMap.count s.word_to_document_freqs_ w = 0 := by
        rw [StdMap.count_eq_zero_iff, hf]; simp
      rw [if_neg hc, StdMap.atKey_of_find _ _ _ hf]
      simp only []
      by_cases hp : StdMap.count postings id ≠ 0
      · have hw : s.WordInDocument w id = true := by
          simp only [SearchServer.WordInDocument, hf]
          exact (StdMap.count_ne_zero_iff _ _).1 hp
        rw [if_pos hp, ih, List.filter_cons_of_pos (by simp [hw])]
        simp
      · have hw : s.WordInDocument w id = false := by
          simp only [SearchServer.WordInDocument, hf]
          have := (StdMap.count_ne_zero_iff postings id).not.1 hp
          simpa using this
        rw [if_neg hp, ih, List.filter_cons_of_neg (by simp [hw])]

theorem MatchMinusWords_eq (s : SearchServer R) (id : Int) (words matched : List Str) :
    s.MatchMinusWords id words matched =
      .ok (if words.any (fun w => s.WordInDocument w id) = true then [] else matched) := by
  induction words generalizing matched with
  | nil => simp [SearchServer.MatchMinusWords]
  | cons w ws ih =>
    unfold SearchServer.MatchMinusWords
    cases hf : StdMap.find s.word_to_document_freqs_ w with
    | none =>
      have hc : StdMap.count s.word_to_document_freqs_ w = 0 :=
        (StdMap.count_eq_zero_iff _ _).2 hf
      have hw : s.WordInDocument w id = false := by simp [SearchServer.WordInDocument, hf]
      rw [if_pos hc, ih]
      simp [hw]
    | some postings =>
      have hc : ¬ StdMap.count s.word_to_document_freqs_ w = 0 := by
        rw [StdMap.count_eq_zero_iff, hf]; simp
      rw [if_neg hc, StdMap.atKey_of_find _ _ _ hf]
      simp only []
      by_cases hp : StdMap.count postings id ≠ 0
      · have hw : s.WordInDocument w id = true := by
          simp only [SearchServer.WordInDocument, hf]
          exact (StdMap.count_ne_zero_iff _ _).1 hp
        rw [if_pos hp]
        simp [hw]
      · have hw : s.WordInDocument w id = false := by
          simp only [SearchServer.WordInDocument, hf]
          have := (StdMap.count_ne_zero_iff postings id).not.1 hp
          simpa using this
        rw [if_neg hp, ih]
        simp [hw]

theorem ParseQueryLoop_sorted (s : SearchServer R) (oob : Str → Char) (words : List Str)
    (query result : Query) (hp : query.plus_words.Pairwise (· < ·))
    (hm : query.minus_words.Pairwise (· < ·))
    (h : s.ParseQueryLoop oob words query = .ok result) :
    result.plus_words.Pairwise (· < ·) ∧ result.minus_words.Pairwise (· < ·) := by
  induction words generalizing query with
  | nil =>
    simp only [SearchServer.ParseQueryLoop, Except.ok.injEq] at h
    subst h; exact ⟨hp, hm⟩
  | cons w ws ih =>
    unfold SearchServer.ParseQueryLoop at h
    cases hw : s.ParseQueryWord oob w with
    | error e => rw [hw] at h; cases h
    | ok qw =>
      rw [hw] at h
      simp only [] at h
      by_cases h1 : (!qw.is_stop) = true
      · rw [if_pos h1] at h
        by_cases h2 : qw.is_minus = true
        · rw [if_pos h2] at h
          exact ih ⟨query.plus_words, StdSet.insert qw.data query.minus_words⟩ hp
            (StdSet.sorted_insert _ _ hm) h
        · rw [if_neg h2] at h
          exact ih ⟨StdSet.insert qw.data query.plus_words, query.minus_words⟩
            (StdSet.sorted_insert _ _ hp) hm h
      · rw [if_neg h1] at h
        exact ih _ hp hm h

theorem ParseQuery_sorted (s : SearchServer R) (oob : Str → Char) (text : Str) (query : Query)
    (h : s.ParseQuery oob text = .ok query) :
    query.plus_words.Pairwise (· < ·) ∧ query.minus_words.Pairwise (· < ·) :=
  ParseQueryLoop_sorted s oob _ ⟨[], []⟩ query List.Pairwise.nil List.Pairwise.nil h

/-- C5: for an accepted query and a catalogued document, `MatchDocument` returns
the stored status together with the empty sequence when a minus-word of the query
is indexed for the document, and otherwise with the plus-words of the query
indexed for the document, in strictly ascending order (so each once). -/
theorem C5_MatchDocument (oob : Str → Char) (s : SearchServer R) (raw_query : Str)
    (document_id : Int) (query : Query) (document_data : DocumentData)
    (hv : ValidateRawQuery raw_query = .ok ())
    (hq : s.ParseQuery oob raw_query = .ok query)
    (hid : StdMap.find s.documents_ document_id = some document_data) :
    ∃ matched_words,
      s.MatchDocument oob raw_query document_id = .ok (matched_words, document_data.status) ∧
      ((∃ word ∈ query.minus_words, s.WordInDocument word document_id = true) →
        matched_words = []) ∧
      ((∀ word ∈ query.minus_words, s.WordInDocument word document_id = false) →
        (∀ word, word ∈ matched_words ↔
          word ∈ query.plus_words ∧ s.WordInDocument word document_id = true) ∧
        matched_words = query.plus_words.filter (fun word => s.WordInDocument word document_id)) ∧
      matched_words.Pairwise (· < ·) := by
  have hsorted := (ParseQuery_sorted s oob raw_query query hq).1
  have hfs : (query.plus_words.filter (fun word => s.WordInDocument word document_id)).Pairwise
      (· < ·) := List.Pairwise.sublist (List.filter_sublist _) hsorted
  refine ⟨if query.minus_words.any (fun w => s.WordInDocument w document_id) = true then []
    else query.plus_words.filter (fun w => s.WordInDocument w document_id), ?_, ?_, ?_, ?_⟩
  · unfold SearchServer.MatchDocument
    rw [hv]
    simp only [hq, MatchPlusWords_eq, MatchMinusWords_eq, List.nil_append,
      StdMap.atKey_of_find _ _ _ hid]
  · rintro ⟨w, hw, hw2⟩
    have : query.minus_words.any (fun w => s.WordInDocument w document_id) = true :=
      List.any_eq_true.2 ⟨w, hw, hw2⟩
    rw [if_pos this]
  · intro hall
    have : ¬ query.minus_words.any (fun w => s.WordInDocument w document_id) = true := by
      intro h
      obtain ⟨w, hw, hw2⟩ := List.any_eq_true.1 h
      rw [hall w hw] at hw2
      cases hw2
    rw [if_neg this]
    exact ⟨fun word => by simp [List.mem_filter], rfl⟩
  · split
    · exact List.Pairwise.nil
    · exact hfs

end Matching

/-- C5 on the engine of the scenario, query "tail fluffy -dog", document 1: the
query is accepted, the document is catalogued, and the matched words are
"fluffy" and "tail" in this order. -/
theorem C5_MatchDocument_witness :
    (scenarioEngine (R := ℚ)).MatchDocument (fun _ => 'x') "tail fluffy -dog".toList 1 =
      .ok (["fluffy".toList, "tail".toList], DocumentStatus.ACTUAL) := by
  obtain ⟨matched_words, h1, _, h3, _⟩ :=
    C5_MatchDocument (fun _ => 'x') (scenarioEngine (R := ℚ)) "tail fluffy -dog".toList 1
      ⟨["fluffy".toList, "tail".toList], ["dog".toList]⟩ ⟨4, DocumentStatus.ACTUAL⟩ rfl rfl rfl
  rw [h1, (h3 (by decide)).2]
  rfl

/-! ## The passes of `FindAllDocuments` -/

section Ranking

variable {R : Type} [LinearOrderedField R]

theorem Accepts_of_atKey (s : SearchServer R) (pred : Int → DocumentStatus → Int → Bool)
    (id : Int) (data : DocumentData) (h : StdMap.atKey s.documents_ id = .ok data) :
    s.Accepts pred id = pred id data.status data.rating := by
  unfold StdMap.atKey at h
  unfold SearchServer.Accepts
  cases hf : StdMap.find s.documents_ id with
  | none => rw [hf] at h; cases h
  | some d => rw [hf] at h; cases h; rfl

theorem AccumulatePostings_spec (s : SearchServer R) (pred : Int → DocumentStatus → Int → Bool)
    (idf : R) (ps : StdMap Int R) (m m' : StdMap Int R) (hm : StdMap.WF m)
    (h : s.AccumulatePostings pred idf ps m = .ok m') :
    StdMap.WF m' ∧
    (∀ id, id ∈ StdMap.keys m' ↔
      id ∈ StdMap.keys m ∨ (id ∈ StdMap.keys ps ∧ s.Accepts pred id = true)) ∧
    (∀ id, (StdMap.find m' id).getD 0 =
      (StdMap.find m id).getD 0 + s.postingsShare pred idf ps id) := by
  induction ps generalizing m with
  | nil =>
    simp only [SearchServer.AccumulatePostings, Except.ok.injEq] at h
    subst h
    simp [StdMap.keys, SearchServer.postingsShare, hm]
  | cons p ps ih =>
    obtain ⟨id0, tf⟩ := p
    unfold SearchServer.AccumulatePostings at h
    cases hd : StdMap.atKey s.documents_ id0 with
    | error e => rw [hd] at h; cases h
    | ok data =>
      rw [hd] at h
      simp only [] at h
      have hacc := Accepts_of_atKey s pred id0 data hd
      by_cases hp : pred id0 data.status data.rating = true
      · rw [if_pos hp] at h
        obtain ⟨h1, h2, h3⟩ := ih _ (StdMap.WF_upsert _ _ _ _ hm) h
        refine ⟨h1, ?_, ?_⟩
        · intro id
          rw [h2, StdMap.mem_keys_upsert]
          by_cases hid : id = id0
          · subst hid
            simp [StdMap.keys, hacc, hp]
          · simp [StdMap.keys, hid]
        · intro id
          rw [h3, StdMap.find_upsert _ _ _ _ hm]
          by_cases hid : id = id0
          · subst hid
            simp [SearchServer.postingsShare, List.filter_cons, hacc, hp]
            ring
          · have hid2 : ¬ id0 = id := fun e => hid e.symm
            simp [SearchServer.postingsShare, List.filter_cons, hid, hid2]
      · rw [if_neg hp] at h
        obtain ⟨h1, h2, h3⟩ := ih _ hm h
        have hp2 : s.Accepts pred id0 = false := by
          rw [hacc]; simpa using hp
        refine ⟨h1, ?_, ?_⟩
        · intro id
          rw [h2]
          by_cases hid : id = id0
          · subst hid
            simp [StdMap.keys, hp2]
          · simp [StdMap.keys, hid]
        · intro id
          rw [h3]
          by_cases hid : id = id0
          · subst hid
            simp [SearchServer.postingsShare, List.filter_cons, hp2]
          · have hid2 : ¬ id0 = id := fun e => hid e.symm
            simp [SearchServer.postingsShare, List.filter_cons, hid, hid2]

end Ranking
section Ranking2

variable {R : Type} [LinearOrderedField R]

theorem WordInDocument_of_find (s : SearchServer R) (w : Str) (ps : StdMap Int R) (id : Int)
    (hf : StdMap.find s.word_to_document_freqs_ w = some ps) :
    s.WordInDocument w id = true ↔ id ∈ StdMap.keys ps := by
  simp only [SearchServer.WordInDocument, hf]
  exact StdMap.find_isSome_iff ps id

theorem WordInDocument_of_find_none (s : SearchServer R) (w : Str) (id : Int)
    (hf : StdMap.find s.word_to_document_freqs_ w = none) :
    s.WordInDocument w id = false := by
  simp only [SearchServer.WordInDocument, hf]

theorem ComputeWordInverseDocumentFreq_of_find (ln : R → R) (s : SearchServer R) (w : Str)
    (ps : StdMap Int R) (hf : StdMap.find s.word_to_document_freqs_ w = some ps) :
    s.ComputeWordInverseDocumentFreq ln w =
      .ok (ln ((s.GetDocumentCount : R) * 1 / (ps.length : R))) := by
  unfold SearchServer.ComputeWordInverseDocumentFreq
  rw [StdMap.atKey_of_find _ _ _ hf]

theorem AccumulatePlusWords_spec (ln : R → R) (s : SearchServer R)
    (pred : Int → DocumentStatus → Int → Bool) (ws : List Str) (m m' : StdMap Int R)
    (hm : StdMap.WF m) (h : s.AccumulatePlusWords ln pred ws m = .ok m') :
    StdMap.WF m' ∧
    (∀ id, id ∈ StdMap.keys m' ↔
      id ∈ StdMap.keys m ∨
        (s.Accepts pred id = true ∧ ∃ w ∈ ws, s.WordInDocument w id = true)) ∧
    (∀ id, (StdMap.find m' id).getD 0 =
      (StdMap.find m id).getD 0 + (ws.map (fun w => s.wordShare ln pred w id)).sum) := by
  induction ws generalizing m with
  | nil =>
    simp only [SearchServer.AccumulatePlusWords, Except.ok.injEq] at h
    subst h
    simp [hm]
  | cons w ws ih =>
    unfold SearchServer.AccumulatePlusWords at h
    cases hf : StdMap.find s.word_to_document_freqs_ w with
    | none =>
      have hc : StdMap.count s.word_to_document_freqs_ w = 0 :=
        (StdMap.count_eq_zero_iff _ _).2 hf
      rw [if_pos hc] at h
      obtain ⟨h1, h2, h3⟩ := ih _ hm h
      have hw : ∀ id, s.WordInDocument w id = false :=
        fun id => WordInDocument_of_find_none s w id hf
      refine ⟨h1, ?_, ?_⟩
      · intro id
        rw [h2]
        simp [hw]
      · intro id
        rw [h3]
        simp [SearchServer.wordShare, hf]
    | some ps =>
      have hc : ¬ StdMap.count s.word_to_document_freqs_ w = 0 := by
        rw [StdMap.count_eq_zero_iff, hf]; simp
      rw [if_neg hc, ComputeWordInverseDocumentFreq_of_find ln s w ps hf,
        StdMap.atKey_of_find _ _ _ hf] at h
      simp only [] at h
      cases ha : s.AccumulatePostings pred (ln ((s.GetDocumentCount : R) * 1 / (ps.length : R)))
          ps m with
      | error e => rw [ha] at h; cases h
      | ok m1 =>
        rw [ha] at h
        simp only [] at h
        obtain ⟨a1, a2, a3⟩ := AccumulatePostings_spec s pred _ ps m m1 hm ha
        obtain ⟨h1, h2, h3⟩ := ih _ a1 h
        refine ⟨h1, ?_, ?_⟩
        · intro id
          rw [h2, a2]
          have hw := WordInDocument_of_find s w ps id hf
          constructor
          · rintro ((h | ⟨h, h'⟩) | ⟨h, w', hw', h'⟩)
            · exact Or.inl h
            · exact Or.inr ⟨h', w, List.mem_cons_self _ _, hw.2 h⟩
            · exact Or.inr ⟨h, w', List.mem_cons_of_mem _ hw', h'⟩
          · rintro (h | ⟨h, w', hw', h'⟩)
            · exact Or.inl (Or.inl h)
            · rcases List.mem_cons.1 hw' with rfl | hw'
              · exact Or.inl (Or.inr ⟨hw.1 h', h⟩)
              · exact Or.inr ⟨h, w', hw', h'⟩
        · intro id
          rw [h3, a3]
          simp only [List.map_cons, List.sum_cons, SearchServer.wordShare, hf]
          ring

theorem ErasePostings_spec (ps : StdMap Int R) (m : StdMap Int R) (hm : StdMap.WF m) :
    StdMap.WF (SearchServer.ErasePostings ps m) ∧
    ∀ id, StdMap.find (SearchServer.ErasePostings ps m) id =
      if id ∈ StdMap.keys ps then none else StdMap.find m id := by
  induction ps generalizing m with
  | nil => simp [SearchServer.ErasePostings, StdMap.keys, hm]
  | cons p ps ih =>
    obtain ⟨id0, tf⟩ := p
    obtain ⟨h1, h2⟩ := ih (StdMap.erase id0 m) (StdMap.WF_erase _ _ hm)
    refine ⟨h1, ?_⟩
    intro id
    simp only [SearchServer.ErasePostings]
    rw [h2, StdMap.find_erase]
    by_cases hid : id = id0
    · subst hid
      simp [StdMap.keys]
    · by_cases hid2 : id ∈ StdMap.keys ps
      · have : id ∈ StdMap.keys ((id0, tf) :: ps) := List.mem_cons_of_mem _ hid2
        simp [hid2, this]
      · have : id ∉ StdMap.keys ((id0, tf) :: ps) := by
          intro hmem
          rcases List.mem_cons.1 hmem with h | h
          · exact hid h
          · exact hid2 h
        simp [hid, hid2, this]

theorem ErasePostings_sublist (ps : StdMap Int R) (m : StdMap Int R) :
    List.Sublist (SearchServer.ErasePostings ps m) m := by
  induction ps generalizing m with
  | nil => exact List.Sublist.refl _
  | cons p ps ih =>
    obtain ⟨id0, tf⟩ := p
    exact (ih (StdMap.erase id0 m)).trans (StdMap.erase_sublist id0 m)

theorem EraseMinusWords_spec (s : SearchServer R) (ws : List Str) (m m' : StdMap Int R)
    (hm : StdMap.WF m) (h : s.EraseMinusWords ws m = .ok m') :
    StdMap.WF m' ∧ List.Sublist m' m ∧
    ∀ id, StdMap.find m' id =
      if ∃ w ∈ ws, s.WordInDocument w id = true then none else StdMap.find m id := by
  induction ws generalizing m with
  | nil =>
    simp only [SearchServer.EraseMinusWords, Except.ok.injEq] at h
    subst h
    simp [hm]
  | cons w ws ih =>
    unfold SearchServer.EraseMinusWords at h
    cases hf : StdMap.find s.word_to_document_freqs_ w with
    | none =>
      have hc : StdMap.count s.word_to_document_freqs_ w = 0 :=
        (StdMap.count_eq_zero_iff _ _).2 hf
      rw [if_pos hc] at h
      obtain ⟨h1, h2, h3⟩ := ih _ hm h
      have hw : ∀ id, s.WordInDocument w id = false :=
        fun id => WordInDocument_of_find_none s w id hf
      refine ⟨h1, h2, ?_⟩
      intro id
      rw [h3]
      simp [hw]
    | some ps =>
      have hc : ¬ StdMap.count s.word_to_document_freqs_ w = 0 := by
        rw [StdMap.count_eq_zero_iff, hf]; simp
      rw [if_neg hc, StdMap.atKey_of_find _ _ _ hf] at h
      simp only [] at h
      obtain ⟨e1, e2⟩ := ErasePostings_spec ps m hm
      obtain ⟨h1, h2, h3⟩ := ih _ e1 h
      refine ⟨h1, h2.trans (ErasePostings_sublist ps m), ?_⟩
      intro id
      rw [h3, e2]
      have hw := WordInDocument_of_find s w ps id hf
      by_cases hin : id ∈ StdMap.keys ps
      · have hw2 : s.WordInDocument w id = true := hw.2 hin
        have : ∃ w' ∈ w :: ws, s.WordInDocument w' id = true :=
          ⟨w, List.mem_cons_self _ _, hw2⟩
        simp [hin, hw2]
      · have hw2 : s.WordInDocument w id = false := by
          cases hb : s.WordInDocument w id with
          | false => rfl
          | true => exact absurd (hw.1 hb) hin
        simp [hin, hw2]

theorem EraseMinusWords_ok (s : SearchServer R) (ws : List Str) (m : StdMap Int R) :
    ∃ m', s.EraseMinusWords ws m = .ok m' := by
  induction ws generalizing m with
  | nil => exact ⟨m, rfl⟩
  | cons w ws ih =>
    unfold SearchServer.EraseMinusWords
    cases hf : StdMap.find s.word_to_document_freqs_ w with
    | none =>
      have hc : StdMap.count s.word_to_document_freqs_ w = 0 :=
        (StdMap.count_eq_zero_iff _ _).2 hf
      rw [if_pos hc]
      exact ih m
    | some ps =>
      have hc : ¬ StdMap.count s.word_to_document_freqs_ w = 0 := by
        rw [StdMap.count_eq_zero_iff, hf]; simp
      rw [if_neg hc, StdMap.atKey_of_find _ _ _ hf]
      exact ih _

theorem EmitDocuments_spec (s : SearchServer R) (m : StdMap Int R) (docs : List (Document R))
    (h : s.EmitDocuments m = .ok docs) :
    docs.map Document.id = StdMap.keys m ∧
    ∀ d ∈ docs, (d.id, d.relevance) ∈ m ∧
      ∃ data, StdMap.find s.documents_ d.id = some data ∧ d.rating = data.rating := by
  induction m generalizing docs with
  | nil =>
    simp only [SearchServer.EmitDocuments, Except.ok.injEq] at h
    subst h
    exact ⟨rfl, by simp⟩
  | cons p m ih =>
    obtain ⟨id0, r⟩ := p
    unfold SearchServer.EmitDocuments at h
    cases hd : StdMap.atKey s.documents_ id0 with
    | error e => rw [hd] at h; cases h
    | ok data =>
      rw [hd] at h
      simp only [] at h
      cases he : s.EmitDocuments m with
      | error e => rw [he] at h; cases h
      | ok rest =>
        rw [he] at h
        simp only [Except.ok.injEq] at h
        subst h
        obtain ⟨i1, i2⟩ := ih rest he
        refine ⟨by simp [StdMap.keys, i1], ?_⟩
        intro d hd'
        rcases List.mem_cons.1 hd' with rfl | hd'
        · refine ⟨List.mem_cons_self _ _, data, ?_, rfl⟩
          unfold StdMap.atKey at hd
          cases hf : StdMap.find s.documents_ id0 with
          | none => rw [hf] at hd; cases hd
          | some v => rw [hf] at hd; cases hd; rfl
        · exact ⟨List.mem_cons_of_mem _ (i2 d hd').1, (i2 d hd').2⟩

theorem atKey_ok_of_mem (m : StdMap Int DocumentData) (id : Int) (h : id ∈ StdMap.keys m) :
    ∃ data, StdMap.atKey m id = .ok data ∧ StdMap.find m id = some data := by
  have h2 := (StdMap.find_isSome_iff m id).2 h
  unfold StdMap.atKey
  cases hf : StdMap.find m id with
  | none => rw [hf] at h2; cases h2
  | some v => exact ⟨v, rfl, rfl⟩

theorem EmitDocuments_ok (s : SearchServer R) (m : StdMap Int R)
    (hm : ∀ id ∈ StdMap.keys m, id ∈ StdMap.keys s.documents_) :
    ∃ docs, s.EmitDocuments m = .ok docs := by
  induction m with
  | nil => exact ⟨[], rfl⟩
  | cons p m ih =>
    obtain ⟨id0, r⟩ := p
    obtain ⟨data, hd, _⟩ := atKey_ok_of_mem s.documents_ id0 (hm id0 (List.mem_cons_self _ _))
    obtain ⟨rest, hr⟩ := ih (fun id hid => hm id (List.mem_cons_of_mem _ hid))
    unfold SearchServer.EmitDocuments
    rw [hd]
    simp only [hr]
    exact ⟨_, rfl⟩

theorem AccumulatePostings_ok (s : SearchServer R) (pred : Int → DocumentStatus → Int → Bool)
    (idf : R) (ps : StdMap Int R) (m : StdMap Int R)
    (hps : ∀ id ∈ StdMap.keys ps, id ∈ StdMap.keys s.documents_) :
    ∃ m', s.AccumulatePostings pred idf ps m = .ok m' := by
  induction ps generalizing m with
  | nil => exact ⟨m, rfl⟩
  | cons p ps ih =>
    obtain ⟨id0, tf⟩ := p
    obtain ⟨data, hd, _⟩ := atKey_ok_of_mem s.documents_ id0 (hps id0 (List.mem_cons_self _ _))
    have ih2 := fun m => ih m (fun id hid => hps id (List.mem_cons_of_mem _ hid))
    unfold SearchServer.AccumulatePostings
    rw [hd]
    simp only []
    split
    · exact ih2 _
    · exact ih2 _

theorem AccumulatePlusWords_ok (ln : R → R) (s : SearchServer R) (hs : Consistent s)
    (pred : Int → DocumentStatus → Int → Bool) (ws : List Str) (m : StdMap Int R) :
    ∃ m', s.AccumulatePlusWords ln pred ws m = .ok m' := by
  induction ws generalizing m with
  | nil => exact ⟨m, rfl⟩
  | cons w ws ih =>
    unfold SearchServer.AccumulatePlusWords
    cases hf : StdMap.find s.word_to_document_freqs_ w with
    | none =>
      have hc : StdMap.count s.word_to_document_freqs_ w = 0 :=
        (StdMap.count_eq_zero_iff _ _).2 hf
      rw [if_pos hc]
      exact ih m
    | some ps =>
      have hc : ¬ StdMap.count s.word_to_document_freqs_ w = 0 := by
        rw [StdMap.count_eq_zero_iff, hf]; simp
      rw [if_neg hc, ComputeWordInverseDocumentFreq_of_find ln s w ps hf,
        StdMap.atKey_of_find _ _ _ hf]
      simp only []
      obtain ⟨m1, hm1⟩ := AccumulatePostings_ok s pred
        (ln ((s.GetDocumentCount : R) * 1 / (ps.length : R))) ps m
        (hs.postings_ids (w, ps) (StdMap.mem_of_find_eq_some _ _ _ hf))
      rw [hm1]
      exact ih m1

/-- What `FindAllDocuments` returns: the ids are strictly ascending; a document
is returned exactly when the predicate accepts it, a plus-word is indexed for
it and no minus-word is; the relevance is the sum of the shares of the
plus-words and the rating is the catalogued one. -/
theorem FindAllDocuments_spec (ln : R → R) (s : SearchServer R) (query : Query)
    (pred : Int → DocumentStatus → Int → Bool) (docs : List (Document R))
    (h : s.FindAllDocuments ln query pred = .ok docs) :
    (docs.map Document.id).Pairwise (· < ·) ∧
    (∀ id, id ∈ docs.map Document.id ↔
      s.Accepts pred id = true ∧ (∃ w ∈ query.plus_words, s.WordInDocument w id = true) ∧
        ∀ w ∈ query.minus_words, s.WordInDocument w id = false) ∧
    ∀ d ∈ docs,
      d.relevance = (query.plus_words.map (fun w => s.wordShare ln pred w d.id)).sum ∧
      ∃ data, StdMap.find s.documents_ d.id = some data ∧ d.rating = data.rating := by
  unfold SearchServer.FindAllDocuments at h
  cases h1 : s.AccumulatePlusWords ln pred query.plus_words [] with
  | error e => rw [h1] at h; cases h
  | ok m1 =>
    rw [h1] at h
    simp only [] at h
    cases h2 : s.EraseMinusWords query.minus_words m1 with
    | error e => rw [h2] at h; cases h
    | ok m2 =>
      rw [h2] at h
      simp only [] at h
      have hnil : StdMap.WF ([] : StdMap Int R) := List.Pairwise.nil
      obtain ⟨a1, a2, a3⟩ := AccumulatePlusWords_spec ln s pred _ [] m1 hnil h1
      obtain ⟨b1, _, b3⟩ := EraseMinusWords_spec s _ m1 m2 a1 h2
      obtain ⟨c1, c2⟩ := EmitDocuments_spec s m2 docs h
      have hminus : ∀ id, (∃ w ∈ query.minus_words, s.WordInDocument w id = true) ↔
          ¬ ∀ w ∈ query.minus_words, s.WordInDocument w id = false := by
        intro id
        constructor
        · rintro ⟨w, hw, hw2⟩ hall
          rw [hall w hw] at hw2; cases hw2
        · intro hn
          by_contra hc
          apply hn
          intro w hw
          cases hb : s.WordInDocument w id with
          | false => rfl
          | true => exact absurd ⟨w, hw, hb⟩ hc
      refine ⟨c1 ▸ b1, ?_, ?_⟩
      · intro id
        rw [c1, ← StdMap.find_isSome_iff, b3]
        by_cases hm : ∃ w ∈ query.minus_words, s.WordInDocument w id = true
        · rw [if_pos hm]
          have := (hminus id).1 hm
          simp [this]
        · rw [if_neg hm, StdMap.find_isSome_iff, a2]
          have : ∀ w ∈ query.minus_words, s.WordInDocument w id = false := by
            by_contra hc
            exact hm ((hminus id).2 hc)
          simp only [StdMap.keys, List.map_nil, List.not_mem_nil, false_or]
          exact ⟨fun ⟨x, y⟩ => ⟨x, y, this⟩, fun ⟨x, y, _⟩ => ⟨x, y⟩⟩
      · intro d hd
        obtain ⟨d1, d2⟩ := c2 d hd
        refine ⟨?_, d2⟩
        have hf2 := StdMap.find_eq_some_of_mem m2 b1 _ _ d1
        rw [b3] at hf2
        by_cases hm : ∃ w ∈ query.minus_words, s.WordInDocument w d.id = true
        · rw [if_pos hm] at hf2; cases hf2
        · rw [if_neg hm] at hf2
          have := a3 d.id
          rw [hf2] at this
          simpa [StdMap.find] using this

/-- In a consistent engine `FindAllDocuments` returns. -/
theorem FindAllDocuments_ok (ln : R → R) (s : SearchServer R) (hs : Consistent s) (query : Query)
    (pred : Int → DocumentStatus → Int → Bool) :
    ∃ docs, s.FindAllDocuments ln query pred = .ok docs := by
  obtain ⟨m1, h1⟩ := AccumulatePlusWords_ok ln s hs pred query.plus_words []
  obtain ⟨m2, h2⟩ := EraseMinusWords_ok s query.minus_words m1
  have hnil : StdMap.WF ([] : StdMap Int R) := List.Pairwise.nil
  obtain ⟨a1, a2, _⟩ := AccumulatePlusWords_spec ln s pred _ [] m1 hnil h1
  obtain ⟨_, b2, _⟩ := EraseMinusWords_spec s _ m1 m2 a1 h2
  have hkeys : ∀ id ∈ StdMap.keys m2, id ∈ StdMap.keys s.documents_ := by
    intro id hid
    have hid1 : id ∈ StdMap.keys m1 := (b2.map Prod.fst).subset hid
    rcases (a2 id).1 hid1 with h | ⟨h, _⟩
    · simp [StdMap.keys] at h
    · rw [← StdMap.find_isSome_iff]
      unfold SearchServer.Accepts at h
      cases hf : StdMap.find s.documents_ id with
      | none => rw [hf] at h; cases h
      | some v => rfl
  obtain ⟨docs, h3⟩ := EmitDocuments_ok s m2 hkeys
  refine ⟨docs, ?_⟩
  unfold SearchServer.FindAllDocuments
  rw [h1]
  simp only [h2, h3]

end Ranking2

/-! ## `std::sort` and `FindTopDocuments` -/

section Sorting

variable {α : Type}

theorem unguardedLinearInsert_perm (comp : α → α → Bool) (x : α) (l : List α) :
    (unguardedLinearInsert comp x l).Perm (x :: l) := by
  induction l with
  | nil => exact List.Perm.refl _
  | cons y ys ih =>
    unfold unguardedLinearInsert
    split
    · exact (List.Perm.cons y ih).trans (List.Perm.swap x y ys)
    · exact List.Perm.refl _

theorem insertionStep_perm (comp : α → α → Bool) (l : List α) (x : α) :
    (insertionStep comp l x).Perm (x :: l) := by
  unfold insertionStep
  split
  · rename_i h
    rw [List.getLast?_eq_none_iff.1 h]
  · split
    · exact List.perm_append_singleton x l
    · exact unguardedLinearInsert_perm comp x l

theorem foldl_perm (step : List α → α → List α) (h : ∀ acc x, (step acc x).Perm (x :: acc))
    (l acc : List α) : (l.foldl step acc).Perm (acc ++ l) := by
  induction l generalizing acc with
  | nil => simp
  | cons x xs ih =>
    rw [List.foldl_cons]
    refine (ih _).trans ?_
    refine ((h acc x).append_right xs).trans ?_
    simpa using (@List.perm_middle _ x acc xs).symm

theorem finalInsertionSort_perm (comp : α → α → Bool) (l : List α) :
    (finalInsertionSort comp l).Perm l := by
  unfold finalInsertionSort
  refine (List.reverse_perm _).trans ?_
  refine (foldl_perm _ (fun acc x => unguardedLinearInsert_perm comp x acc) _ _).trans ?_
  refine ((foldl_perm _ (insertionStep_perm comp) _ []).append_right _).trans ?_
  simp

/-- Overwriting position `i` with the element of position `j`, then position
`j` with `v`, rearranges the range with `v` at position `i`. -/
theorem set_set_perm (l : List α) (i j : Nat) (w v : α) (hi : i < l.length)
    (hw : l[j]? = some w) : ((l.set i w).set j v).Perm (l.set i v) := by
  have head_set : ∀ (xs : List α) (k : Nat) (a u : α), xs[k]? = some a →
      (a :: xs.set k u).Perm (u :: xs) := by
    intro xs
    induction xs with
    | nil => intro k a u h; simp at h
    | cons x xs ih =>
      intro k a u h
      cases k with
      | zero =>
        simp only [List.getElem?_cons_zero, Option.some.injEq] at h
        subst h
        exact List.Perm.swap _ _ _
      | succ k =>
        simp only [List.getElem?_cons_succ] at h
        simp only [List.set_cons_succ]
        exact (List.Perm.swap x a _).trans (((ih k a u h).cons x).trans (List.Perm.swap u x xs))
  have cross : ∀ (xs : List α) (k : Nat) (a u : α), k < xs.length →
      (u :: xs.set k a).Perm (a :: xs.set k u) := by
    intro xs
    induction xs with
    | nil => intro k a u h; simp at h
    | cons x xs ih =>
      intro k a u h
      cases k with
      | zero => exact List.Perm.swap _ _ _
      | succ k =>
        simp only [List.set_cons_succ]
        have hk : k < xs.length := by simpa using h
        exact (List.Perm.swap x u _).trans (((ih k a u hk).cons x).trans (List.Perm.swap a x _))
  induction l generalizing i j with
  | nil => simp at hi
  | cons x xs ih =>
    cases i with
    | zero =>
      cases j with
      | zero => simp
      | succ j =>
        simp only [List.getElem?_cons_succ] at hw
        simp only [List.set_cons_zero, List.set_cons_succ]
        exact head_set xs j w v hw
    | succ i =>
      have hi2 : i < xs.length := by simpa using hi
      cases j with
      | zero =>
        simp only [List.getElem?_cons_zero, Option.some.injEq] at hw
        subst hw
        simp only [List.set_cons_zero, List.set_cons_succ]
        exact cross xs i x v hi2
      | succ j =>
        simp only [List.getElem?_cons_succ] at hw
        simp only [List.set_cons_succ]
        exact (ih i j hi2 hw).cons x

theorem set_self_of_getElem? (l : List α) (i : Nat) (w : α) (hw : l[i]? = some w) :
    l.set i w = l := by
  induction l generalizing i with
  | nil => rfl
  | cons x xs ih =>
    cases i with
    | zero =>
      simp only [List.getElem?_cons_zero, Option.some.injEq] at hw
      subst hw
      rfl
    | succ i =>
      simp only [List.getElem?_cons_succ] at hw
      simp only [List.set_cons_succ, ih i hw]

theorem lt_length_of_getElem? (l : List α) (i : Nat) (w : α) (hw : l[i]? = some w) :
    i < l.length := by
  by_contra h
  rw [List.getElem?_eq_none (not_lt.1 h)] at hw
  cases hw

theorem iterSwap_perm (l : List α) (i j : Nat) : (iterSwap l i j).Perm l := by
  unfold iterSwap
  split
  · rename_i x y hx hy
    have h1 := set_set_perm l i j y x (lt_length_of_getElem? l i x hx) hy
    rw [set_self_of_getElem? l i x hx] at h1
    exact h1
  · exact List.Perm.refl _

theorem moveMedianToFirst_perm (comp : α → α → Bool) (l : List α) (r a b c : Nat) :
    (moveMedianToFirst comp l r a b c).Perm l := by
  unfold moveMedianToFirst
  split
  · split_ifs <;> exact iterSwap_perm _ _ _
  · exact List.Perm.refl _

theorem unguardedPartition_perm (comp : α → α → Bool) (fuel : Nat) (l : List α)
    (first last pivot : Nat) : (unguardedPartition comp fuel l first last pivot).2.Perm l := by
  induction fuel generalizing l first last with
  | zero => exact List.Perm.refl _
  | succ fuel ih =>
    unfold unguardedPartition
    split
    · exact List.Perm.refl _
    · simp only []
      split
      · exact (ih _ _ _).trans (iterSwap_perm _ _ _)
      · exact List.Perm.refl _

theorem unguardedPartitionPivot_perm (comp : α → α → Bool) (l : List α) (first last : Nat) :
    (unguardedPartitionPivot comp l first last).2.Perm l := by
  unfold unguardedPartitionPivot
  exact (unguardedPartition_perm _ _ _ _ _ _).trans (moveMedianToFirst_perm _ _ _ _ _ _)

theorem pushHeap_perm (comp : α → α → Bool) (first topIndex : Nat) (value : α) (fuel : Nat)
    (l : List α) (hole : Nat) (hh : first + hole < l.length) :
    (pushHeap comp first topIndex value fuel l hole).Perm (l.set (first + hole) value) := by
  induction fuel generalizing l hole with
  | zero => exact List.Perm.refl _
  | succ fuel ih =>
    unfold pushHeap
    simp only []
    split
    · exact List.Perm.refl _
    · rename_i vp hvp
      split
      · refine (ih _ _ ?_).trans (set_set_perm l _ _ vp value hh hvp)
        rw [List.length_set]
        exact lt_length_of_getElem? l _ vp hvp
      · exact List.Perm.refl _

theorem siftHole_perm (comp : α → α → Bool) (first len : Nat) (value : α) (fuel : Nat)
    (l : List α) (hole sc : Nat) (hh : first + hole < l.length) :
    first + (siftHole comp first len fuel l hole sc).2.1 <
        (siftHole comp first len fuel l hole sc).1.length ∧
      ((siftHole comp first len fuel l hole sc).1.set
        (first + (siftHole comp first len fuel l hole sc).2.1) value).Perm
        (l.set (first + hole) value) := by
  induction fuel generalizing l hole sc with
  | zero => exact ⟨hh, List.Perm.refl _⟩
  | succ fuel ih =>
    unfold siftHole
    split
    · simp only []
      split
      · rename_i v2 v1 h2 h1
        by_cases hc : comp v2 v1 = true
        · simp only [hc, if_true]
          obtain ⟨i1, i2⟩ := ih (l.set (first + hole) v1) (2 * (sc + 1) - 1) (2 * (sc + 1) - 1)
            (by rw [List.length_set]; exact lt_length_of_getElem? l _ v1 h1)
          exact ⟨i1, i2.trans (set_set_perm l _ _ v1 value hh h1)⟩
        · simp only [hc, if_false, Bool.false_eq_true]
          obtain ⟨i1, i2⟩ := ih (l.set (first + hole) v2) (2 * (sc + 1)) (2 * (sc + 1))
            (by rw [List.length_set]; exact lt_length_of_getElem? l _ v2 h2)
          exact ⟨i1, i2.trans (set_set_perm l _ _ v2 value hh h2)⟩
      · exact ⟨hh, List.Perm.refl _⟩
    · exact ⟨hh, List.Perm.refl _⟩

theorem adjustHeap_perm (comp : α → α → Bool) (first : Nat) (l : List α) (hole len : Nat)
    (value : α) (hh : first + hole < l.length) :
    (adjustHeap comp first l hole len value).Perm (l.set (first + hole) value) := by
  obtain ⟨s1, s2⟩ := siftHole_perm comp first len value l.length l hole hole hh
  unfold adjustHeap
  generalize siftHole comp first len l.length l hole hole = r at s1 s2
  obtain ⟨l1, h1, sc1⟩ := r
  simp only [] at s1 s2 ⊢
  split
  · split
    · rename_i v hv
      refine (pushHeap_perm comp first hole value _ _ _ ?_).trans ?_
      · rw [List.length_set]
        exact lt_length_of_getElem? l1 _ v hv
      · exact (set_set_perm l1 _ _ v value s1 hv).trans s2
    · exact (pushHeap_perm comp first hole value _ _ _ s1).trans s2
  · exact (pushHeap_perm comp first hole value _ _ _ s1).trans s2

theorem makeHeapLoop_perm (comp : α → α → Bool) (first len parent : Nat) (l : List α) :
    (makeHeapLoop comp first len parent l).Perm l := by
  induction parent generalizing l with
  | zero =>
    unfold makeHeapLoop
    split
    · exact List.Perm.refl _
    · rename_i value hv
      have := adjustHeap_perm comp first l 0 len value (lt_length_of_getElem? l _ value hv)
      rw [set_self_of_getElem? l _ value hv] at this
      exact this
  | succ parent ih =>
    unfold makeHeapLoop
    split
    · exact List.Perm.refl _
    · rename_i value hv
      have := adjustHeap_perm comp first l (parent + 1) len value
        (lt_length_of_getElem? l _ value hv)
      rw [set_self_of_getElem? l _ value hv] at this
      exact (ih _).trans this

theorem makeHeap_perm (comp : α → α → Bool) (first len : Nat) (l : List α) :
    (makeHeap comp first len l).Perm l := by
  unfold makeHeap
  split
  · exact List.Perm.refl _
  · exact makeHeapLoop_perm _ _ _ _ _

theorem sortHeap_perm (comp : α → α → Bool) (first len : Nat) (l : List α) :
    (sortHeap comp first len l).Perm l := by
  induction len generalizing l with
  | zero => exact List.Perm.refl _
  | succ len ih =>
    unfold sortHeap
    split
    · split
      · rename_i value top hv ht
        refine (ih _).trans ?_
        have hlen : first + 0 < (l.set (first + len) top).length := by
          rw [List.length_set]
          exact lt_length_of_getElem? l _ top ht
        refine (adjustHeap_perm comp first _ 0 len value hlen).trans ?_
        have h1 := set_set_perm l (first + len) (first + 0) top value
          (lt_length_of_getElem? l _ value hv) ht
        rw [set_self_of_getElem? l _ value hv] at h1
        exact h1
      · exact List.Perm.refl _
    · exact List.Perm.refl _

theorem heapSort_perm (comp : α → α → Bool) (l : List α) (first last : Nat) :
    (heapSort comp l first last).Perm l := by
  unfold heapSort
  exact (sortHeap_perm _ _ _ _).trans (makeHeap_perm _ _ _ _)

theorem introsortLoop_perm (comp : α → α → Bool) (depth : Nat) (l : List α) (first last : Nat) :
    (introsortLoop comp depth l first last).Perm l := by
  induction depth generalizing l first last with
  | zero =>
    unfold introsortLoop
    split
    · exact heapSort_perm _ _ _ _
    · exact List.Perm.refl _
  | succ depth ih =>
    unfold introsortLoop
    split
    · simp only []
      exact (ih _ _ _).trans ((ih _ _ _).trans (unguardedPartitionPivot_perm _ _ _ _))
    · exact List.Perm.refl _

theorem stdSort_perm (comp : α → α → Bool) (l : List α) : (stdSort comp l).Perm l := by
  unfold stdSort
  exact (finalInsertionSort_perm _ _).trans (introsortLoop_perm _ _ _ _ _)

theorem introsortLoop_short (comp : α → α → Bool) (depth : Nat) (l : List α) (first last : Nat)
    (h : last - first ≤ 16) : introsortLoop comp depth l first last = l := by
  cases depth with
  | zero =>
    unfold introsortLoop
    rw [if_neg (by omega)]
  | succ depth =>
    unfold introsortLoop
    rw [if_neg (by omega)]

/-- On a range of at most 16 elements `std::sort` is `std::__insertion_sort`. -/
theorem stdSort_short (comp : α → α → Bool) (l : List α) (h : l.length ≤ 16) :
    stdSort comp l = (l.foldl (insertionStep comp) []).reverse := by
  unfold stdSort
  rw [introsortLoop_short comp _ l 0 l.length (by omega)]
  unfold finalInsertionSort
  rw [List.take_of_length_le h, List.drop_eq_nil_of_le h]
  rfl

end Sorting

section TopDocuments

variable {R : Type} [LinearOrderedField R]

theorem FindTopDocuments_of_parts (ln : R → R) (oob : Str → Char) (s : SearchServer R)
    (raw_query : Str) (pred : Int → DocumentStatus → Int → Bool) (query : Query)
    (docs : List (Document R)) (hv : ValidateRawQuery raw_query = .ok ())
    (hq : s.ParseQuery oob raw_query = .ok query)
    (hd : s.FindAllDocuments ln query pred = .ok docs) :
    s.FindTopDocuments ln oob raw_query pred =
      .ok ((stdSort DocumentBefore docs).take MAX_RESULT_DOCUMENT_COUNT) := by
  unfold SearchServer.FindTopDocuments
  rw [hv]
  simp only [hq, hd]
  split
  · rfl
  · rename_i h
    rw [List.take_of_length_le (not_lt.1 h)]

theorem FindTopDocuments_parts (ln : R → R) (oob : Str → Char) (s : SearchServer R)
    (raw_query : Str) (pred : Int → DocumentStatus → Int → Bool) (result : List (Document R))
    (h : s.FindTopDocuments ln oob raw_query pred = .ok result) :
    ∃ query docs, ValidateRawQuery raw_query = .ok () ∧
      s.ParseQuery oob raw_query = .ok query ∧
      s.FindAllDocuments ln query pred = .ok docs ∧
      result = (stdSort DocumentBefore docs).take MAX_RESULT_DOCUMENT_COUNT := by
  cases hv : ValidateRawQuery raw_query with
  | error e => unfold SearchServer.FindTopDocuments at h; rw [hv] at h; cases h
  | ok u =>
    cases hq : s.ParseQuery oob raw_query with
    | error e => unfold SearchServer.FindTopDocuments at h; rw [hv] at h; simp only [hq] at h; cases h
    | ok query =>
      cases hd : s.FindAllDocuments ln query pred with
      | error e =>
        unfold SearchServer.FindTopDocuments at h; rw [hv] at h; simp only [hq, hd] at h; cases h
      | ok docs =>
        rw [FindTopDocuments_of_parts ln oob s raw_query pred query docs hv hq hd] at h
        cases h
        exact ⟨query, docs, rfl, rfl, hd, rfl⟩

end TopDocuments

/-! ## C8: the scenario of the two documents -/

section Scenario

variable {R : Type} [LinearOrderedField R]

theorem ParseQueryWord_congr (s : SearchServer R) (oob oob' : Str → Char)
    (h : ∀ w, oob w ≠ '-') (h' : ∀ w, oob' w ≠ '-') (text : Str) :
    s.ParseQueryWord oob text = s.ParseQueryWord oob' text := by
  unfold SearchServer.ParseQueryWord
  simp only [h, h', if_false]

theorem ParseQueryLoop_congr (s : SearchServer R) (oob oob' : Str → Char)
    (h : ∀ w, oob w ≠ '-') (h' : ∀ w, oob' w ≠ '-') (words : List Str) (query : Query) :
    s.ParseQueryLoop oob words query = s.ParseQueryLoop oob' words query := by
  induction words generalizing query with
  | nil => rfl
  | cons w ws ih =>
    unfold SearchServer.ParseQueryLoop
    rw [ParseQueryWord_congr s oob oob' h h' w]
    cases s.ParseQueryWord oob' w with
    | error e => rfl
    | ok qw =>
      simp only [ih]

theorem ParseQuery_congr (s : SearchServer R) (oob oob' : Str → Char)
    (h : ∀ w, oob w ≠ '-') (h' : ∀ w, oob' w ≠ '-') (text : Str) :
    s.ParseQuery oob text = s.ParseQuery oob' text :=
  ParseQueryLoop_congr s oob oob' h h' _ _

theorem DocumentBefore_of_close (lhs rhs : Document R)
    (h : |lhs.relevance - rhs.relevance| < EPSILON) :
    DocumentBefore lhs rhs = decide (lhs.rating > rhs.rating) := by
  unfold DocumentBefore
  rw [if_pos h]

theorem EPSILON_pos : (0 : R) < EPSILON := by
  unfold EPSILON
  positivity

theorem scenario_relevance (ln : R → R) (hln : ln 1 = 0) (tf : R) :
    0 + tf * ln (((2 : Int) : R) * 1 / ((2 : Nat) : R)) = 0 := by
  have h : (((2 : Int) : R) * 1 / ((2 : Nat) : R)) = 1 := by
    norm_num
  rw [h, hln]
  ring

theorem scenarioEngine_eq :
    (scenarioEngine (R := R)) =
      ⟨["and".toList],
       [("cat".toList, [(1, 0 + 1 / ((4 : Nat) : R))]),
        ("collar".toList, [(2, 0 + 1 / ((4 : Nat) : R))]),
        ("dog".toList, [(2, 0 + 1 / ((4 : Nat) : R))]),
        ("fluffy".toList, [(1, 0 + 1 / ((4 : Nat) : R) + 1 / ((4 : Nat) : R)),
                          (2, 0 + 1 / ((4 : Nat) : R))]),
        ("stylish".toList, [(2, 0 + 1 / ((4 : Nat) : R))]),
        ("tail".toList, [(1, 0 + 1 / ((4 : Nat) : R))])],
       [(1, ⟨4, DocumentStatus.ACTUAL⟩), (2, ⟨2, DocumentStatus.ACTUAL⟩)],
       [1, 2]⟩ := rfl

theorem scenario_fluffy (ln : R → R) (hln : ln 1 = 0) (oob : Str → Char)
    (hoob : ∀ w, oob w ≠ '-') :
    (scenarioEngine (R := R)).FindTopDocuments ln oob "fluffy".toList
        (fun _ doc_status _ => decide (doc_status = DocumentStatus.ACTUAL)) =
      .ok [⟨1, 0, 4⟩, ⟨2, 0, 2⟩] := by
  have hx : ∀ w : Str, (fun _ : Str => 'x') w ≠ '-' := fun _ => (by decide : 'x' ≠ '-')
  have hq : (scenarioEngine (R := R)).ParseQuery oob "fluffy".toList =
      .ok ⟨["fluffy".toList], []⟩ := by
    rw [ParseQuery_congr _ oob (fun _ => 'x') hoob hx]
    rfl
  have hd : (scenarioEngine (R := R)).FindAllDocuments ln ⟨["fluffy".toList], []⟩
      (fun _ doc_status _ => decide (doc_status = DocumentStatus.ACTUAL)) =
      .ok [⟨1, 0 + (0 + 1 / ((4 : Nat) : R) + 1 / ((4 : Nat) : R)) *
            ln (((2 : Int) : R) * 1 / ((2 : Nat) : R)), 4⟩,
           ⟨2, 0 + (0 + 1 / ((4 : Nat) : R)) *
            ln (((2 : Int) : R) * 1 / ((2 : Nat) : R)), 2⟩] := by
    rw [scenarioEngine_eq]
    rfl
  rw [FindTopDocuments_of_parts ln oob _ "fluffy".toList _ _ _ rfl hq hd,
    scenario_relevance ln hln, scenario_relevance ln hln]
  have hb : DocumentBefore (⟨1, 0, 4⟩ : Document R) ⟨2, 0, 2⟩ = true := by
    rw [DocumentBefore_of_close _ _ (by simpa using EPSILON_pos)]
    show decide ((4 : Int) > 2) = true
    decide
  have hb2 : DocumentBefore (⟨2, 0, 2⟩ : Document R) ⟨1, 0, 4⟩ = false := by
    rw [DocumentBefore_of_close _ _ (by simpa using EPSILON_pos)]
    show decide ((2 : Int) > 4) = false
    decide
  rw [stdSort_short _ _ (by simp)]
  simp [insertionStep, unguardedLinearInsert, hb2, MAX_RESULT_DOCUMENT_COUNT]

/-- C8: in the engine constructed with the stop word "and" to which document 1
"fluffy cat fluffy tail" (ratings 8, 2, 3, 4) and document 2 "fluffy dog and
stylish collar" (ratings 1, 2, 3, 4) were added, both with status ACTUAL, the
stored ratings are 4 and 2, the query "fluffy -dog" returns document 1 alone and
the query "fluffy" returns document 1, then document 2.  The logarithm is any
function with `ln 1 = 0`, and the byte read by `text[-1]` is not a minus sign. -/
theorem C8_scenario (ln : R → R) (hln : ln 1 = 0) (oob : Str → Char) (hoob : ∀ w, oob w ≠ '-') :
    SearchServer.create ["and".toList] = .ok (scenarioFresh (R := R)) ∧
    succeededCalls (scenarioFresh (R := R)) scenarioCalls = scenarioCalls ∧
    (scenarioEngine (R := R)).documents_ =
      [(1, ⟨4, DocumentStatus.ACTUAL⟩), (2, ⟨2, DocumentStatus.ACTUAL⟩)] ∧
    (scenarioEngine (R := R)).FindTopDocumentsActual ln oob "fluffy -dog".toList =
      .ok [⟨1, 0, 4⟩] ∧
    (scenarioEngine (R := R)).FindTopDocumentsActual ln oob "fluffy".toList =
      .ok [⟨1, 0, 4⟩, ⟨2, 0, 2⟩] := by
  have hx : ∀ w : Str, (fun _ : Str => 'x') w ≠ '-' := fun _ => (by decide : 'x' ≠ '-')
  refine ⟨rfl, rfl, rfl, ?_, scenario_fluffy ln hln oob hoob⟩
  have hq : (scenarioEngine (R := R)).ParseQuery oob "fluffy -dog".toList =
      .ok ⟨["fluffy".toList], ["dog".toList]⟩ := by
    rw [ParseQuery_congr _ oob (fun _ => 'x') hoob hx]
    rfl
  have hd : (scenarioEngine (R := R)).FindAllDocuments ln ⟨["fluffy".toList], ["dog".toList]⟩
      (fun _ doc_status _ => decide (doc_status = DocumentStatus.ACTUAL)) =
      .ok [⟨1, 0 + (0 + 1 / ((4 : Nat) : R) + 1 / ((4 : Nat) : R)) *
        ln (((2 : Int) : R) * 1 / ((2 : Nat) : R)), 4⟩] := by
    rw [scenarioEngine_eq]
    rfl
  unfold SearchServer.FindTopDocumentsActual SearchServer.FindTopDocumentsByStatus
  rw [FindTopDocuments_of_parts ln oob _ "fluffy -dog".toList _ _ _ rfl hq hd,
    scenario_relevance ln hln, stdSort_short _ _ (by simp)]
  rfl

/-- C8 with real numbers, the natural logarithm and a byte `x`. -/
theorem C8_scenario_witness :
    (scenarioEngine (R := ℝ)).FindTopDocumentsActual Real.log (fun _ => 'x') "fluffy -dog".toList =
      .ok [⟨1, 0, 4⟩] ∧
    (scenarioEngine (R := ℝ)).FindTopDocumentsActual Real.log (fun _ => 'x') "fluffy".toList =
      .ok [⟨1, 0, 4⟩, ⟨2, 0, 2⟩] :=
  (C8_scenario Real.log Real.log_one (fun _ => 'x') (fun _ => (by decide : 'x' ≠ '-'))).2.2.2

end Scenario

/-! ## C2 and C4: which documents are returned, with which relevance and rating -/

section Returned

variable {R : Type} [LinearOrderedField R]

theorem Accepts_iff (s : SearchServer R) (pred : Int → DocumentStatus → Int → Bool) (id : Int) :
    s.Accepts pred id = true ↔
      ∃ data, StdMap.find s.documents_ id = some data ∧ pred id data.status data.rating = true := by
  unfold SearchServer.Accepts
  cases StdMap.find s.documents_ id with
  | none => simp
  | some v => simp

theorem Eligible_iff (s : SearchServer R) (query : Query)
    (pred : Int → DocumentStatus → Int → Bool) (id : Int) :
    s.Eligible query pred id = true ↔
      s.Accepts pred id = true ∧ (∃ w ∈ query.plus_words, s.WordInDocument w id = true) ∧
        ∀ w ∈ query.minus_words, s.WordInDocument w id = false := by
  simp [SearchServer.Eligible, and_assoc]

theorem postingsShare_eq (s : SearchServer R) (pred : Int → DocumentStatus → Int → Bool)
    (idf : R) (ps : StdMap Int R) (hps : StdMap.WF ps) (id : Int)
    (hacc : s.Accepts pred id = true) :
    s.postingsShare pred idf ps id = (StdMap.find ps id).getD 0 * idf := by
  induction ps with
  | nil => simp [SearchServer.postingsShare, StdMap.find]
  | cons p ps ih =>
    obtain ⟨k, v⟩ := p
    have hps2 : (k :: StdMap.keys ps).Pairwise (· < ·) := hps
    rw [List.pairwise_cons] at hps2
    have ih2 := ih hps2.2
    unfold SearchServer.postingsShare at ih2 ⊢
    by_cases hk : k = id
    · subst hk
      have hnot : k ∉ StdMap.keys ps := fun hmem => lt_irrefl _ (hps2.1 k hmem)
      have hnone : StdMap.find ps k = none := (StdMap.find_eq_none_iff _ _).2 hnot
      rw [hnone] at ih2
      simp only [List.filter_cons, decide_True, Bool.true_and, hacc, if_true, List.map_cons,
        List.sum_cons, ih2, StdMap.find]
      simp
    · simp only [List.filter_cons, hk, decide_False, Bool.false_and, Bool.false_eq_true,
        if_false, ih2, StdMap.find]

theorem wordShare_eq (ln : R → R) (s : SearchServer R) (hs : Consistent s)
    (pred : Int → DocumentStatus → Int → Bool) (w : Str) (id : Int)
    (hacc : s.Accepts pred id = true) :
    s.wordShare ln pred w id =
      if s.WordInDocument w id = true then
        s.termFreq w id * ln ((s.GetDocumentCount : R) / (s.docFreq w : R))
      else 0 := by
  unfold SearchServer.wordShare SearchServer.WordInDocument SearchServer.termFreq
    SearchServer.docFreq
  cases hf : StdMap.find s.word_to_document_freqs_ w with
  | none => simp
  | some ps =>
    have hwf : StdMap.WF ps := hs.postings_wf (w, ps) (StdMap.mem_of_find_eq_some _ _ _ hf)
    simp only []
    rw [postingsShare_eq s pred _ ps hwf id hacc, mul_one]
    cases hp : StdMap.find ps id with
    | none => simp
    | some tf => simp

theorem sum_map_ite_eq_sum_filter {α : Type} (l : List α) (p : α → Bool) (f : α → R) :
    (l.map (fun a => if p a = true then f a else 0)).sum = ((l.filter p).map f).sum := by
  induction l with
  | nil => simp
  | cons a l ih =>
    by_cases h : p a = true
    · simp [List.filter_cons, h, ih]
    · simp [List.filter_cons, h, ih]

theorem relevance_formula (ln : R → R) (s : SearchServer R) (hs : Consistent s)
    (pred : Int → DocumentStatus → Int → Bool) (words : List Str) (id : Int)
    (hacc : s.Accepts pred id = true) :
    (words.map (fun w => s.wordShare ln pred w id)).sum =
      ((words.filter (fun t => s.WordInDocument t id)).map
        (fun t => s.termFreq t id * ln ((s.GetDocumentCount : R) / (s.docFreq t : R)))).sum := by
  rw [← sum_map_ite_eq_sum_filter]
  congr 1
  apply List.map_congr_left
  intro w _
  exact wordShare_eq ln s hs pred w id hacc

theorem catalog_runCalls (s : SearchServer R) (hs : Consistent s) (calls : List AddCall)
    (id : Int) (data : DocumentData)
    (h : StdMap.find (runCalls s calls).documents_ id = some data) :
    StdMap.find s.documents_ id = some data ∨
      ∃ c ∈ succeededCalls s calls, c.document_id = id ∧
        data = ⟨ComputeAverageRating c.ratings, c.status⟩ := by
  induction calls generalizing s with
  | nil => exact Or.inl h
  | cons c cs ih =>
    cases hc : (s.AddDocument c.document_id c.document c.status c.ratings).1 with
    | error e =>
      simp only [runCalls, succeededCalls, hc] at h ⊢
      rw [AddDocument_error_state s _ _ _ _ e hc] at h ⊢
      exact ih s hs h
    | ok u =>
      simp only [runCalls, succeededCalls, hc] at h ⊢
      have hcons := Consistent_AddDocument s _ _ _ _ hs hc
      rcases ih _ hcons h with h1 | ⟨c', hc', h2⟩
      · rw [AddDocument_ok_state s _ _ _ _ hc] at h1
        simp only [] at h1
        rw [StdMap.find_emplace _ _ _ hs.catalog_wf] at h1
        by_cases hid : id = c.document_id
        · rw [if_pos hid] at h1
          obtain ⟨_, hnew, _⟩ := (AddDocument_ok_iff s _ _ _ _).1 hc
          rw [(StdMap.find_eq_none_iff _ _).2 hnew] at h1
          simp only [Option.getD_none, Option.some.injEq] at h1
          exact Or.inr ⟨c, List.mem_cons_self _ _, hid.symm, h1.symm⟩
        · rw [if_neg hid] at h1
          exact Or.inl h1
      · exact Or.inr ⟨c', List.mem_cons_of_mem _ hc', h2⟩

theorem create_catalog (stop_words : List Str) (s : SearchServer R)
    (h : SearchServer.create stop_words = .ok s) : s.documents_ = [] := by
  unfold SearchServer.create at h
  by_cases hv : stop_words.all IsValidWord = true
  · rw [if_pos hv] at h; cases h; rfl
  · rw [if_neg hv] at h; cases h

/-- C2: in a reachable engine, for a query accepted by the parser,
`FindTopDocuments` returns; every returned document is accepted by the
predicate, has a plus-word of the query indexed for it and no minus-word; and
when at most 5 catalogued documents meet these three conditions, every document
that meets them is returned, whatever its relevance. -/
theorem C2_returned_documents (ln : R → R) (oob : Str → Char) (s : SearchServer R)
    (hs : Reachable s) (raw_query : Str) (document_predicate : Int → DocumentStatus → Int → Bool)
    (query : Query) (hv : ValidateRawQuery raw_query = .ok ())
    (hq : s.ParseQuery oob raw_query = .ok query) :
    ∃ result, s.FindTopDocuments ln oob raw_query document_predicate = .ok result ∧
      (∀ d ∈ result,
        (∃ data, StdMap.find s.documents_ d.id = some data ∧
          document_predicate d.id data.status data.rating = true) ∧
        (∃ w ∈ query.plus_words, s.WordInDocument w d.id = true) ∧
        (∀ w ∈ query.minus_words, s.WordInDocument w d.id = false)) ∧
      (((StdMap.keys s.documents_).filter (s.Eligible query document_predicate)).length ≤ 5 →
        ∀ id data, StdMap.find s.documents_ id = some data →
          document_predicate id data.status data.rating = true →
          (∃ w ∈ query.plus_words, s.WordInDocument w id = true) →
          (∀ w ∈ query.minus_words, s.WordInDocument w id = false) →
          ∃ d ∈ result, d.id = id) := by
  obtain ⟨docs, hd⟩ := FindAllDocuments_ok ln s hs.consistent query document_predicate
  obtain ⟨f1, f2, _⟩ := FindAllDocuments_spec ln s query document_predicate docs hd
  have hr := FindTopDocuments_of_parts ln oob s raw_query document_predicate query docs hv hq hd
  have hperm := stdSort_perm (DocumentBefore (R := R)) docs
  refine ⟨_, hr, ?_, ?_⟩
  · intro d hdm
    have hd1 : d ∈ docs := hperm.subset (List.mem_of_mem_take hdm)
    have hd2 : d.id ∈ docs.map Document.id := List.mem_map.2 ⟨d, hd1, rfl⟩
    obtain ⟨a, b, c⟩ := (f2 d.id).1 hd2
    exact ⟨(Accepts_iff s _ _).1 a, b, c⟩
  · intro hcount id data hfind hpred hplus hminus
    have hsub : docs.map Document.id ⊆
        (StdMap.keys s.documents_).filter (s.Eligible query document_predicate) := by
      intro x hx
      obtain ⟨a, b, c⟩ := (f2 x).1 hx
      rw [List.mem_filter]
      refine ⟨?_, (Eligible_iff s query _ x).2 ⟨a, b, c⟩⟩
      obtain ⟨dt, hdt, _⟩ := (Accepts_iff s _ _).1 a
      rw [← StdMap.find_isSome_iff, hdt]
      rfl
    have hnodup : (docs.map Document.id).Nodup := List.Pairwise.imp (fun h => ne_of_lt h) f1
    have hlen : docs.length ≤ 5 := by
      have := (List.subperm_of_subset hnodup hsub).length_le
      rw [List.length_map] at this
      exact le_trans this hcount
    have hmem : id ∈ docs.map Document.id :=
      (f2 id).2 ⟨(Accepts_iff s _ _).2 ⟨data, hfind, hpred⟩, hplus, hminus⟩
    obtain ⟨d, hd1, hd2⟩ := List.mem_map.1 hmem
    refine ⟨d, ?_, hd2⟩
    rw [List.take_of_length_le (by rw [hperm.length_eq]; exact hlen)]
    exact hperm.mem_iff.2 hd1

/-- C4: after any sequence of `AddDocument` calls on a freshly constructed
engine, for a query accepted by the parser, `FindTopDocuments` returns; the
relevance of every entry is the sum, over the plus-words `t` of the query that
are indexed for the document, of `tf(t, id) * ln(N / df(t))`, with `N` the
document count and `df(t)` the number of documents indexed under `t`; the rating
is the average rating computed by the successful call that added the document;
and no id occurs in two entries. -/
theorem C4_relevance_and_rating (ln : R → R) (oob : Str → Char) (stop_words : List Str)
    (s0 : SearchServer R) (h0 : SearchServer.create stop_words = .ok s0) (calls : List AddCall)
    (raw_query : Str) (document_predicate : Int → DocumentStatus → Int → Bool) (query : Query)
    (hv : ValidateRawQuery raw_query = .ok ())
    (hq : (runCalls s0 calls).ParseQuery oob raw_query = .ok query) :
    ∃ result,
      (runCalls s0 calls).FindTopDocuments ln oob raw_query document_predicate = .ok result ∧
      (∀ d ∈ result,
        d.relevance =
          ((query.plus_words.filter (fun t => (runCalls s0 calls).WordInDocument t d.id)).map
            (fun t => (runCalls s0 calls).termFreq t d.id *
              ln (((runCalls s0 calls).GetDocumentCount : R) /
                ((runCalls s0 calls).docFreq t : R)))).sum ∧
        ∃ c ∈ succeededCalls s0 calls, c.document_id = d.id ∧
          d.rating = ComputeAverageRating c.ratings) ∧
      (result.map Document.id).Nodup := by
  have hc0 : Consistent s0 := Consistent_create stop_words s0 h0
  have hc : Consistent (runCalls s0 calls) := Consistent_runCalls s0 calls hc0
  obtain ⟨docs, hd⟩ := FindAllDocuments_ok ln _ hc query document_predicate
  obtain ⟨f1, f2, f3⟩ := FindAllDocuments_spec ln _ query document_predicate docs hd
  have hr := FindTopDocuments_of_parts ln oob _ raw_query document_predicate query docs hv hq hd
  have hperm := stdSort_perm (DocumentBefore (R := R)) docs
  refine ⟨_, hr, ?_, ?_⟩
  · intro d hdm
    have hd1 : d ∈ docs := hperm.subset (List.mem_of_mem_take hdm)
    have hd2 : d.id ∈ docs.map Document.id := List.mem_map.2 ⟨d, hd1, rfl⟩
    obtain ⟨a, _, _⟩ := (f2 d.id).1 hd2
    obtain ⟨g1, data, g2, g3⟩ := f3 d hd1
    refine ⟨?_, ?_⟩
    · rw [g1]
      exact relevance_formula ln _ hc document_predicate _ d.id a
    · rcases catalog_runCalls s0 hc0 calls d.id data g2 with h | ⟨c, hc1, hc2, hc3⟩
      · rw [create_catalog stop_words s0 h0] at h
        simp [StdMap.find] at h
      · refine ⟨c, hc1, hc2, ?_⟩
        rw [g3, hc3]
  · have hnodup : (docs.map Document.id).Nodup := List.Pairwise.imp (fun h => ne_of_lt h) f1
    have h1 : ((stdSort DocumentBefore docs).map Document.id).Nodup :=
      (hperm.map Document.id).nodup_iff.2 hnodup
    exact List.Nodup.sublist ((List.take_sublist _ _).map Document.id) h1

end Returned

/-! ## The theorems at concrete engines -/

section Witnesses

theorem scenarioEngine_reachable {R : Type} [LinearOrderedField R] :
    Reachable (scenarioEngine (R := R)) :=
  Reachable_runCalls scenarioFresh scenarioCalls (Reachable.create ["and".toList] _ rfl)

/-- C2 on the engine of the scenario with the query "fluffy -dog": the call
returns, and no returned document has "dog" indexed for it. -/
theorem C2_returned_documents_witness :
    ∃ result,
      (scenarioEngine (R := ℝ)).FindTopDocuments Real.log (fun _ => 'x') "fluffy -dog".toList
        (fun _ _ _ => true) = .ok result ∧
      ∀ d ∈ result, ∀ w ∈ ["dog".toList], (scenarioEngine (R := ℝ)).WordInDocument w d.id = false := by
  obtain ⟨result, h1, h2, _⟩ :=
    C2_returned_documents Real.log (fun _ => 'x') (scenarioEngine (R := ℝ))
      scenarioEngine_reachable "fluffy -dog".toList (fun _ _ _ => true)
      ⟨["fluffy".toList], ["dog".toList]⟩ rfl rfl
  exact ⟨result, h1, fun d hd => (h2 d hd).2.2⟩

/-- C4 on the engine of the scenario with the query "fluffy cat": the call
returns entries with distinct ids. -/
theorem C4_relevance_and_rating_witness :
    ∃ result,
      (runCalls (scenarioFresh (R := ℝ)) scenarioCalls).FindTopDocuments Real.log (fun _ => 'x')
        "fluffy cat".toList (fun _ _ _ => true) = .ok result ∧
      (result.map Document.id).Nodup := by
  obtain ⟨result, h1, _, h3⟩ :=
    C4_relevance_and_rating Real.log (fun _ => 'x') ["and".toList] (scenarioFresh (R := ℝ)) rfl
      scenarioCalls "fluffy cat".toList (fun _ _ _ => true)
      ⟨["cat".toList, "fluffy".toList], []⟩ rfl rfl
  exact ⟨result, h1, h3⟩

/-- C1 on the engine of the scenario: a negative id, the id 2 again, and a text
with the character of code 18. -/
theorem C1_AddDocument_failure_atomic_witness :
    (scenarioEngine (R := ℚ)).AddDocument (-1) "fluffy dog".toList DocumentStatus.ACTUAL [1, 2] =
      (.error Error.InvalidId, scenarioEngine) ∧
    (scenarioEngine (R := ℚ)).AddDocument 2 "big fluffy cat".toList DocumentStatus.ACTUAL [1, 2] =
      (.error Error.DuplicateId, scenarioEngine) ∧
    (scenarioEngine (R := ℚ)).AddDocument 3 ['b', 'i', 'g', ' ', 's', Char.ofNat 18, 't']
      DocumentStatus.ACTUAL [1, 2] = (.error Error.InvalidCharacter, scenarioEngine) :=
  ⟨(C1_AddDocument_failure_atomic scenarioEngine (-1) "fluffy dog".toList DocumentStatus.ACTUAL
      [1, 2]).1 (by decide),
   (C1_AddDocument_failure_atomic scenarioEngine 2 "big fluffy cat".toList DocumentStatus.ACTUAL
      [1, 2]).2.1 (by decide) (by decide),
   ((C1_AddDocument_failure_atomic scenarioEngine 3 ['b', 'i', 'g', ' ', 's', Char.ofNat 18, 't']
      DocumentStatus.ACTUAL [1, 2]).2.2.1
      ⟨['s', Char.ofNat 18, 't'], by decide, by decide, Char.ofNat 18, by decide, by decide⟩).1
      (by decide) (by decide)⟩

end Witnesses

/-! ## C7: a document matched against its own words -/

section SplitJoin

theorem splitFirst_no_space (cs : List Char) :
    ' ' ∉ (splitFirst cs).1 ∧ ∀ w ∈ (splitFirst cs).2, ' ' ∉ w := by
  induction cs with
  | nil => simp [splitFirst]
  | cons c cs ih =>
    obtain ⟨ih1, ih2⟩ := ih
    by_cases h : c = ' '
    · simp only [splitFirst, h, if_true]
      refine ⟨by simp, ?_⟩
      intro w hw
      rcases List.mem_cons.1 hw with rfl | hw
      · exact ih1
      · exact ih2 w hw
    · simp only [splitFirst, h, if_false]
      refine ⟨?_, ih2⟩
      intro hmem
      rcases List.mem_cons.1 hmem with h1 | h1
      · exact h h1.symm
      · exact ih1 h1

theorem SplitIntoWords_no_space (text : Str) (w : Str) (hw : w ∈ SplitIntoWords text) :
    ' ' ∉ w := by
  rw [SplitIntoWords_eq] at hw
  rcases List.mem_cons.1 hw with rfl | hw
  · exact (splitFirst_no_space text).1
  · exact (splitFirst_no_space text).2 w hw

theorem splitFirst_word (w : Str) (hw : ' ' ∉ w) : splitFirst w = (w, []) := by
  induction w with
  | nil => rfl
  | cons c cs ih =>
    have hc : ¬ c = ' ' := fun e => hw (by simp [e])
    have hcs : ' ' ∉ cs := fun e => hw (List.mem_cons_of_mem _ e)
    simp [splitFirst, hc, ih hcs]

theorem splitFirst_word_space (w rest : Str) (hw : ' ' ∉ w) :
    splitFirst (w ++ ' ' :: rest) = (w, (splitFirst rest).1 :: (splitFirst rest).2) := by
  induction w with
  | nil => simp [splitFirst]
  | cons c cs ih =>
    have hc : ¬ c = ' ' := fun e => hw (by simp [e])
    have hcs : ' ' ∉ cs := fun e => hw (List.mem_cons_of_mem _ e)
    simp [splitFirst, hc, ih hcs]

theorem splitFirst_joinWords (w : Str) (ws : List Str) (h : ∀ x ∈ w :: ws, ' ' ∉ x) :
    splitFirst (joinWords (w :: ws)) = (w, ws) := by
  induction ws generalizing w with
  | nil => exact splitFirst_word w (h w (List.mem_cons_self _ _))
  | cons w' ws ih =>
    have h1 : ' ' ∉ w := h w (List.mem_cons_self _ _)
    have h2 : ∀ x ∈ w' :: ws, ' ' ∉ x := fun x hx => h x (List.mem_cons_of_mem _ hx)
    simp only [joinWords]
    rw [splitFirst_word_space w _ h1, ih w' h2]

theorem SplitIntoWords_joinWords (ws : List Str) (hne : ws ≠ []) (h : ∀ x ∈ ws, ' ' ∉ x) :
    SplitIntoWords (joinWords ws) = ws := by
  cases ws with
  | nil => exact absurd rfl hne
  | cons w ws => rw [SplitIntoWords_eq, splitFirst_joinWords w ws h]

theorem joinWords_ne_nil (ws : List Str) (hne : ws ≠ []) (h : ∀ x ∈ ws, x ≠ []) :
    joinWords ws ≠ [] := by
  cases ws with
  | nil => exact absurd rfl hne
  | cons w ws =>
    have hw : w ≠ [] := h w (List.mem_cons_self _ _)
    cases ws with
    | nil => simpa [joinWords] using hw
    | cons w' ws => simp [joinWords, hw]

end SplitJoin

namespace StdMap

variable {κ υ : Type} [LinearOrder κ]

theorem find_upsert_ne (k : κ) (d : υ) (f : υ → υ) (m : StdMap κ υ) (x : κ) (hx : x ≠ k) :
    find (upsert k d f m) x = find m x := by
  have hx2 : ¬ k = x := fun e => hx e.symm
  induction m with
  | nil => simp [upsert, find, hx2]
  | cons p m ih =>
    obtain ⟨k', v⟩ := p
    by_cases h1 : k = k'
    · subst h1
      simp [upsert, find, hx2]
    · by_cases h2 : k < k'
      · simp [upsert, find, h1, h2, hx2]
      · simp only [upsert, h1, h2, if_false, find, ih]

theorem find_upsert_self (k : κ) (d : υ) (f : υ → υ) (m : StdMap κ υ) :
    ∃ v, find (upsert k d f m) k = some (f v) := by
  induction m with
  | nil => exact ⟨d, by simp [upsert, find]⟩
  | cons p m ih =>
    obtain ⟨k', v⟩ := p
    by_cases h1 : k = k'
    · subst h1
      exact ⟨v, by simp [upsert, find]⟩
    · by_cases h2 : k < k'
      · exact ⟨d, by simp [upsert, find, h1, h2]⟩
      · obtain ⟨v', hv'⟩ := ih
        have h1b : ¬ k' = k := fun e => h1 e.symm
        exact ⟨v', by simp only [upsert, h1, h2, if_false, find, h1b, hv']⟩

theorem find_emplace_new (k : κ) (v : υ) (m : StdMap κ υ) (hk : k ∉ keys m) :
    find (emplace k v m) k = some v := by
  induction m with
  | nil => simp [emplace, find]
  | cons p m ih =>
    obtain ⟨k', v'⟩ := p
    have h1 : ¬ k = k' := fun e => hk (by simp [keys, e])
    have h1b : ¬ k' = k := fun e => h1 e.symm
    have h3 : k ∉ keys m := fun e => hk (by simp only [keys] at e; simp [keys, e])
    by_cases h2 : k < k'
    · simp [emplace, find, h1, h2]
    · simp only [emplace, h1, h2, if_false, find, h1b, ih h3]

end StdMap

section RoundTrip

variable {R : Type} [LinearOrderedField R]

theorem AddWords_keeps (id : Int) (n : Nat) (ws : List Str) (idx : StdMap Str (StdMap Int R))
    (w : Str) (h : ∃ ps, StdMap.find idx w = some ps ∧ id ∈ StdMap.keys ps) :
    ∃ ps, StdMap.find (SearchServer.AddWords id n ws idx) w = some ps ∧ id ∈ StdMap.keys ps := by
  induction ws generalizing idx with
  | nil => exact h
  | cons w' ws ih =>
    simp only [SearchServer.AddWords]
    apply ih
    by_cases hw : w = w'
    · subst hw
      obtain ⟨v, hv⟩ := StdMap.find_upsert_self w ([] : StdMap Int R)
        (StdMap.upsert id 0 (fun x => x + 1 / (n : R))) idx
      exact ⟨_, hv, (StdMap.mem_keys_upsert _ _ _ _ _).2 (Or.inl rfl)⟩
    · rw [StdMap.find_upsert_ne _ _ _ _ _ hw]
      exact h

theorem AddWords_indexed (id : Int) (n : Nat) (ws : List Str) (idx : StdMap Str (StdMap Int R))
    (w : Str) (hw : w ∈ ws) :
    ∃ ps, StdMap.find (SearchServer.AddWords id n ws idx) w = some ps ∧ id ∈ StdMap.keys ps := by
  induction ws generalizing idx with
  | nil => simp at hw
  | cons w' ws ih =>
    simp only [SearchServer.AddWords]
    rcases List.mem_cons.1 hw with rfl | hw
    · apply AddWords_keeps
      obtain ⟨v, hv⟩ := StdMap.find_upsert_self w ([] : StdMap Int R)
        (StdMap.upsert id 0 (fun x => x + 1 / (n : R))) idx
      exact ⟨_, hv, (StdMap.mem_keys_upsert _ _ _ _ _).2 (Or.inl rfl)⟩
    · exact ih _ hw

theorem AddDocument_indexed (s : SearchServer R) (id : Int) (text : Str)
    (status : DocumentStatus) (ratings : List Int)
    (h : (s.AddDocument id text status ratings).1 = .ok ()) (w : Str)
    (hw : w ∈ s.SplitIntoWordsNoStop text) :
    (s.AddDocument id text status ratings).2.WordInDocument w id = true := by
  rw [AddDocument_ok_state s id text status ratings h]
  obtain ⟨ps, h1, h2⟩ := AddWords_indexed id (s.SplitIntoWordsNoStop text).length
    (s.SplitIntoWordsNoStop text) s.word_to_document_freqs_ w hw
  simp only [SearchServer.WordInDocument, h1]
  exact (StdMap.find_isSome_iff _ _).2 h2

theorem IsValidMinusWord_of_plain (w : Str) (hne : w ≠ []) (hd : w.head? ≠ some '-') :
    IsValidMinusWord w = true := by
  cases w with
  | nil => exact absurd rfl hne
  | cons c cs =>
    have hc : ¬ c = '-' := fun e => hd (by simp [e])
    simp [IsValidMinusWord, hc]

theorem ValidateQueryWords_ok (ws : List Str) (hv : ∀ w ∈ ws, IsValidWord w = true)
    (hm : ∀ w ∈ ws, IsValidMinusWord w = true) : ValidateQueryWords ws = .ok () := by
  induction ws with
  | nil => rfl
  | cons w ws ih =>
    simp [ValidateQueryWords, hv w (List.mem_cons_self _ _), hm w (List.mem_cons_self _ _),
      ih (fun x hx => hv x (List.mem_cons_of_mem _ hx))
        (fun x hx => hm x (List.mem_cons_of_mem _ hx))]

theorem ParseQueryWord_plain (s : SearchServer R) (oob : Str → Char) (w : Str) (hne : w ≠ [])
    (hd : w.head? ≠ some '-') (hoob : oob w ≠ '-') (hv : IsValidWord w = true) :
    s.ParseQueryWord oob w = .ok ⟨w, false, s.IsStopWord w⟩ := by
  cases w with
  | nil => exact absurd rfl hne
  | cons c cs =>
    have hc : ¬ c = '-' := fun e => hd (by simp [e])
    simp [SearchServer.ParseQueryWord, hc, hoob, hv]

theorem ParseQueryLoop_plain (s : SearchServer R) (oob : Str → Char) (ws : List Str)
    (query : Query)
    (h : ∀ w ∈ ws, w ≠ [] ∧ w.head? ≠ some '-' ∧ oob w ≠ '-' ∧ IsValidWord w = true ∧
      s.IsStopWord w = false) :
    ∃ result, s.ParseQueryLoop oob ws query = .ok result ∧
      result.minus_words = query.minus_words ∧
      ∀ t, t ∈ result.plus_words ↔ t ∈ query.plus_words ∨ t ∈ ws := by
  induction ws generalizing query with
  | nil => exact ⟨query, rfl, rfl, by simp⟩
  | cons w ws ih =>
    obtain ⟨h1, h2, h3, h4, h5⟩ := h w (List.mem_cons_self _ _)
    obtain ⟨result, r1, r2, r3⟩ :=
      ih ⟨StdSet.insert w query.plus_words, query.minus_words⟩
        (fun x hx => h x (List.mem_cons_of_mem _ hx))
    refine ⟨result, ?_, r2, ?_⟩
    · unfold SearchServer.ParseQueryLoop
      rw [ParseQueryWord_plain s oob w h1 h2 h3 h4]
      simp only [h5, Bool.not_false, if_true, Bool.false_eq_true, if_false]
      exact r1
    · intro t
      rw [r3]
      simp only [StdSet.mem_insert, List.mem_cons]
      tauto

end RoundTrip

section RoundTrip2

variable {R : Type} [LinearOrderedField R]

theorem MatchDocument_of_parts (oob : Str → Char) (s : SearchServer R) (raw_query : Str)
    (id : Int) (query : Query) (data : DocumentData)
    (hv : ValidateRawQuery raw_query = .ok ())
    (hq : s.ParseQuery oob raw_query = .ok query)
    (hid : StdMap.find s.documents_ id = some data) :
    s.MatchDocument oob raw_query id =
      .ok (if query.minus_words.any (fun w => s.WordInDocument w id) = true then []
        else query.plus_words.filter (fun w => s.WordInDocument w id), data.status) := by
  unfold SearchServer.MatchDocument
  rw [hv]
  simp only [hq, MatchPlusWords_eq, MatchMinusWords_eq, List.nil_append,
    StdMap.atKey_of_find _ _ _ hid]

/-- C7, amended: when the added document has at least one non-stop word and each
of its non-stop words is non-empty and does not start with a minus sign (and the
byte read by `text[-1]` is not a minus sign), `MatchDocument` with the query made
of these words joined by single spaces returns exactly these words, each once in
ascending order, and the status given to `AddDocument`. -/
theorem C7_round_trip_plain_words (oob : Str → Char) (s : SearchServer R) (id : Int)
    (text : Str) (status : DocumentStatus) (ratings : List Int)
    (h : (s.AddDocument id text status ratings).1 = .ok ())
    (hne : s.SplitIntoWordsNoStop text ≠ [])
    (hw : ∀ w ∈ s.SplitIntoWordsNoStop text, w ≠ [] ∧ w.head? ≠ some '-' ∧ oob w ≠ '-') :
    ∃ matched_words,
      (s.AddDocument id text status ratings).2.MatchDocument oob
          (joinWords (s.SplitIntoWordsNoStop text)) id = .ok (matched_words, status) ∧
      (∀ t, t ∈ matched_words ↔ t ∈ s.SplitIntoWordsNoStop text) ∧
      matched_words.Pairwise (· < ·) := by
  obtain ⟨_, hnew, hvalid⟩ := (AddDocument_ok_iff s id text status ratings).1 h
  have hvalid2 : ∀ w ∈ s.SplitIntoWordsNoStop text, IsValidWord w = true :=
    List.all_eq_true.1 hvalid
  have hstate := AddDocument_ok_state s id text status ratings h
  have hmemsplit : ∀ w ∈ s.SplitIntoWordsNoStop text,
      w ∈ SplitIntoWords text ∧ s.IsStopWord w = false := by
    intro w hmem
    have := List.mem_filter.1 hmem
    exact ⟨this.1, by simpa using this.2⟩
  have hstop : ∀ w, (s.AddDocument id text status ratings).2.IsStopWord w = s.IsStopWord w := by
    intro w
    rw [hstate]
    rfl
  have hsplit : SplitIntoWords (joinWords (s.SplitIntoWordsNoStop text)) =
      s.SplitIntoWordsNoStop text :=
    SplitIntoWords_joinWords _ hne
      (fun w hmem => SplitIntoWords_no_space text w (hmemsplit w hmem).1)
  have hv : ValidateRawQuery (joinWords (s.SplitIntoWordsNoStop text)) = .ok () := by
    unfold ValidateRawQuery
    have hnn := joinWords_ne_nil _ hne (fun w hmem => (hw w hmem).1)
    have he : (joinWords (s.SplitIntoWordsNoStop text)).isEmpty = false := by
      cases hj : joinWords (s.SplitIntoWordsNoStop text) with
      | nil => exact absurd hj hnn
      | cons c cs => rfl
    rw [he, hsplit]
    simp only [Bool.false_eq_true, if_false]
    exact ValidateQueryWords_ok _ hvalid2
      (fun w hmem => IsValidMinusWord_of_plain w (hw w hmem).1 (hw w hmem).2.1)
  obtain ⟨query, q1, q2, q3⟩ :=
    ParseQueryLoop_plain (s.AddDocument id text status ratings).2 oob
      (s.SplitIntoWordsNoStop text) ⟨[], []⟩
      (fun w hmem => ⟨(hw w hmem).1, (hw w hmem).2.1, (hw w hmem).2.2, hvalid2 w hmem,
        by rw [hstop]; exact (hmemsplit w hmem).2⟩)
  have hq : (s.AddDocument id text status ratings).2.ParseQuery oob
      (joinWords (s.SplitIntoWordsNoStop text)) = .ok query := by
    unfold SearchServer.ParseQuery
    rw [hsplit]
    exact q1
  have hcat : StdMap.find (s.AddDocument id text status ratings).2.documents_ id =
      some ⟨ComputeAverageRating ratings, status⟩ := by
    rw [hstate]
    exact StdMap.find_emplace_new _ _ _ hnew
  have hm := MatchDocument_of_parts oob _ _ id query _ hv hq hcat
  have hminus : query.minus_words.any
      (fun w => (s.AddDocument id text status ratings).2.WordInDocument w id) = false := by
    rw [q2]; rfl
  rw [hminus] at hm
  simp only [Bool.false_eq_true, if_false] at hm
  have hall : ∀ t ∈ query.plus_words,
      (s.AddDocument id text status ratings).2.WordInDocument t id = true := by
    intro t ht
    have : t ∈ s.SplitIntoWordsNoStop text := by
      rcases (q3 t).1 ht with h' | h'
      · simp at h'
      · exact h'
    exact AddDocument_indexed s id text status ratings h t this
  rw [List.filter_eq_self.2 hall] at hm
  refine ⟨query.plus_words, hm, ?_, (ParseQuery_sorted _ oob _ query hq).1⟩
  intro t
  rw [q3]
  simp

/-- C7 on the first document of the scenario. -/
theorem C7_round_trip_plain_words_witness :
    ∃ matched_words,
      ((scenarioFresh (R := ℚ)).AddDocument 1 "fluffy cat fluffy tail".toList
          DocumentStatus.ACTUAL [8, 2, 3, 4]).2.MatchDocument (fun _ => 'x')
          (joinWords ((scenarioFresh (R := ℚ)).SplitIntoWordsNoStop
            "fluffy cat fluffy tail".toList)) 1 = .ok (matched_words, DocumentStatus.ACTUAL) ∧
      (∀ t, t ∈ matched_words ↔
        t ∈ (scenarioFresh (R := ℚ)).SplitIntoWordsNoStop "fluffy cat fluffy tail".toList) ∧
      matched_words.Pairwise (· < ·) :=
  C7_round_trip_plain_words (fun _ => 'x') (scenarioFresh (R := ℚ)) 1
    "fluffy cat fluffy tail".toList DocumentStatus.ACTUAL [8, 2, 3, 4] rfl (by decide) (by decide)

/-- C7 fails as stated, in the engine with the stop word "and": the document
"fluffy  cat" (two spaces) is added with the words "fluffy", "" and "cat", and
its own query "fluffy  cat" is rejected; the document "-cat" is added with the
word "-cat", and its own query "-cat" matches no word; the document "and" is
added without a word, and its own query, the empty string, is rejected. -/
theorem C7_counterexample :
    ((scenarioFresh (R := ℚ)).AddDocument 1 "fluffy  cat".toList DocumentStatus.ACTUAL [5]).1 =
      .ok () ∧
    (scenarioFresh (R := ℚ)).SplitIntoWordsNoStop "fluffy  cat".toList =
      ["fluffy".toList, [], "cat".toList] ∧
    ((scenarioFresh (R := ℚ)).AddDocument 1 "fluffy  cat".toList DocumentStatus.ACTUAL
        [5]).2.MatchDocument (fun _ => 'x')
        (joinWords ((scenarioFresh (R := ℚ)).SplitIntoWordsNoStop "fluffy  cat".toList)) 1 =
      .error Error.MalformedMinus ∧
    ((scenarioFresh (R := ℚ)).AddDocument 1 "-cat".toList DocumentStatus.ACTUAL [5]).1 =
      .ok () ∧
    (scenarioFresh (R := ℚ)).SplitIntoWordsNoStop "-cat".toList = ["-cat".toList] ∧
    ((scenarioFresh (R := ℚ)).AddDocument 1 "-cat".toList DocumentStatus.ACTUAL
        [5]).2.MatchDocument (fun _ => 'x')
        (joinWords ((scenarioFresh (R := ℚ)).SplitIntoWordsNoStop "-cat".toList)) 1 =
      .ok ([], DocumentStatus.ACTUAL) ∧
    ((scenarioFresh (R := ℚ)).AddDocument 1 "and".toList DocumentStatus.ACTUAL [5]).1 =
      .ok () ∧
    (scenarioFresh (R := ℚ)).SplitIntoWordsNoStop "and".toList = [] ∧
    ((scenarioFresh (R := ℚ)).AddDocument 1 "and".toList DocumentStatus.ACTUAL
        [5]).2.MatchDocument (fun _ => 'x')
        (joinWords ((scenarioFresh (R := ℚ)).SplitIntoWordsNoStop "and".toList)) 1 =
      .error Error.EmptyQuery :=
  ⟨rfl, rfl, rfl, rfl, rfl, rfl, rfl, rfl, rfl⟩

end RoundTrip2

/-! ## C3: the order of the result -/

section SortedInsert

variable {α : Type}

end SortedInsert

section ResultOrder

variable {R : Type} [LinearOrderedField R]

end ResultOrder

/-! ## The postings of a word after `AddDocument` -/

section PostingsAfterAdd

variable {R : Type} [Zero R] [One R] [Add R] [Div R] [NatCast R]

theorem AddWords_find (id : Int) (n : Nat) (ws : List Str) (idx : StdMap Str (StdMap Int R))
    (hidx : StdMap.WF idx) (t : Str) :
    StdMap.find (SearchServer.AddWords id n ws idx) t =
      if t ∈ ws then
        some ((StdMap.upsert id 0 (fun x => x + 1 / (n : R)))^[ws.count t]
          ((StdMap.find idx t).getD []))
      else StdMap.find idx t := by
  induction ws generalizing idx with
  | nil => simp [SearchServer.AddWords]
  | cons w ws ih =>
    simp only [SearchServer.AddWords]
    rw [ih _ (StdMap.WF_upsert _ _ _ _ hidx), StdMap.find_upsert _ _ _ _ hidx]
    by_cases htw : t = w
    · subst htw
      simp only [if_true, List.mem_cons, true_or, Option.getD_some, List.count_cons_self]
      by_cases hmem : t ∈ ws
      · rw [if_pos hmem, Function.iterate_succ_apply]
      · rw [if_neg hmem, List.count_eq_zero_of_not_mem hmem]
        rfl
    · have hwt : ¬ w = t := fun e => htw e.symm
      simp only [htw, if_false, List.mem_cons, false_or, List.count_cons, beq_iff_eq, hwt,
        Nat.add_zero]

end PostingsAfterAdd
section TieEngine

variable {R : Type} [LinearOrderedField R]

end TieEngine

section TieCounterexample

variable {R : Type} [LinearOrderedField R]

end TieCounterexample

section ResultOrderWitness

end ResultOrderWitness

/-! ## C10: the truncation of the result -/

section Truncation

variable {R : Type} [LinearOrderedField R]

/-- On a range of at most 16 elements none of which the comparator orders
before another, `std::sort` keeps the order of the input. -/
theorem stdSort_of_unordered {α : Type} (comp : α → α → Bool) (l : List α)
    (hlen : l.length ≤ 16) (h : ∀ a ∈ l, ∀ b ∈ l, comp a b = false) : stdSort comp l = l := by
  have key : ∀ (xs acc : List α), (∀ a ∈ xs, ∀ b ∈ xs ++ acc, comp a b = false) →
      xs.foldl (insertionStep comp) acc = xs.reverse ++ acc := by
    intro xs
    induction xs with
    | nil => intro acc _; rfl
    | cons x xs ih =>
      intro acc hacc
      have hx : ∀ b ∈ acc, comp x b = false := fun b hb =>
        hacc x (List.mem_cons_self _ _) b (List.mem_append_right _ hb)
      have hstep : insertionStep comp acc x = x :: acc := by
        unfold insertionStep
        cases acc with
        | nil => rfl
        | cons y ys =>
          have hf : (y :: ys).getLast? = some ((y :: ys).getLast (List.cons_ne_nil _ _)) :=
            List.getLast?_eq_getLast _ _
          rw [hf]
          simp only []
          rw [hx _ (List.getLast_mem _)]
          simp [unguardedLinearInsert, hx y (List.mem_cons_self _ _)]
      rw [List.foldl_cons, hstep, ih]
      · simp
      · intro a ha b hb
        rcases List.mem_append.1 hb with hb | hb
        · exact hacc a (List.mem_cons_of_mem _ ha) b
            (List.mem_append_left _ (List.mem_cons_of_mem _ hb))
        · rcases List.mem_cons.1 hb with rfl | hb
          · exact hacc a (List.mem_cons_of_mem _ ha) b
              (List.mem_append_left _ (List.mem_cons_self _ _))
          · exact hacc a (List.mem_cons_of_mem _ ha) b (List.mem_append_right _ hb)
  rw [stdSort_short comp l hlen, key l [] (by simpa using h)]
  simp

end Truncation

section SplitSpec

theorem splitFirst_length (cs : List Char) : (splitFirst cs).2.length = cs.count ' ' := by
  induction cs with
  | nil => rfl
  | cons c cs ih =>
    by_cases h : c = ' '
    · subst h
      simp [splitFirst, ih]
    · have h2 : ¬ (c == ' ') = true := by simpa using h
      simp [splitFirst, h, ih, List.count_cons, h2]

theorem joinWords_cons_char (c : Char) (w : Str) (ws : List Str) :
    joinWords ((c :: w) :: ws) = c :: joinWords (w :: ws) := by
  cases ws with
  | nil => rfl
  | cons w' ws => rfl

theorem joinWords_splitFirst (cs : List Char) :
    joinWords ((splitFirst cs).1 :: (splitFirst cs).2) = cs := by
  induction cs with
  | nil => rfl
  | cons c cs ih =>
    by_cases h : c = ' '
    · subst h
      simp only [splitFirst, if_true, joinWords, List.nil_append, ih]
    · simp only [splitFirst, h, if_false, joinWords_cons_char, ih]

theorem splitFirst_append_space (u v : Str) :
    splitFirst (u ++ ' ' :: v) =
      ((splitFirst u).1, (splitFirst u).2 ++ (splitFirst v).1 :: (splitFirst v).2) := by
  induction u with
  | nil => simp [splitFirst]
  | cons c cs ih =>
    by_cases h : c = ' '
    · subst h
      simp [splitFirst, ih]
    · simp [splitFirst, h, ih]

theorem SplitIntoWords_append_space (u v : Str) :
    SplitIntoWords (u ++ ' ' :: v) = SplitIntoWords u ++ SplitIntoWords v := by
  simp only [SplitIntoWords_eq, splitFirst_append_space]
  rfl

theorem SplitIntoWords_cons_space (v : Str) :
    SplitIntoWords (' ' :: v) = [] :: SplitIntoWords v := by
  simp [SplitIntoWords_eq, splitFirst]

/-- C18: `SplitIntoWords` returns one token more than the text has spaces, no
token contains a space, and the tokens joined with single spaces are the text;
the empty text gives the single token "", two consecutive spaces give an empty
token between them, and a text without a space (tabs and newlines included) is
one token. -/
theorem C18_SplitIntoWords (text : Str) :
    (SplitIntoWords text).length = text.count ' ' + 1 ∧
    (∀ w ∈ SplitIntoWords text, ' ' ∉ w) ∧
    joinWords (SplitIntoWords text) = text ∧
    SplitIntoWords [] = [[]] ∧
    (∀ u v : Str, text = u ++ ' ' :: ' ' :: v →
      SplitIntoWords text = SplitIntoWords u ++ [] :: SplitIntoWords v) ∧
    (' ' ∉ text → SplitIntoWords text = [text]) := by
  refine ⟨?_, SplitIntoWords_no_space text, ?_, rfl, ?_, ?_⟩
  · rw [SplitIntoWords_eq, List.length_cons, splitFirst_length]
  · rw [SplitIntoWords_eq, joinWords_splitFirst]
  · intro u v h
    rw [h, SplitIntoWords_append_space u, SplitIntoWords_cons_space v]
  · intro h
    rw [SplitIntoWords_eq, splitFirst_word text h]

/-- C18 on the text "a", tab, "b", two spaces, "c", newline: three tokens, the
middle one empty. -/
theorem C18_SplitIntoWords_witness :
    SplitIntoWords ['a', Char.ofNat 9, 'b', ' ', ' ', 'c', Char.ofNat 10] =
      [['a', Char.ofNat 9, 'b'], [], ['c', Char.ofNat 10]] ∧
    SplitIntoWords ['a', Char.ofNat 9, 'b'] = [['a', Char.ofNat 9, 'b']] :=
  ⟨((C18_SplitIntoWords ['a', Char.ofNat 9, 'b', ' ', ' ', 'c', Char.ofNat 10]).2.2.2.2.1
      ['a', Char.ofNat 9, 'b'] ['c', Char.ofNat 10] rfl).trans (by decide),
   (C18_SplitIntoWords ['a', Char.ofNat 9, 'b']).2.2.2.2.2 (by decide)⟩

end SplitSpec

/-! ## C20: queries with an empty word -/

section EmptyWord

theorem splitFirst_fst_eq_nil (cs : List Char) (h : (splitFirst cs).1 = []) :
    cs = [] ∨ ∃ v, cs = ' ' :: v := by
  cases cs with
  | nil => exact Or.inl rfl
  | cons c cs =>
    by_cases hc : c = ' '
    · exact Or.inr ⟨cs, by rw [hc]⟩
    · simp [splitFirst, hc] at h

theorem splitFirst_snd_mem_nil (cs : List Char) (h : [] ∈ (splitFirst cs).2) :
    (∃ u, cs = u ++ [' ']) ∨ ∃ u v, cs = u ++ ' ' :: ' ' :: v := by
  induction cs with
  | nil => simp [splitFirst] at h
  | cons c cs ih =>
    by_cases hc : c = ' '
    · subst hc
      simp only [splitFirst, if_true] at h
      rcases List.mem_cons.1 h with h1 | h1
      · rcases splitFirst_fst_eq_nil cs h1.symm with h2 | ⟨v, h2⟩
        · exact Or.inl ⟨[], by rw [h2]; rfl⟩
        · exact Or.inr ⟨[], v, by rw [h2]; rfl⟩
      · rcases ih h1 with ⟨u, h2⟩ | ⟨u, v, h2⟩
        · exact Or.inl ⟨' ' :: u, by rw [h2]; rfl⟩
        · exact Or.inr ⟨' ' :: u, v, by rw [h2]; rfl⟩
    · simp only [splitFirst, hc, if_false] at h
      rcases ih h with ⟨u, h2⟩ | ⟨u, v, h2⟩
      · exact Or.inl ⟨c :: u, by rw [h2]; rfl⟩
      · exact Or.inr ⟨c :: u, v, by rw [h2]; rfl⟩

theorem empty_word_iff (text : Str) :
    [] ∈ SplitIntoWords text ↔
      text = [] ∨ (∃ v, text = ' ' :: v) ∨ (∃ u, text = u ++ [' ']) ∨
        ∃ u v, text = u ++ ' ' :: ' ' :: v := by
  constructor
  · intro h
    rw [SplitIntoWords_eq] at h
    rcases List.mem_cons.1 h with h1 | h1
    · rcases splitFirst_fst_eq_nil text h1.symm with h2 | h2
      · exact Or.inl h2
      · exact Or.inr (Or.inl h2)
    · rcases splitFirst_snd_mem_nil text h1 with h2 | h2
      · exact Or.inr (Or.inr (Or.inl h2))
      · exact Or.inr (Or.inr (Or.inr h2))
  · rintro (h | ⟨v, h⟩ | ⟨u, h⟩ | ⟨u, v, h⟩)
    · rw [h]; decide
    · rw [h, SplitIntoWords_cons_space v]
      exact List.mem_cons_self _ _
    · rw [h, SplitIntoWords_append_space u []]
      exact List.mem_append_right _ (by decide)
    · rw [h, SplitIntoWords_append_space u, SplitIntoWords_cons_space v]
      exact List.mem_append_right _ (List.mem_cons_self _ _)

theorem ValidateQueryWords_empty_word (ws : List Str) (h : [] ∈ ws) :
    ∃ e, ValidateQueryWords ws = .error e := by
  induction ws with
  | nil => simp at h
  | cons w ws ih =>
    unfold ValidateQueryWords
    by_cases h1 : (!IsValidWord w) = true
    · exact ⟨_, by rw [if_pos h1]⟩
    · rw [if_neg h1]
      by_cases h2 : (!IsValidMinusWord w) = true
      · exact ⟨_, by rw [if_pos h2]⟩
      · rw [if_neg h2]
        apply ih
        rcases List.mem_cons.1 h with h3 | h3
        · exfalso
          apply h2
          rw [← h3]
          rfl
        · exact h3

theorem ValidateRawQuery_empty_word (raw_query : Str) (h : [] ∈ SplitIntoWords raw_query) :
    ∃ e, ValidateRawQuery raw_query = .error e := by
  unfold ValidateRawQuery
  by_cases h1 : raw_query.isEmpty = true
  · exact ⟨_, by rw [if_pos h1]⟩
  · rw [if_neg h1]
    exact ValidateQueryWords_empty_word _ h

variable {R : Type} [LinearOrderedField R]

/-- C20: a query text has an empty word exactly when it is empty, starts with a
space, ends with a space or has two consecutive spaces; `FindTopDocuments` and
`MatchDocument` answer every such text with an error, the same for both, and
with no result. -/
theorem C20_empty_word_rejected (ln : R → R) (oob : Str → Char) (s : SearchServer R)
    (document_predicate : Int → DocumentStatus → Int → Bool) (document_id : Int)
    (raw_query : Str) :
    ([] ∈ SplitIntoWords raw_query ↔
      raw_query = [] ∨ (∃ v, raw_query = ' ' :: v) ∨ (∃ u, raw_query = u ++ [' ']) ∨
        ∃ u v, raw_query = u ++ ' ' :: ' ' :: v) ∧
    ([] ∈ SplitIntoWords raw_query →
      ∃ e, s.FindTopDocuments ln oob raw_query document_predicate = .error e ∧
        s.MatchDocument oob raw_query document_id = .error e) := by
  refine ⟨empty_word_iff raw_query, ?_⟩
  intro h
  obtain ⟨e, he⟩ := ValidateRawQuery_empty_word raw_query h
  refine ⟨e, ?_, ?_⟩
  · unfold SearchServer.FindTopDocuments
    rw [he]
  · unfold SearchServer.MatchDocument
    rw [he]

/-- C20 at the queries "cat  dog", " cat" and "cat ": both functions answer
with `MalformedMinus`. -/
theorem C20_empty_word_rejected_witness :
    ((scenarioEngine (R := ℚ)).FindTopDocuments (fun x => x) (fun _ => 'x') "cat  dog".toList
        (fun _ _ _ => true) = .error Error.MalformedMinus ∧
      (scenarioEngine (R := ℚ)).MatchDocument (fun _ => 'x') "cat  dog".toList 1 =
        .error Error.MalformedMinus) ∧
    ((scenarioEngine (R := ℚ)).FindTopDocuments (fun x => x) (fun _ => 'x') " cat".toList
        (fun _ _ _ => true) = .error Error.MalformedMinus ∧
      (scenarioEngine (R := ℚ)).MatchDocument (fun _ => 'x') " cat".toList 1 =
        .error Error.MalformedMinus) ∧
    ((scenarioEngine (R := ℚ)).FindTopDocuments (fun x => x) (fun _ => 'x') "cat ".toList
        (fun _ _ _ => true) = .error Error.MalformedMinus ∧
      (scenarioEngine (R := ℚ)).MatchDocument (fun _ => 'x') "cat ".toList 1 =
        .error Error.MalformedMinus) := by
  have key : ∀ raw_query : Str, [] ∈ SplitIntoWords raw_query →
      ValidateRawQuery raw_query = .error Error.MalformedMinus →
      (scenarioEngine (R := ℚ)).FindTopDocuments (fun x => x) (fun _ => 'x') raw_query
          (fun _ _ _ => true) = .error Error.MalformedMinus ∧
        (scenarioEngine (R := ℚ)).MatchDocument (fun _ => 'x') raw_query 1 =
          .error Error.MalformedMinus := by
    intro raw_query hmem he
    obtain ⟨e, h1, h2⟩ := (C20_empty_word_rejected (fun x => x) (fun _ => 'x')
      (scenarioEngine (R := ℚ)) (fun _ _ _ => true) 1 raw_query).2 hmem
    have h3 : (scenarioEngine (R := ℚ)).MatchDocument (fun _ => 'x') raw_query 1 =
        .error Error.MalformedMinus := by
      unfold SearchServer.MatchDocument
      rw [he]
    rw [h2] at h3
    cases h3
    exact ⟨h1, h2⟩
  exact ⟨key _ (by decide) rfl, key _ (by decide) rfl, key _ (by decide) rfl⟩

end EmptyWord

/-! ## The forms of `ParseQueryWord` -/

section ParseWordForms

variable {R : Type} [LinearOrderedField R]

theorem ParseQueryWord_nil (s : SearchServer R) (oob : Str → Char) :
    s.ParseQueryWord oob [] = .error Error.EmptyQuery := rfl

theorem ParseQueryWord_minus (s : SearchServer R) (oob : Str → Char) (cs : Str) :
    s.ParseQueryWord oob ('-' :: cs) =
      if cs = [] then .error Error.MalformedMinus
      else if oob cs = '-' then .error Error.MalformedMinus
      else if IsValidWord cs = false then .error Error.InvalidCharacter
      else .ok ⟨cs, true, s.IsStopWord cs⟩ := by
  cases cs with
  | nil => rfl
  | cons d ds => simp [SearchServer.ParseQueryWord]

theorem ParseQueryWord_plain_form (s : SearchServer R) (oob : Str → Char) (c : Char) (cs : Str)
    (hc : c ≠ '-') :
    s.ParseQueryWord oob (c :: cs) =
      if oob (c :: cs) = '-' then .error Error.MalformedMinus
      else if IsValidWord (c :: cs) = false then .error Error.InvalidCharacter
      else .ok ⟨c :: cs, false, s.IsStopWord (c :: cs)⟩ := by
  simp [SearchServer.ParseQueryWord, hc]

end ParseWordForms

/-! ## C11: `MatchDocument` and a document that is not in the catalog -/

section MatchNotFound

variable {R : Type} [LinearOrderedField R]

theorem ValidateQueryWords_error (ws : List Str) (e : Error)
    (h : ValidateQueryWords ws = .error e) :
    e = Error.InvalidCharacter ∨ e = Error.MalformedMinus := by
  induction ws with
  | nil => cases h
  | cons w ws ih =>
    unfold ValidateQueryWords at h
    by_cases h1 : (!IsValidWord w) = true
    · rw [if_pos h1] at h
      cases h
      exact Or.inl rfl
    · rw [if_neg h1] at h
      by_cases h2 : (!IsValidMinusWord w) = true
      · rw [if_pos h2] at h
        cases h
        exact Or.inr rfl
      · rw [if_neg h2] at h
        exact ih h

theorem ValidateRawQuery_error (raw_query : Str) (e : Error)
    (h : ValidateRawQuery raw_query = .error e) :
    e = Error.EmptyQuery ∨ e = Error.InvalidCharacter ∨ e = Error.MalformedMinus := by
  unfold ValidateRawQuery at h
  by_cases h1 : raw_query.isEmpty = true
  · rw [if_pos h1] at h
    cases h
    exact Or.inl rfl
  · rw [if_neg h1] at h
    exact Or.inr (ValidateQueryWords_error _ e h)

theorem ParseQueryWord_error (s : SearchServer R) (oob : Str → Char) (text : Str) (e : Error)
    (h : s.ParseQueryWord oob text = .error e) :
    e = Error.EmptyQuery ∨ e = Error.InvalidCharacter ∨ e = Error.MalformedMinus := by
  cases text with
  | nil =>
    rw [ParseQueryWord_nil] at h
    cases h
    exact Or.inl rfl
  | cons c cs =>
    by_cases hc : c = '-'
    · subst hc
      rw [ParseQueryWord_minus] at h
      split at h
      · cases h; exact Or.inr (Or.inr rfl)
      · split at h
        · cases h; exact Or.inr (Or.inr rfl)
        · split at h
          · cases h; exact Or.inr (Or.inl rfl)
          · cases h
    · rw [ParseQueryWord_plain_form s oob c cs hc] at h
      split at h
      · cases h; exact Or.inr (Or.inr rfl)
      · split at h
        · cases h; exact Or.inr (Or.inl rfl)
        · cases h

theorem ParseQueryLoop_error (s : SearchServer R) (oob : Str → Char) (ws : List Str)
    (query : Query) (e : Error) (h : s.ParseQueryLoop oob ws query = .error e) :
    e = Error.EmptyQuery ∨ e = Error.InvalidCharacter ∨ e = Error.MalformedMinus := by
  induction ws generalizing query with
  | nil => cases h
  | cons w ws ih =>
    unfold SearchServer.ParseQueryLoop at h
    cases hw : s.ParseQueryWord oob w with
    | error e' =>
      rw [hw] at h
      cases h
      exact ParseQueryWord_error s oob w e hw
    | ok qw =>
      rw [hw] at h
      simp only [] at h
      split at h
      · split at h
        · exact ih _ h
        · exact ih _ h
      · exact ih _ h

/-- C11: for a query accepted by the parser, `MatchDocument` fails with
`NotFound` (the `out_of_range` of the checked lookup `documents_.at`) when the
id is not in the catalog; for an id in the catalog it returns a result for every
accepted query and fails with `NotFound` for no query text at all. -/
theorem C11_MatchDocument_not_found (oob : Str → Char) (s : SearchServer R) (document_id : Int) :
    (∀ raw_query query, ValidateRawQuery raw_query = .ok () →
      s.ParseQuery oob raw_query = .ok query →
      (document_id ∉ StdMap.keys s.documents_ →
        s.MatchDocument oob raw_query document_id = .error Error.NotFound) ∧
      (document_id ∈ StdMap.keys s.documents_ →
        ∃ result, s.MatchDocument oob raw_query document_id = .ok result)) ∧
    (document_id ∈ StdMap.keys s.documents_ →
      ∀ raw_query, s.MatchDocument oob raw_query document_id ≠ .error Error.NotFound) := by
  constructor
  · intro raw_query query hv hq
    constructor
    · intro hid
      have hnone := (StdMap.find_eq_none_iff _ _).2 hid
      unfold SearchServer.MatchDocument
      rw [hv]
      simp only [hq, MatchPlusWords_eq, MatchMinusWords_eq, StdMap.atKey, hnone]
    · intro hid
      obtain ⟨data, _, hfind⟩ := atKey_ok_of_mem s.documents_ document_id hid
      exact ⟨_, MatchDocument_of_parts oob s raw_query document_id query data hv hq hfind⟩
  · intro hid raw_query hcon
    obtain ⟨data, hat, _⟩ := atKey_ok_of_mem s.documents_ document_id hid
    unfold SearchServer.MatchDocument at hcon
    cases hv : ValidateRawQuery raw_query with
    | error e =>
      rw [hv] at hcon
      cases hcon
      rcases ValidateRawQuery_error raw_query _ hv with h | h | h <;> cases h
    | ok u =>
      rw [hv] at hcon
      cases hq : s.ParseQuery oob raw_query with
      | error e =>
        simp only [hq] at hcon
        cases hcon
        rcases ParseQueryLoop_error s oob _ _ _ hq with h | h | h <;> cases h
      | ok query =>
        simp only [hq, MatchPlusWords_eq, MatchMinusWords_eq, hat] at hcon
        cases hcon

/-- C11 on the engine of the scenario with the query "fluffy -dog": document 7
is not in the catalog, document 2 is. -/
theorem C11_MatchDocument_not_found_witness :
    (scenarioEngine (R := ℚ)).MatchDocument (fun _ => 'x') "fluffy -dog".toList 7 =
      .error Error.NotFound ∧
    ∃ result, (scenarioEngine (R := ℚ)).MatchDocument (fun _ => 'x') "fluffy -dog".toList 2 =
      .ok result :=
  ⟨((C11_MatchDocument_not_found (fun _ => 'x') (scenarioEngine (R := ℚ)) 7).1
      "fluffy -dog".toList ⟨["fluffy".toList], ["dog".toList]⟩ rfl rfl).1 (by decide),
   ((C11_MatchDocument_not_found (fun _ => 'x') (scenarioEngine (R := ℚ)) 2).1
      "fluffy -dog".toList ⟨["fluffy".toList], ["dog".toList]⟩ rfl rfl).2 (by decide)⟩

end MatchNotFound

/-! ## C17: the plus-words and the minus-words of a parsed query -/

section ParsedQuery

variable {R : Type} [LinearOrderedField R]

theorem IsStopWord_eq_false_iff (s : SearchServer R) (w : Str) :
    s.IsStopWord w = false ↔ w ∉ s.stop_words_ := by
  unfold SearchServer.IsStopWord StdSet.count
  by_cases h : w ∈ s.stop_words_
  · simp [h]
  · simp [h]

theorem ParseQueryWord_ok_cases (s : SearchServer R) (oob : Str → Char) (w : Str)
    (qw : QueryWord) (h : s.ParseQueryWord oob w = .ok qw) :
    (∃ cs, w = '-' :: cs ∧ cs ≠ [] ∧ qw = ⟨cs, true, s.IsStopWord cs⟩) ∨
    (w ≠ [] ∧ w.head? ≠ some '-' ∧ qw = ⟨w, false, s.IsStopWord w⟩) := by
  cases w with
  | nil => rw [ParseQueryWord_nil] at h; cases h
  | cons c cs =>
    by_cases hc : c = '-'
    · subst hc
      rw [ParseQueryWord_minus] at h
      split at h
      · cases h
      · rename_i hne
        split at h
        · cases h
        · split at h
          · cases h
          · cases h
            exact Or.inl ⟨cs, rfl, hne, rfl⟩
    · rw [ParseQueryWord_plain_form s oob c cs hc] at h
      split at h
      · cases h
      · split at h
        · cases h
        · cases h
          exact Or.inr ⟨by simp, by simpa using hc, rfl⟩

theorem ParseQueryLoop_spec (s : SearchServer R) (oob : Str → Char) (ws : List Str)
    (query result : Query) (h : s.ParseQueryLoop oob ws query = .ok result) :
    (∀ t, t ∈ result.plus_words ↔
      t ∈ query.plus_words ∨ (t ∈ ws ∧ t.head? ≠ some '-' ∧ t ∉ s.stop_words_)) ∧
    (∀ t, t ∈ result.minus_words ↔
      t ∈ query.minus_words ∨ (('-' :: t) ∈ ws ∧ t ∉ s.stop_words_)) ∧
    (∀ w ∈ ws, w ≠ [] ∧ w ≠ ['-']) := by
  induction ws generalizing query with
  | nil =>
    simp only [SearchServer.ParseQueryLoop, Except.ok.injEq] at h
    subst h
    simp
  | cons w ws ih =>
    unfold SearchServer.ParseQueryLoop at h
    cases hw : s.ParseQueryWord oob w with
    | error e => rw [hw] at h; cases h
    | ok qw =>
      rw [hw] at h
      simp only [] at h
      rcases ParseQueryWord_ok_cases s oob w qw hw with ⟨cs, rfl, hne, rfl⟩ | ⟨hne, hhead, rfl⟩
      · -- a minus-word
        have hw1 : ('-' :: cs) ≠ [] ∧ ('-' :: cs) ≠ ['-'] := ⟨by simp, by simpa using hne⟩
        by_cases hstop : s.IsStopWord cs = true
        · simp only [hstop, Bool.not_true, Bool.false_eq_true, if_false] at h
          obtain ⟨i1, i2, i3⟩ := ih query h
          have hin : cs ∈ s.stop_words_ := by
            by_contra hcon
            rw [(IsStopWord_eq_false_iff s cs).2 hcon] at hstop
            cases hstop
          refine ⟨?_, ?_, ?_⟩
          · intro t
            rw [i1]
            constructor
            · rintro (h1 | ⟨h1, h2, h3⟩)
              · exact Or.inl h1
              · exact Or.inr ⟨List.mem_cons_of_mem _ h1, h2, h3⟩
            · rintro (h1 | ⟨h1, h2, h3⟩)
              · exact Or.inl h1
              · rcases List.mem_cons.1 h1 with h4 | h4
                · rw [h4] at h2
                  exact absurd rfl h2
                · exact Or.inr ⟨h4, h2, h3⟩
          · intro t
            rw [i2]
            constructor
            · rintro (h1 | ⟨h1, h3⟩)
              · exact Or.inl h1
              · exact Or.inr ⟨List.mem_cons_of_mem _ h1, h3⟩
            · rintro (h1 | ⟨h1, h3⟩)
              · exact Or.inl h1
              · rcases List.mem_cons.1 h1 with h4 | h4
                · have : t = cs := (List.cons.inj h4).2
                  rw [this] at h3
                  exact absurd hin h3
                · exact Or.inr ⟨h4, h3⟩
          · intro x hx
            rcases List.mem_cons.1 hx with rfl | hx
            · exact hw1
            · exact i3 x hx
        · have hstop2 : s.IsStopWord cs = false := by simpa using hstop
          simp only [hstop2, Bool.not_false, if_true] at h
          obtain ⟨i1, i2, i3⟩ := ih _ h
          have hnin : cs ∉ s.stop_words_ := (IsStopWord_eq_false_iff s cs).1 hstop2
          refine ⟨?_, ?_, ?_⟩
          · intro t
            rw [i1]
            constructor
            · rintro (h1 | ⟨h1, h2, h3⟩)
              · exact Or.inl h1
              · exact Or.inr ⟨List.mem_cons_of_mem _ h1, h2, h3⟩
            · rintro (h1 | ⟨h1, h2, h3⟩)
              · exact Or.inl h1
              · rcases List.mem_cons.1 h1 with h4 | h4
                · rw [h4] at h2
                  exact absurd rfl h2
                · exact Or.inr ⟨h4, h2, h3⟩
          · intro t
            rw [i2]
            simp only [StdSet.mem_insert]
            constructor
            · rintro ((h1 | h1) | ⟨h1, h3⟩)
              · exact Or.inr ⟨by rw [h1]; exact List.mem_cons_self _ _, by rw [h1]; exact hnin⟩
              · exact Or.inl h1
              · exact Or.inr ⟨List.mem_cons_of_mem _ h1, h3⟩
            · rintro (h1 | ⟨h1, h3⟩)
              · exact Or.inl (Or.inr h1)
              · rcases List.mem_cons.1 h1 with h4 | h4
                · exact Or.inl (Or.inl (List.cons.inj h4).2)
                · exact Or.inr ⟨h4, h3⟩
          · intro x hx
            rcases List.mem_cons.1 hx with rfl | hx
            · exact hw1
            · exact i3 x hx
      · -- a plus-word
        have hw1 : w ≠ [] ∧ w ≠ ['-'] := ⟨hne, fun e => hhead (by rw [e]; rfl)⟩
        have hminus : ∀ t : Str, ¬ ('-' :: t) = w := fun t e => hhead (by rw [← e]; rfl)
        by_cases hstop : s.IsStopWord w = true
        · simp only [hstop, Bool.not_true, Bool.false_eq_true, if_false] at h
          obtain ⟨i1, i2, i3⟩ := ih query h
          have hin : w ∈ s.stop_words_ := by
            by_contra hcon
            rw [(IsStopWord_eq_false_iff s w).2 hcon] at hstop
            cases hstop
          refine ⟨?_, ?_, ?_⟩
          · intro t
            rw [i1]
            constructor
            · rintro (h1 | ⟨h1, h2, h3⟩)
              · exact Or.inl h1
              · exact Or.inr ⟨List.mem_cons_of_mem _ h1, h2, h3⟩
            · rintro (h1 | ⟨h1, h2, h3⟩)
              · exact Or.inl h1
              · rcases List.mem_cons.1 h1 with h4 | h4
                · rw [h4] at h3
                  exact absurd hin h3
                · exact Or.inr ⟨h4, h2, h3⟩
          · intro t
            rw [i2]
            constructor
            · rintro (h1 | ⟨h1, h3⟩)
              · exact Or.inl h1
              · exact Or.inr ⟨List.mem_cons_of_mem _ h1, h3⟩
            · rintro (h1 | ⟨h1, h3⟩)
              · exact Or.inl h1
              · rcases List.mem_cons.1 h1 with h4 | h4
                · exact absurd h4 (hminus t)
                · exact Or.inr ⟨h4, h3⟩
          · intro x hx
            rcases List.mem_cons.1 hx with rfl | hx
            · exact hw1
            · exact i3 x hx
        · have hstop2 : s.IsStopWord w = false := by simpa using hstop
          simp only [hstop2, Bool.not_false, if_true, Bool.false_eq_true, if_false] at h
          obtain ⟨i1, i2, i3⟩ := ih _ h
          have hnin : w ∉ s.stop_words_ := (IsStopWord_eq_false_iff s w).1 hstop2
          refine ⟨?_, ?_, ?_⟩
          · intro t
            rw [i1]
            simp only [StdSet.mem_insert]
            constructor
            · rintro ((h1 | h1) | ⟨h1, h2, h3⟩)
              · exact Or.inr ⟨by rw [h1]; exact List.mem_cons_self _ _, by rw [h1]; exact hhead,
                  by rw [h1]; exact hnin⟩
              · exact Or.inl h1
              · exact Or.inr ⟨List.mem_cons_of_mem _ h1, h2, h3⟩
            · rintro (h1 | ⟨h1, h2, h3⟩)
              · exact Or.inl (Or.inr h1)
              · rcases List.mem_cons.1 h1 with h4 | h4
                · exact Or.inl (Or.inl h4)
                · exact Or.inr ⟨h4, h2, h3⟩
          · intro t
            rw [i2]
            constructor
            · rintro (h1 | ⟨h1, h3⟩)
              · exact Or.inl h1
              · exact Or.inr ⟨List.mem_cons_of_mem _ h1, h3⟩
            · rintro (h1 | ⟨h1, h3⟩)
              · exact Or.inl h1
              · rcases List.mem_cons.1 h1 with h4 | h4
                · exact absurd h4 (hminus t)
                · exact Or.inr ⟨h4, h3⟩
          · intro x hx
            rcases List.mem_cons.1 hx with rfl | hx
            · exact hw1
            · exact i3 x hx

/-- C17: when `ParseQuery` succeeds, the plus-words are exactly the tokens of
the text that do not start with a minus sign and are not stop words, the
minus-words are exactly the remainders of the tokens that start with a minus
sign whose remainder is not a stop word, and neither set has a stop word or the
empty string; both sets are strictly ascending. -/
theorem C17_ParseQuery_sets (s : SearchServer R) (oob : Str → Char) (text : Str) (query : Query)
    (h : s.ParseQuery oob text = .ok query) :
    (∀ t, t ∈ query.plus_words ↔
      t ∈ SplitIntoWords text ∧ t.head? ≠ some '-' ∧ t ∉ s.stop_words_) ∧
    (∀ t, t ∈ query.minus_words ↔
      ('-' :: t) ∈ SplitIntoWords text ∧ t ∉ s.stop_words_) ∧
    (∀ t, t ∈ query.plus_words ∨ t ∈ query.minus_words → t ∉ s.stop_words_ ∧ t ≠ []) ∧
    query.plus_words.Pairwise (· < ·) ∧ query.minus_words.Pairwise (· < ·) := by
  obtain ⟨h1, h2, h3⟩ := ParseQueryLoop_spec s oob _ ⟨[], []⟩ query h
  have h1' : ∀ t, t ∈ query.plus_words ↔
      t ∈ SplitIntoWords text ∧ t.head? ≠ some '-' ∧ t ∉ s.stop_words_ := by
    intro t; rw [h1]; simp
  have h2' : ∀ t, t ∈ query.minus_words ↔
      ('-' :: t) ∈ SplitIntoWords text ∧ t ∉ s.stop_words_ := by
    intro t; rw [h2]; simp
  refine ⟨h1', h2', ?_, ParseQuery_sorted s oob text query h⟩
  rintro t (ht | ht)
  · obtain ⟨a, _, c⟩ := (h1' t).1 ht
    exact ⟨c, (h3 t a).1⟩
  · obtain ⟨a, c⟩ := (h2' t).1 ht
    refine ⟨c, ?_⟩
    intro e
    rw [e] at a
    exact (h3 _ a).2 rfl

/-- C17 on the engine with the stop word "and" and the text
"fluffy -dog and -and cat": the plus-words are "cat" and "fluffy", the only
minus-word is "dog", and the stop word is in neither set. -/
theorem C17_ParseQuery_sets_witness :
    (scenarioFresh (R := ℚ)).ParseQuery (fun _ => 'x') "fluffy -dog and -and cat".toList =
      .ok ⟨["cat".toList, "fluffy".toList], ["dog".toList]⟩ ∧
    ("cat".toList ∈ SplitIntoWords "fluffy -dog and -and cat".toList ∧
      "cat".toList.head? ≠ some '-' ∧ "cat".toList ∉ (scenarioFresh (R := ℚ)).stop_words_) ∧
    ('-' :: "dog".toList ∈ SplitIntoWords "fluffy -dog and -and cat".toList ∧
      "dog".toList ∉ (scenarioFresh (R := ℚ)).stop_words_) ∧
    ("fluffy".toList ∉ (scenarioFresh (R := ℚ)).stop_words_ ∧ "fluffy".toList ≠ []) :=
  ⟨rfl,
   ((C17_ParseQuery_sets (scenarioFresh (R := ℚ)) (fun _ => 'x')
      "fluffy -dog and -and cat".toList ⟨["cat".toList, "fluffy".toList], ["dog".toList]⟩
      rfl).1 "cat".toList).1 (by decide),
   ((C17_ParseQuery_sets (scenarioFresh (R := ℚ)) (fun _ => 'x')
      "fluffy -dog and -and cat".toList ⟨["cat".toList, "fluffy".toList], ["dog".toList]⟩
      rfl).2.1 "dog".toList).1 (by decide),
   (C17_ParseQuery_sets (scenarioFresh (R := ℚ)) (fun _ => 'x')
      "fluffy -dog and -and cat".toList ⟨["cat".toList, "fluffy".toList], ["dog".toList]⟩
      rfl).2.2.1 "fluffy".toList (Or.inl (by decide))⟩

end ParsedQuery

/-! ## C15: the constructors -/

section Constructors

variable {R : Type} [LinearOrderedField R]

theorem MakeUnique_foldl (ws : List Str) (acc : StdSet Str) (hacc : acc.Pairwise (· < ·)) :
    (∀ t, t ∈ ws.foldl (fun non_empty_strings str =>
        if !str.isEmpty then StdSet.insert str non_empty_strings else non_empty_strings) acc ↔
      t ∈ acc ∨ (t ∈ ws ∧ t ≠ [])) ∧
    (ws.foldl (fun non_empty_strings str =>
        if !str.isEmpty then StdSet.insert str non_empty_strings else non_empty_strings)
      acc).Pairwise (· < ·) := by
  induction ws generalizing acc with
  | nil => simp [hacc]
  | cons w ws ih =>
    simp only [List.foldl_cons]
    cases w with
    | nil =>
      obtain ⟨i1, i2⟩ := ih acc hacc
      refine ⟨?_, i2⟩
      intro t
      have := i1 t
      simp only [List.isEmpty_nil, Bool.not_true, Bool.false_eq_true, if_false] at this ⊢
      rw [this]
      constructor
      · rintro (h | ⟨h, h'⟩)
        · exact Or.inl h
        · exact Or.inr ⟨List.mem_cons_of_mem _ h, h'⟩
      · rintro (h | ⟨h, h'⟩)
        · exact Or.inl h
        · rcases List.mem_cons.1 h with h2 | h2
          · exact absurd h2 h'
          · exact Or.inr ⟨h2, h'⟩
    | cons c cs =>
      obtain ⟨i1, i2⟩ := ih (StdSet.insert (c :: cs) acc) (StdSet.sorted_insert _ _ hacc)
      refine ⟨?_, i2⟩
      intro t
      have := i1 t
      simp only [List.isEmpty_cons, Bool.not_false, if_true] at this ⊢
      rw [this, StdSet.mem_insert]
      constructor
      · rintro ((h | h) | ⟨h, h'⟩)
        · exact Or.inr ⟨by rw [h]; exact List.mem_cons_self _ _, by rw [h]; simp⟩
        · exact Or.inl h
        · exact Or.inr ⟨List.mem_cons_of_mem _ h, h'⟩
      · rintro (h | ⟨h, h'⟩)
        · exact Or.inl (Or.inr h)
        · rcases List.mem_cons.1 h with h2 | h2
          · exact Or.inl (Or.inl h2)
          · exact Or.inr ⟨h2, h'⟩

theorem MakeUniqueNonEmptyStrings_spec (ws : List Str) :
    (∀ t, t ∈ MakeUniqueNonEmptyStrings ws ↔ t ∈ ws ∧ t ≠ []) ∧
    (MakeUniqueNonEmptyStrings ws).Pairwise (· < ·) := by
  obtain ⟨h1, h2⟩ := MakeUnique_foldl ws [] List.Pairwise.nil
  refine ⟨?_, h2⟩
  intro t
  unfold MakeUniqueNonEmptyStrings
  rw [h1]
  simp

/-- C15: the constructor fails, with `ValidationError`, exactly when a candidate
has a character with a code below 32; otherwise the stop words are the non-empty
candidates, each once (strictly ascending), and the engine has no document; the
constructor from a string is the constructor from the words of the string. -/
theorem C15_constructor (stop_words : List Str) :
    ((∃ e, SearchServer.create (R := R) stop_words = .error e) ↔
      ∃ w ∈ stop_words, ∃ c ∈ w, c.toNat < 32) ∧
    (∀ e, SearchServer.create (R := R) stop_words = .error e → e = Error.ValidationError) ∧
    (∀ s : SearchServer R, SearchServer.create stop_words = .ok s →
      (∀ t, t ∈ s.stop_words_ ↔ t ∈ stop_words ∧ t ≠ []) ∧
      s.stop_words_.Pairwise (· < ·) ∧
      s.word_to_document_freqs_ = [] ∧ s.documents_ = [] ∧ s.documents_index_ = []) ∧
    (∀ text : Str,
      SearchServer.createFromText (R := R) text = SearchServer.create (SplitIntoWords text)) := by
  have hbad : stop_words.all IsValidWord = true ↔
      ¬ ∃ w ∈ stop_words, ∃ c ∈ w, c.toNat < 32 := by
    rw [List.all_eq_true]
    constructor
    · rintro h ⟨w, hw, hc⟩
      have := h w hw
      rw [(IsValidWord_eq_false_iff w).2 hc] at this
      cases this
    · intro h w hw
      cases hv : IsValidWord w with
      | true => rfl
      | false => exact absurd ⟨w, hw, (IsValidWord_eq_false_iff w).1 hv⟩ h
  refine ⟨?_, ?_, ?_, fun _ => rfl⟩
  · unfold SearchServer.create
    by_cases hv : stop_words.all IsValidWord = true
    · rw [if_pos hv]
      constructor
      · rintro ⟨e, he⟩
        cases he
      · intro h
        exact absurd h (hbad.1 hv)
    · rw [if_neg hv]
      constructor
      · intro _
        by_contra hcon
        exact hv (hbad.2 hcon)
      · intro _
        exact ⟨_, rfl⟩
  · intro e he
    unfold SearchServer.create at he
    by_cases hv : stop_words.all IsValidWord = true
    · rw [if_pos hv] at he
      cases he
    · rw [if_neg hv] at he
      cases he
      rfl
  · intro s hs
    unfold SearchServer.create at hs
    by_cases hv : stop_words.all IsValidWord = true
    · rw [if_pos hv] at hs
      cases hs
      obtain ⟨h1, h2⟩ := MakeUniqueNonEmptyStrings_spec stop_words
      exact ⟨h1, h2, rfl, rfl, rfl⟩
    · rw [if_neg hv] at hs
      cases hs

/-- C15 on the stop words of the demo, "and", "in", "on%", "/", given as one
string with two spaces in it, and on a candidate with the character of code 18. -/
theorem C15_constructor_witness :
    SearchServer.createFromText (R := ℚ) "and in  on% / and".toList =
      .ok ⟨["/".toList, "and".toList, "in".toList, "on%".toList], [], [], []⟩ ∧
    ∃ e, SearchServer.create (R := ℚ) ["and".toList, ['i', Char.ofNat 18]] = .error e :=
  ⟨((C15_constructor (R := ℚ) []).2.2.2 "and in  on% / and".toList).trans rfl,
   (C15_constructor (R := ℚ) ["and".toList, ['i', Char.ofNat 18]]).1.2
    ⟨['i', Char.ofNat 18], by decide, Char.ofNat 18, by decide, by decide⟩⟩

end Constructors

/-! ## C16: the average rating -/

section AverageRating

variable {R : Type} [LinearOrderedField R]

theorem wrapInt32_range (x : Int) :
    -2147483648 ≤ wrapInt32 x ∧ wrapInt32 x ≤ 2147483647 := by
  unfold wrapInt32
  omega

theorem wrapInt32_congr (x : Int) : ∃ k : Int, wrapInt32 x = x + k * 4294967296 := by
  refine ⟨-((x + 2147483648) / 4294967296), ?_⟩
  unfold wrapInt32
  omega

theorem accumulate_congr (rs : List Int) (a : Int) :
    ∃ k : Int, rs.foldl (fun acc r => wrapInt32 (acc + r)) a = a + rs.sum + k * 4294967296 := by
  induction rs generalizing a with
  | nil => exact ⟨0, by simp⟩
  | cons r rs ih =>
    obtain ⟨k1, h1⟩ := wrapInt32_congr (a + r)
    obtain ⟨k2, h2⟩ := ih (wrapInt32 (a + r))
    refine ⟨k1 + k2, ?_⟩
    simp only [List.foldl_cons, List.sum_cons]
    rw [h2, h1]
    ring

theorem accumulate_range (rs : List Int) (a : Int) (ha : -2147483648 ≤ a ∧ a ≤ 2147483647) :
    -2147483648 ≤ rs.foldl (fun acc r => wrapInt32 (acc + r)) a ∧
      rs.foldl (fun acc r => wrapInt32 (acc + r)) a ≤ 2147483647 := by
  induction rs generalizing a with
  | nil => exact ha
  | cons r rs ih => exact ih _ (wrapInt32_range _)

theorem accumulate_eq_sum (rs : List Int)
    (hfit : -2147483648 ≤ rs.sum ∧ rs.sum ≤ 2147483647) :
    rs.foldl (fun acc r => wrapInt32 (acc + r)) 0 = rs.sum := by
  obtain ⟨k, hk⟩ := accumulate_congr rs 0
  have hr := accumulate_range rs 0 (by decide)
  rw [hk] at hr ⊢
  have : k = 0 := by omega
  rw [this]
  ring

theorem ComputeAverageRating_eq (ratings : List Int)
    (hfit : -2147483648 ≤ ratings.sum ∧ ratings.sum ≤ 2147483647) :
    ComputeAverageRating ratings =
      if ratings = [] then 0 else Int.tdiv ratings.sum (ratings.length : Int) := by
  unfold ComputeAverageRating
  cases ratings with
  | nil => rfl
  | cons r rs =>
    simp only [List.isEmpty_cons, Bool.false_eq_true, if_false]
    rw [accumulate_eq_sum (r :: rs) hfit]
    simp

/-- C16: for a rating list whose sum fits in 32 bits, `ComputeAverageRating` is
0 for the empty list and otherwise the sum divided by the count, truncated toward
zero; this is the rating a successful `AddDocument` stores for the document, and
the rating of every `FindTopDocuments` entry for the document. -/
theorem C16_average_rating (ratings : List Int)
    (hfit : -2147483648 ≤ ratings.sum ∧ ratings.sum ≤ 2147483647) :
    ComputeAverageRating ratings =
      (if ratings = [] then 0 else Int.tdiv ratings.sum (ratings.length : Int)) ∧
    ∀ (s : SearchServer R) (document_id : Int) (document : Str) (status : DocumentStatus),
      (s.AddDocument document_id document status ratings).1 = .ok () →
      StdMap.find (s.AddDocument document_id document status ratings).2.documents_ document_id =
        some ⟨if ratings = [] then 0 else Int.tdiv ratings.sum (ratings.length : Int), status⟩ ∧
      ∀ (ln : R → R) (oob : Str → Char) (raw_query : Str)
        (document_predicate : Int → DocumentStatus → Int → Bool) (result : List (Document R)),
        (s.AddDocument document_id document status ratings).2.FindTopDocuments ln oob raw_query
          document_predicate = .ok result →
        ∀ d ∈ result, d.id = document_id →
          d.rating = if ratings = [] then 0 else Int.tdiv ratings.sum (ratings.length : Int) := by
  have havg := ComputeAverageRating_eq ratings hfit
  refine ⟨havg, ?_⟩
  intro s id text status hok
  obtain ⟨_, hnew, _⟩ := (AddDocument_ok_iff s id text status ratings).1 hok
  have hcat : StdMap.find (s.AddDocument id text status ratings).2.documents_ id =
      some ⟨ComputeAverageRating ratings, status⟩ := by
    rw [AddDocument_ok_state s id text status ratings hok]
    exact StdMap.find_emplace_new _ _ _ hnew
  refine ⟨by rw [hcat, havg], ?_⟩
  intro ln oob raw_query pred result hres d hd hid
  obtain ⟨query, docs, _, _, hdocs, hr⟩ := FindTopDocuments_parts ln oob _ raw_query pred result hres
  obtain ⟨_, _, f3⟩ := FindAllDocuments_spec ln _ query pred docs hdocs
  have hd1 : d ∈ docs := by
    rw [hr] at hd
    exact (stdSort_perm DocumentBefore docs).subset (List.mem_of_mem_take hd)
  obtain ⟨_, data, g1, g2⟩ := f3 d hd1
  rw [hid, hcat] at g1
  cases g1
  rw [g2, havg]

/-- C16 on the lists 8, 2, 3, 4 and 1, 2, 3, 4 and -1, -2 and on the empty list. -/
theorem C16_average_rating_witness :
    ComputeAverageRating [8, 2, 3, 4] = 4 ∧ ComputeAverageRating [1, 2, 3, 4] = 2 ∧
    ComputeAverageRating [-1, -2] = -1 ∧ ComputeAverageRating [] = 0 :=
  ⟨((C16_average_rating (R := ℚ) [8, 2, 3, 4] (by decide)).1).trans (by decide),
   ((C16_average_rating (R := ℚ) [1, 2, 3, 4] (by decide)).1).trans (by decide),
   ((C16_average_rating (R := ℚ) [-1, -2] (by decide)).1).trans (by decide),
   ((C16_average_rating (R := ℚ) [] (by decide)).1).trans (by decide)⟩

end AverageRating

/-! ## The rounding of `double` arithmetic -/

section Rounding

theorem nearestEven_error (y : ℚ) : |(nearestEven y : ℚ) - y| ≤ 1 / 2 := by
  have h1 : (⌊y⌋ : ℚ) ≤ y := Int.floor_le y
  have h2 : y < ⌊y⌋ + 1 := Int.lt_floor_add_one y
  unfold nearestEven
  rw [abs_le]
  split_ifs with c1 c2 c3
  · constructor <;> linarith
  · push_cast
    constructor <;> linarith
  · constructor <;> linarith
  · push_cast
    constructor <;> linarith

theorem floor_le_nearestEven (y : ℚ) : ⌊y⌋ ≤ nearestEven y := by
  unfold nearestEven
  split_ifs <;> omega

theorem nearestEven_intCast (k : ℤ) : nearestEven (k : ℚ) = k := by
  unfold nearestEven
  simp

theorem log_two_eq (x : ℚ) (k : ℤ) (hx : 0 < x) (h1 : (2 : ℚ) ^ k ≤ x) (h2 : x < 2 ^ (k + 1)) :
    Int.log 2 x = k := by
  have hb : 1 < (2 : ℕ) := by decide
  have e1 : k ≤ Int.log 2 x := by
    rw [← Int.zpow_le_iff_le_log hb hx]
    simpa using h1
  have e2 : Int.log 2 x < k + 1 := by
    rw [← Int.lt_zpow_iff_log_lt hb hx]
    simpa using h2
  omega

theorem zpow_log_le (x : ℚ) (hx : 0 < x) : (2 : ℚ) ^ Int.log 2 x ≤ x := by
  simpa using Int.zpow_log_le_self (b := 2) (r := x) (by decide) hx

theorem lt_zpow_log_succ (x : ℚ) : x < (2 : ℚ) ^ (Int.log 2 x + 1) := by
  simpa using Int.lt_zpow_succ_log_self (b := 2) (by decide) x

theorem roundNearestEven_of_pos (x : ℚ) (hx : 0 < x) :
    roundNearestEven x =
      nearestEven (x / 2 ^ (Int.log 2 x - 52)) * 2 ^ (Int.log 2 x - 52) := by
  unfold roundNearestEven
  rw [if_neg (ne_of_gt hx), abs_of_pos hx, if_neg (not_lt.2 (le_of_lt hx))]
  simp

theorem scaled_bounds (x : ℚ) (hx : 0 < x) :
    (2 : ℚ) ^ (52 : ℕ) ≤ x / 2 ^ (Int.log 2 x - 52) ∧
      x / 2 ^ (Int.log 2 x - 52) < 2 ^ (53 : ℕ) := by
  have hp : (0 : ℚ) < 2 ^ (Int.log 2 x - 52) := zpow_pos (by norm_num) _
  have h1 := zpow_log_le x hx
  have h2 := lt_zpow_log_succ x
  constructor
  · rw [le_div_iff₀ hp, ← zpow_natCast, ← zpow_add₀ (by norm_num : (2 : ℚ) ≠ 0)]
    simpa using h1
  · rw [div_lt_iff₀ hp, ← zpow_natCast, ← zpow_add₀ (by norm_num : (2 : ℚ) ≠ 0)]
    have : ((53 : ℕ) : ℤ) + (Int.log 2 x - 52) = Int.log 2 x + 1 := by push_cast; ring
    rw [this]
    exact h2

theorem roundNearestEven_pos (x : ℚ) (hx : 0 < x) : 0 < roundNearestEven x := by
  rw [roundNearestEven_of_pos x hx]
  have hp : (0 : ℚ) < 2 ^ (Int.log 2 x - 52) := zpow_pos (by norm_num) _
  apply mul_pos _ hp
  have h1 := (scaled_bounds x hx).1
  have h2 : (2 : ℤ) ^ (52 : ℕ) ≤ ⌊x / 2 ^ (Int.log 2 x - 52)⌋ := by
    rw [Int.le_floor]
    push_cast
    exact h1
  have h3 := floor_le_nearestEven (x / 2 ^ (Int.log 2 x - 52))
  have h4 : (0 : ℤ) < nearestEven (x / 2 ^ (Int.log 2 x - 52)) :=
    lt_of_lt_of_le (by norm_num) (le_trans h2 h3)
  exact_mod_cast h4

theorem roundNearestEven_nonneg (x : ℚ) (hx : 0 ≤ x) : 0 ≤ roundNearestEven x := by
  rcases eq_or_lt_of_le hx with h | h
  · rw [← h]
    simp [roundNearestEven]
  · exact le_of_lt (roundNearestEven_pos x h)

theorem roundNearestEven_error (x : ℚ) (hx : 0 < x) :
    |roundNearestEven x - x| ≤ 2 ^ (Int.log 2 x - 53) := by
  rw [roundNearestEven_of_pos x hx]
  have hp : (0 : ℚ) < 2 ^ (Int.log 2 x - 52) := zpow_pos (by norm_num) _
  have hx2 : x = x / 2 ^ (Int.log 2 x - 52) * 2 ^ (Int.log 2 x - 52) := by
    field_simp
  have h := nearestEven_error (x / 2 ^ (Int.log 2 x - 52))
  have e : (nearestEven (x / 2 ^ (Int.log 2 x - 52)) : ℚ) * 2 ^ (Int.log 2 x - 52) - x =
      ((nearestEven (x / 2 ^ (Int.log 2 x - 52)) : ℚ) - x / 2 ^ (Int.log 2 x - 52)) *
        2 ^ (Int.log 2 x - 52) := by
    rw [sub_mul, ← hx2]
  rw [e, abs_mul, abs_of_pos hp]
  have e2 : (2 : ℚ) ^ (Int.log 2 x - 53) = 1 / 2 * 2 ^ (Int.log 2 x - 52) := by
    have : Int.log 2 x - 53 = -1 + (Int.log 2 x - 52) := by ring
    rw [this, zpow_add₀ (by norm_num : (2 : ℚ) ≠ 0)]
    norm_num
  rw [e2]
  exact mul_le_mul_of_nonneg_right h (le_of_lt hp)

theorem roundNearestEven_error_lt_two (x : ℚ) (hx : 0 < x) (h2 : x < 2) :
    |roundNearestEven x - x| ≤ 1 / 2 ^ (53 : ℕ) := by
  refine le_trans (roundNearestEven_error x hx) ?_
  have hlog : Int.log 2 x < 1 := by
    rw [← Int.lt_zpow_iff_log_lt (by decide) hx]
    simpa using h2
  have : (2 : ℚ) ^ (Int.log 2 x - 53) ≤ 2 ^ (-53 : ℤ) :=
    zpow_le_zpow_right₀ (by norm_num) (by omega)
  refine le_trans this ?_
  rw [zpow_neg, ← zpow_natCast]
  simp

theorem roundNearestEven_error_rel (x : ℚ) (hx : 0 < x) :
    |roundNearestEven x - x| ≤ x / 2 ^ (53 : ℕ) := by
  refine le_trans (roundNearestEven_error x hx) ?_
  have h1 := zpow_log_le x hx
  have e : (2 : ℚ) ^ (Int.log 2 x - 53) = 2 ^ Int.log 2 x / 2 ^ (53 : ℕ) := by
    rw [zpow_sub₀ (by norm_num : (2 : ℚ) ≠ 0), ← zpow_natCast]
    simp
  rw [e]
  exact div_le_div_of_nonneg_right h1 (by positivity)

theorem roundNearestEven_natCast (n : ℕ) (hn : n < 2 ^ 53) : roundNearestEven (n : ℚ) = n := by
  rcases Nat.eq_zero_or_pos n with h0 | hpos
  · subst h0
    simp [roundNearestEven]
  have hx : (0 : ℚ) < n := by exact_mod_cast hpos
  rw [roundNearestEven_of_pos _ hx]
  have hlog : Int.log 2 (n : ℚ) < 53 := by
    rw [← Int.lt_zpow_iff_log_lt (by decide) hx]
    have : (n : ℚ) < 2 ^ (53 : ℕ) := by exact_mod_cast hn
    rw [zpow_ofNat]
    simpa using this
  obtain ⟨k, hk⟩ : ∃ k : ℕ, (k : ℤ) = -(Int.log 2 (n : ℚ) - 52) :=
    ⟨(-(Int.log 2 (n : ℚ) - 52)).toNat, Int.toNat_of_nonneg (by omega)⟩
  have he : Int.log 2 (n : ℚ) - 52 = -(k : ℤ) := by omega
  rw [he, zpow_neg, zpow_natCast]
  have hy : (n : ℚ) / (2 ^ k)⁻¹ = ((n * 2 ^ k : ℤ) : ℚ) := by
    push_cast
    field_simp
  rw [hy, nearestEven_intCast]
  push_cast
  field_simp

/-- The value of `roundNearestEven` at a positive number, from its exponent. -/
theorem roundNearestEven_eq (x : ℚ) (e : ℤ) (hx : 0 < x)
    (h1 : (2 : ℚ) ^ (52 : ℕ) ≤ x / 2 ^ e) (h2 : x / 2 ^ e < 2 ^ (53 : ℕ)) :
    roundNearestEven x = nearestEven (x / 2 ^ e) * 2 ^ e := by
  have hp : (0 : ℚ) < 2 ^ e := zpow_pos (by norm_num) _
  have hlog : Int.log 2 x = e + 52 := by
    apply log_two_eq x _ hx
    · rw [le_div_iff₀ hp] at h1
      rw [zpow_add₀ (by norm_num : (2 : ℚ) ≠ 0), mul_comm, zpow_ofNat]
      simpa using h1
    · rw [div_lt_iff₀ hp] at h2
      have : e + 52 + 1 = 53 + e := by ring
      rw [this, zpow_add₀ (by norm_num : (2 : ℚ) ≠ 0), zpow_ofNat]
      simpa using h2
  rw [roundNearestEven_of_pos x hx, hlog]
  simp

end Rounding

section RoundingValues

theorem nearestEven_down (y : ℚ) (f : ℤ) (h1 : (f : ℚ) ≤ y) (h2 : y - f < 1 / 2) :
    nearestEven y = f := by
  have hf : ⌊y⌋ = f := by
    rw [Int.floor_eq_iff]
    constructor <;> linarith
  unfold nearestEven
  rw [hf, if_pos h2]

theorem nearestEven_up (y : ℚ) (f : ℤ) (h1 : y < f + 1) (h2 : 1 / 2 < y - f) :
    nearestEven y = f + 1 := by
  have hf : ⌊y⌋ = f := by
    rw [Int.floor_eq_iff]
    constructor <;> linarith
  unfold nearestEven
  rw [hf, if_neg (not_lt.2 (le_of_lt h2)), if_pos h2]

theorem nearestEven_tie_even (y : ℚ) (f : ℤ) (h1 : y = f + 1 / 2) (h2 : f % 2 = 0) :
    nearestEven y = f := by
  have hf : ⌊y⌋ = f := by
    rw [Int.floor_eq_iff]
    constructor <;> linarith
  unfold nearestEven
  rw [hf, if_neg (by linarith), if_neg (by linarith), if_pos h2]

theorem nearestEven_tie_odd (y : ℚ) (f : ℤ) (h1 : y = f + 1 / 2) (h2 : f % 2 = 1) :
    nearestEven y = f + 1 := by
  have hf : ⌊y⌋ = f := by
    rw [Int.floor_eq_iff]
    constructor <;> linarith
  unfold nearestEven
  rw [hf, if_neg (by linarith), if_neg (by linarith), if_neg (by omega)]

/-- The value of `roundNearestEven` at a positive number below `2 ^ 53`, from
the power of two that scales it into `[2 ^ 52, 2 ^ 53)`. -/
theorem roundNearestEven_scaled (x : ℚ) (k : ℕ) (hx : 0 < x)
    (h1 : (2 : ℚ) ^ (52 : ℕ) ≤ x * 2 ^ k) (h2 : x * 2 ^ k < 2 ^ (53 : ℕ)) :
    roundNearestEven x = nearestEven (x * 2 ^ k) / 2 ^ k := by
  have e : x / 2 ^ (-(k : ℤ)) = x * 2 ^ k := by
    rw [zpow_neg, zpow_natCast, div_inv_eq_mul]
  rw [roundNearestEven_eq x (-(k : ℤ)) hx (by rw [e]; exact h1) (by rw [e]; exact h2), e,
    zpow_neg, zpow_natCast]
  rfl

namespace Binary64

theorem val_zero : (0 : Binary64).val = 0 := rfl

theorem val_one : (1 : Binary64).val = 1 := rfl

theorem val_add (a b : Binary64) : (a + b).val = roundNearestEven (a.val + b.val) := rfl

theorem val_div (a b : Binary64) : (a / b).val = roundNearestEven (a.val / b.val) := rfl

theorem val_natCast (n : ℕ) : (n : Binary64).val = roundNearestEven n := rfl

end Binary64

end RoundingValues

/-! ## Repeated addition of `1.0 / n` in `double` -/

section Accumulation

namespace Binary64

theorem inverse_natCast (n : ℕ) (h0 : 0 < n) (hn : n < 2 ^ 53) :
    0 < (1 / (n : Binary64)).val ∧
      |(1 / (n : Binary64)).val - 1 / n| ≤ 1 / n / 2 ^ (53 : ℕ) := by
  rw [val_div, val_natCast, roundNearestEven_natCast n hn, val_one]
  have hx : (0 : ℚ) < 1 / n := by positivity
  exact ⟨roundNearestEven_pos _ hx, roundNearestEven_error_rel _ hx⟩

/-- One rounded addition of `a` to a value `v >= 0` with `v + a < 2` adds `a` up
to `2^(-53)`. -/
theorem add_error (v a : Binary64) (hv : 0 ≤ v.val) (ha : 0 < a.val) (h2 : v.val + a.val < 2) :
    0 < (v + a).val ∧ |(v + a).val - (v.val + a.val)| ≤ 1 / 2 ^ (53 : ℕ) := by
  rw [val_add]
  have hs : 0 < v.val + a.val := by linarith
  exact ⟨roundNearestEven_pos _ hs, roundNearestEven_error_lt_two _ hs h2⟩

theorem iterate_add (a : Binary64) (ha : 0 < a.val) (K : ℕ)
    (hK : (K : ℚ) * a.val + K / 2 ^ (53 : ℕ) < 2) (k : ℕ) (hk : k ≤ K) :
    (0 < k → 0 < ((fun x : Binary64 => x + a)^[k] 0).val) ∧
    0 ≤ ((fun x : Binary64 => x + a)^[k] 0).val ∧
    |((fun x : Binary64 => x + a)^[k] 0).val - k * a.val| ≤ k / 2 ^ (53 : ℕ) := by
  induction k with
  | zero => simp [val_zero]
  | succ k ih =>
    obtain ⟨_, i2, i3⟩ := ih (Nat.le_of_succ_le hk)
    rw [Function.iterate_succ_apply']
    have hkK : ((k + 1 : ℕ) : ℚ) ≤ K := by exact_mod_cast hk
    have hv : ((fun x : Binary64 => x + a)^[k] 0).val ≤ k * a.val + k / 2 ^ (53 : ℕ) := by
      have := (abs_le.1 i3).2
      linarith
    have h1 : ((k + 1 : ℕ) : ℚ) * a.val ≤ K * a.val := mul_le_mul_of_nonneg_right hkK (le_of_lt ha)
    have h3 : (k : ℚ) / 2 ^ (53 : ℕ) ≤ K / 2 ^ (53 : ℕ) := by
      apply div_le_div_of_nonneg_right _ (by positivity)
      push_cast at hkK
      linarith
    have h2 : ((fun x : Binary64 => x + a)^[k] 0).val + a.val < 2 := by
      push_cast at h1
      linarith
    obtain ⟨p1, p2⟩ := add_error _ a i2 ha h2
    refine ⟨fun _ => p1, le_of_lt p1, ?_⟩
    have e : ((fun x : Binary64 => x + a)^[k] 0 + a).val - ((k + 1 : ℕ) : ℚ) * a.val =
        (((fun x : Binary64 => x + a)^[k] 0 + a).val -
          (((fun x : Binary64 => x + a)^[k] 0).val + a.val)) +
        (((fun x : Binary64 => x + a)^[k] 0).val - k * a.val) := by
      push_cast
      ring
    rw [e]
    refine le_trans (abs_add _ _) ?_
    have : ((k + 1 : ℕ) : ℚ) / 2 ^ (53 : ℕ) = 1 / 2 ^ (53 : ℕ) + k / 2 ^ (53 : ℕ) := by
      push_cast
      ring
    rw [this]
    exact add_le_add p2 i3

/-- The term frequency the program records in `double` for a word that occurs
`c` times among the `n` words of a document: positive, and within `c * 2^(-52)`
of `c / n`. -/
theorem iterate_add_inverse (n c : ℕ) (hc : 0 < c) (hcn : c ≤ n) (hn : n ≤ 2 ^ 32) :
    0 < ((fun x : Binary64 => x + 1 / (n : Binary64))^[c] 0).val ∧
    |((fun x : Binary64 => x + 1 / (n : Binary64))^[c] 0).val - c / n| ≤ c / 2 ^ (52 : ℕ) := by
  have h0 : 0 < n := lt_of_lt_of_le hc hcn
  have hnQ : (0 : ℚ) < n := by exact_mod_cast h0
  have hn1 : (1 : ℚ) ≤ n := by exact_mod_cast h0
  have hn2 : (n : ℚ) ≤ 2 ^ (32 : ℕ) := by exact_mod_cast hn
  obtain ⟨a1, a2⟩ := inverse_natCast n h0 (lt_of_le_of_lt hn (by norm_num))
  have a3 := (abs_le.1 a2).2
  have ha4 : (n : ℚ) * (1 / (n : Binary64)).val ≤ 1 + 1 / 2 ^ (53 : ℕ) := by
    have : (n : ℚ) * (1 / (n : Binary64)).val ≤ n * (1 / n + 1 / n / 2 ^ (53 : ℕ)) :=
      mul_le_mul_of_nonneg_left (by linarith) (le_of_lt hnQ)
    refine le_trans this (le_of_eq ?_)
    field_simp
    ring
  have hK : (n : ℚ) * (1 / (n : Binary64)).val + n / 2 ^ (53 : ℕ) < 2 := by
    have : (n : ℚ) / 2 ^ (53 : ℕ) ≤ 2 ^ (32 : ℕ) / 2 ^ (53 : ℕ) :=
      div_le_div_of_nonneg_right hn2 (by positivity)
    have e : (2 : ℚ) ^ (32 : ℕ) / 2 ^ (53 : ℕ) + (1 + 1 / 2 ^ (53 : ℕ)) < 2 := by norm_num
    linarith
  obtain ⟨b1, _, b3⟩ := iterate_add (1 / (n : Binary64)) a1 n hK c hcn
  refine ⟨b1 hc, ?_⟩
  have hcQ : (0 : ℚ) ≤ c := by positivity
  have e : ((fun x : Binary64 => x + 1 / (n : Binary64))^[c] 0).val - c / n =
      (((fun x : Binary64 => x + 1 / (n : Binary64))^[c] 0).val -
        c * (1 / (n : Binary64)).val) + c * ((1 / (n : Binary64)).val - 1 / n) := by
    ring
  rw [e]
  refine le_trans (abs_add _ _) ?_
  rw [abs_mul, abs_of_nonneg hcQ]
  have h5 : (c : ℚ) * |(1 / (n : Binary64)).val - 1 / n| ≤ c * (1 / 2 ^ (53 : ℕ)) := by
    apply mul_le_mul_of_nonneg_left _ hcQ
    refine le_trans a2 ?_
    apply div_le_div_of_nonneg_right _ (by positivity)
    rw [div_le_one hnQ]
    exact hn1
  have e2 : (c : ℚ) / 2 ^ (52 : ℕ) = c / 2 ^ (53 : ℕ) + c * (1 / 2 ^ (53 : ℕ)) := by
    field_simp
    ring
  rw [e2]
  exact add_le_add b3 h5

end Binary64

end Accumulation

/-! ## C14: the index entries written by `AddDocument` -/

namespace StdMap

variable {κ υ : Type} [LinearOrder κ]

theorem iterate_upsert (k : κ) (d : υ) (f : υ → υ) (n : ℕ) (m : StdMap κ υ) (hm : m.WF) :
    ((upsert k d f)^[n] m).WF ∧
    ∀ x, find ((upsert k d f)^[n] m) x =
      if x = k then (if n = 0 then find m k else some (f^[n] ((find m k).getD d)))
      else find m x := by
  induction n generalizing m with
  | zero =>
    refine ⟨hm, fun x => ?_⟩
    by_cases hx : x = k
    · simp [hx]
    · simp [hx]
  | succ n ih =>
    rw [Function.iterate_succ_apply]
    obtain ⟨i1, i2⟩ := ih _ (WF_upsert k d f m hm)
    refine ⟨i1, fun x => ?_⟩
    rw [i2]
    by_cases hx : x = k
    · subst hx
      simp only [if_true, find_upsert _ _ _ _ hm, Option.getD_some, Nat.succ_ne_zero, if_false]
      by_cases hn : n = 0
      · subst hn
        simp
      · simp only [hn, if_false, Function.iterate_succ_apply]
    · simp only [hx, if_false, find_upsert _ _ _ _ hm]

end StdMap

section IndexEntries

variable {R : Type} [Zero R] [One R] [Add R] [Div R] [NatCast R]

theorem SplitIntoWordsNoStop_eq (s : SearchServer R) (text : Str) :
    s.SplitIntoWordsNoStop text = s.retainedTokens text := by
  unfold SearchServer.SplitIntoWordsNoStop SearchServer.retainedTokens
  congr 1
  funext w
  unfold SearchServer.IsStopWord StdSet.count
  by_cases h : w ∈ s.stop_words_
  · simp [h]
  · simp [h]

theorem mem_retainedTokens (s : SearchServer R) (text : Str) (t : Str) :
    t ∈ s.retainedTokens text ↔ t ∈ SplitIntoWords text ∧ t ∉ s.stop_words_ := by
  unfold SearchServer.retainedTokens
  simp

theorem entry_none_of_not_posted (s : SearchServer R) (hs : Consistent s) (id : Int)
    (hnew : id ∉ StdMap.keys s.documents_) (t : Str) : s.entry t id = none := by
  unfold SearchServer.entry
  cases hf : StdMap.find s.word_to_document_freqs_ t with
  | none => rfl
  | some ps =>
    simp only []
    rw [StdMap.find_eq_none_iff]
    intro hin
    exact hnew (hs.postings_ids (t, ps) (StdMap.mem_of_find_eq_some _ _ _ hf) id hin)

/-- The index entries after a successful `AddDocument`, in any arithmetic: the
entry of a retained token is `1 / n` added to 0 once per occurrence. -/
theorem entry_AddDocument (s : SearchServer R) (hs : Consistent s) (id : Int) (text : Str)
    (status : DocumentStatus) (ratings : List Int)
    (hok : (s.AddDocument id text status ratings).1 = .ok ()) (t : Str) (id' : Int) :
    (s.AddDocument id text status ratings).2.entry t id' =
      if id' = id then
        (if t ∈ s.retainedTokens text then
          some ((fun x : R => x + 1 / ((s.retainedTokens text).length : R))^[
            (s.retainedTokens text).count t] 0)
        else none)
      else s.entry t id' := by
  obtain ⟨_, hnew, _⟩ := (AddDocument_ok_iff s id text status ratings).1 hok
  have hnone := entry_none_of_not_posted s hs id hnew t
  rw [AddDocument_ok_state s id text status ratings hok, ← SplitIntoWordsNoStop_eq]
  unfold SearchServer.entry at hnone ⊢
  simp only []
  rw [AddWords_find id _ _ _ hs.index_wf t]
  by_cases ht : t ∈ s.SplitIntoWordsNoStop text
  · rw [if_pos ht]
    simp only []
    have hwf : StdMap.WF ((StdMap.find s.word_to_document_freqs_ t).getD []) := by
      cases hf : StdMap.find s.word_to_document_freqs_ t with
      | none => exact List.Pairwise.nil
      | some ps => exact hs.postings_wf (t, ps) (StdMap.mem_of_find_eq_some _ _ _ hf)
    have hnone2 : StdMap.find ((StdMap.find s.word_to_document_freqs_ t).getD []) id = none := by
      cases hf : StdMap.find s.word_to_document_freqs_ t with
      | none => rfl
      | some ps => rw [hf] at hnone; exact hnone
    have hcount : (s.SplitIntoWordsNoStop text).count t ≠ 0 := by
      rw [Ne, List.count_eq_zero]
      exact fun h => h ht
    rw [(StdMap.iterate_upsert id _ _ _ _ hwf).2 id']
    by_cases hid : id' = id
    · simp only [hid, if_true, hcount, if_false, hnone2, Option.getD_none, ht]
    · simp only [hid, if_false]
      cases hf : StdMap.find s.word_to_document_freqs_ t with
      | none => rfl
      | some ps => rfl
  · rw [if_neg ht]
    by_cases hid : id' = id
    · simp only [hid, if_true, ht, if_false]
      exact hnone
    · simp only [hid, if_false]

theorem AddDocument_ok_of_valid (s : SearchServer R) (id : Int) (text : Str)
    (status : DocumentStatus) (ratings : List Int) (hid : 0 ≤ id)
    (hnew : id ∉ StdMap.keys s.documents_)
    (hvalid : ∀ w ∈ SplitIntoWords text, w ∉ s.stop_words_ → ∀ c ∈ w, 32 ≤ c.toNat) :
    (s.AddDocument id text status ratings).1 = .ok () := by
  rw [AddDocument_ok_iff]
  refine ⟨hid, hnew, List.all_eq_true.2 ?_⟩
  intro w hw
  rw [SplitIntoWordsNoStop_eq, mem_retainedTokens] at hw
  exact (IsValidWord_eq_true_iff w).2 (hvalid w hw.1 hw.2)

end IndexEntries

section IndexEntriesExact

variable {R : Type} [LinearOrderedField R]

theorem iterate_add_exact (x : R) (k : ℕ) : (fun y : R => y + x)^[k] 0 = k * x := by
  induction k with
  | zero => simp
  | succ k ih =>
    rw [Function.iterate_succ_apply', ih]
    push_cast
    ring

end IndexEntriesExact

/-- C14, amended.  In a consistent engine (every reachable engine is one), for
an id `>= 0` that is not in the catalog and a text whose non-stop tokens have no
control character, `AddDocument` succeeds; afterwards the index has an entry for
a word and this id exactly when the word is a retained token (a token of the
text that is not a stop word), and the entries of every other id are as before.
The entry is `1 / n` added to 0 once per occurrence of the word among the `n`
retained tokens.  Over an ordered field (exact arithmetic) the entry is
`count / n`, a value in `(0, 1]`.  In `double` arithmetic the entry is that
accumulated value; for `n <= 2^32` it is positive and within `count * 2^(-52)`
of `count / n`. -/
theorem C14_index_entries :
    (∀ (R : Type) [LinearOrderedField R] (s : SearchServer R), Consistent s →
      ∀ (document_id : Int) (document : Str) (status : DocumentStatus) (ratings : List Int),
        0 ≤ document_id → document_id ∉ StdMap.keys s.documents_ →
        (∀ w ∈ SplitIntoWords document, w ∉ s.stop_words_ → ∀ c ∈ w, 32 ≤ c.toNat) →
        (s.AddDocument document_id document status ratings).1 = .ok () ∧
        ∀ t : Str,
          (t ∈ SplitIntoWords document ∧ t ∉ s.stop_words_ →
            (s.AddDocument document_id document status ratings).2.entry t document_id =
              some (((s.retainedTokens document).count t : R) /
                ((s.retainedTokens document).length : R)) ∧
            (0 : R) < ((s.retainedTokens document).count t : R) /
                ((s.retainedTokens document).length : R) ∧
            ((s.retainedTokens document).count t : R) /
                ((s.retainedTokens document).length : R) ≤ 1) ∧
          (¬ (t ∈ SplitIntoWords document ∧ t ∉ s.stop_words_) →
            (s.AddDocument document_id document status ratings).2.entry t document_id = none) ∧
          ∀ id', id' ≠ document_id →
            (s.AddDocument document_id document status ratings).2.entry t id' = s.entry t id') ∧
    (∀ (s : SearchServer Binary64), Consistent s →
      ∀ (document_id : Int) (document : Str) (status : DocumentStatus) (ratings : List Int),
        0 ≤ document_id → document_id ∉ StdMap.keys s.documents_ →
        (∀ w ∈ SplitIntoWords document, w ∉ s.stop_words_ → ∀ c ∈ w, 32 ≤ c.toNat) →
        (s.AddDocument document_id document status ratings).1 = .ok () ∧
        ∀ t : Str,
          (t ∈ SplitIntoWords document ∧ t ∉ s.stop_words_ →
            (s.AddDocument document_id document status ratings).2.entry t document_id =
              some ((fun x : Binary64 => x + 1 / ((s.retainedTokens document).length : Binary64))^[
                (s.retainedTokens document).count t] 0) ∧
            ((s.retainedTokens document).length ≤ 2 ^ 32 →
              0 < ((fun x : Binary64 =>
                  x + 1 / ((s.retainedTokens document).length : Binary64))^[
                    (s.retainedTokens document).count t] 0).val ∧
              |((fun x : Binary64 =>
                  x + 1 / ((s.retainedTokens document).length : Binary64))^[
                    (s.retainedTokens document).count t] 0).val -
                  ((s.retainedTokens document).count t : ℚ) /
                    ((s.retainedTokens document).length : ℚ)| ≤
                ((s.retainedTokens document).count t : ℚ) / 2 ^ 52)) ∧
          (¬ (t ∈ SplitIntoWords document ∧ t ∉ s.stop_words_) →
            (s.AddDocument document_id document status ratings).2.entry t document_id = none) ∧
          ∀ id', id' ≠ document_id →
            (s.AddDocument document_id document status ratings).2.entry t id' =
              s.entry t id') := by
  constructor
  · intro R _ s hs document_id document status ratings hid hnew hvalid
    have hok := AddDocument_ok_of_valid s document_id document status ratings hid hnew hvalid
    refine ⟨hok, fun t => ⟨?_, ?_, ?_⟩⟩
    · intro ht
      have ht2 := (mem_retainedTokens s document t).2 ht
      have hcount : 0 < (s.retainedTokens document).count t := List.count_pos_iff.2 ht2
      have hlen : 0 < (s.retainedTokens document).length := List.length_pos_of_mem ht2
      have hle : (s.retainedTokens document).count t ≤ (s.retainedTokens document).length :=
        List.count_le_length _ _
      have hlenR : (0 : R) < ((s.retainedTokens document).length : R) := by
        exact_mod_cast hlen
      refine ⟨?_, ?_, ?_⟩
      · rw [entry_AddDocument s hs _ _ _ _ hok, if_pos rfl, if_pos ht2, iterate_add_exact]
        congr 1
        ring
      · apply div_pos _ hlenR
        exact_mod_cast hcount
      · rw [div_le_one hlenR]
        exact_mod_cast hle
    · intro ht
      rw [entry_AddDocument s hs _ _ _ _ hok, if_pos rfl,
        if_neg (fun h => ht ((mem_retainedTokens s document t).1 h))]
    · intro id' hne
      rw [entry_AddDocument s hs _ _ _ _ hok, if_neg hne]
  · intro s hs document_id document status ratings hid hnew hvalid
    have hok := AddDocument_ok_of_valid s document_id document status ratings hid hnew hvalid
    refine ⟨hok, fun t => ⟨?_, ?_, ?_⟩⟩
    · intro ht
      have ht2 := (mem_retainedTokens s document t).2 ht
      refine ⟨?_, fun hn => ?_⟩
      · rw [entry_AddDocument s hs _ _ _ _ hok, if_pos rfl, if_pos ht2]
      · exact Binary64.iterate_add_inverse _ _ (List.count_pos_iff.2 ht2)
          (List.count_le_length _ _) hn
    · intro ht
      rw [entry_AddDocument s hs _ _ _ _ hok, if_pos rfl,
        if_neg (fun h => ht ((mem_retainedTokens s document t).1 h))]
    · intro id' hne
      rw [entry_AddDocument s hs _ _ _ _ hok, if_neg hne]

section IndexEntriesWitness

theorem emptyEngine_consistent {R : Type} : Consistent (emptyEngine (R := R)) :=
  ⟨List.Pairwise.nil, fun _ h => absurd h (List.not_mem_nil _),
    fun _ h => absurd h (List.not_mem_nil _), List.Pairwise.nil, rfl⟩

/-- C14 on the first document of the scenario, over the rationals: "fluffy"
occurs twice among the four retained tokens; and on the document "a b a" in
`double`: the entry of "a" is within `2 * 2^(-52)` of `2 / 3`. -/
theorem C14_index_entries_witness :
    ((scenarioFresh (R := ℚ)).AddDocument 1 "fluffy cat fluffy tail".toList
        DocumentStatus.ACTUAL [8, 2, 3, 4]).2.entry "fluffy".toList 1 = some ((2 : ℚ) / 4) ∧
    ((scenarioFresh (R := ℚ)).AddDocument 1 "fluffy cat and tail".toList
        DocumentStatus.ACTUAL [8, 2, 3, 4]).2.entry "and".toList 1 = none ∧
    ∃ v : Binary64, ((emptyEngine (R := Binary64)).AddDocument 1 "a b a".toList
        DocumentStatus.ACTUAL [5]).2.entry "a".toList 1 = some v ∧
      |v.val - 2 / 3| ≤ 2 / 2 ^ 52 := by
  have hQ := fun document => (C14_index_entries.1 ℚ (scenarioFresh (R := ℚ))
    (Consistent_create ["and".toList] _ rfl) 1 document DocumentStatus.ACTUAL [8, 2, 3, 4]
    (by decide) (by decide))
  have h1 := (hQ "fluffy cat fluffy tail".toList (by decide)).2 "fluffy".toList
  have h2 := (hQ "fluffy cat and tail".toList (by decide)).2 "and".toList
  have hB := ((C14_index_entries.2 (emptyEngine (R := Binary64)) emptyEngine_consistent 1
    "a b a".toList DocumentStatus.ACTUAL [5] (by decide) (by decide) (by decide)).2
    "a".toList).1 (by decide)
  have hc : ((scenarioFresh (R := ℚ)).retainedTokens
      "fluffy cat fluffy tail".toList).count "fluffy".toList = 2 := by decide
  have hl : ((scenarioFresh (R := ℚ)).retainedTokens
      "fluffy cat fluffy tail".toList).length = 4 := by decide
  have hc2 : ((emptyEngine (R := Binary64)).retainedTokens "a b a".toList).count "a".toList = 2 := by
    decide
  have hl2 : ((emptyEngine (R := Binary64)).retainedTokens "a b a".toList).length = 3 := by
    decide
  refine ⟨?_, h2.2.1 (by decide), _, hB.1, ?_⟩
  · rw [(h1.1 (by decide)).1, hc, hl]
    norm_num
  · have := (hB.2 (by rw [hl2]; norm_num)).2
    rw [hc2, hl2] at this
    exact_mod_cast this

end IndexEntriesWitness

section IndexEntriesCounterexample

theorem nine_inverse : (1 / ((9 : ℕ) : Binary64)).val = 2001599834386887 / 18014398509481984 := by
  rw [Binary64.val_div, Binary64.val_natCast, roundNearestEven_natCast 9 (by norm_num),
    Binary64.val_one,
    roundNearestEven_scaled _ 56 (by norm_num) (by norm_num) (by norm_num),
    nearestEven_down _ 8006399337547548 (by norm_num) (by norm_num)]
  norm_num

theorem nine_step1 : roundNearestEven (0 + 2001599834386887 / 18014398509481984) = 2001599834386887 / 18014398509481984 := by
  rw [roundNearestEven_scaled _ 56 (by norm_num) (by norm_num) (by norm_num),
    nearestEven_down _ 8006399337547548 (by norm_num) (by norm_num)]
  norm_num

theorem nine_step2 : roundNearestEven (2001599834386887 / 18014398509481984 + 2001599834386887 / 18014398509481984) = 2001599834386887 / 9007199254740992 := by
  rw [roundNearestEven_scaled _ 55 (by norm_num) (by norm_num) (by norm_num),
    nearestEven_down _ 8006399337547548 (by norm_num) (by norm_num)]
  norm_num

theorem nine_step3 : roundNearestEven (2001599834386887 / 9007199254740992 + 2001599834386887 / 18014398509481984) = 6004799503160661 / 18014398509481984 := by
  rw [roundNearestEven_scaled _ 54 (by norm_num) (by norm_num) (by norm_num),
    nearestEven_down _ 6004799503160661 (by norm_num) (by norm_num)]
  norm_num

theorem nine_step4 : roundNearestEven (6004799503160661 / 18014398509481984 + 2001599834386887 / 18014398509481984) = 2001599834386887 / 4503599627370496 := by
  rw [roundNearestEven_scaled _ 54 (by norm_num) (by norm_num) (by norm_num),
    nearestEven_down _ 8006399337547548 (by norm_num) (by norm_num)]
  norm_num

theorem nine_step5 : roundNearestEven (2001599834386887 / 4503599627370496 + 2001599834386887 / 18014398509481984) = 2501999792983609 / 4503599627370496 := by
  rw [roundNearestEven_scaled _ 53 (by norm_num) (by norm_num) (by norm_num),
    nearestEven_tie_odd _ 5003999585967217 (by norm_num) (by norm_num)]
  norm_num

theorem nine_step6 : roundNearestEven (2501999792983609 / 4503599627370496 + 2001599834386887 / 18014398509481984) = 3002399751580331 / 4503599627370496 := by
  rw [roundNearestEven_scaled _ 53 (by norm_num) (by norm_num) (by norm_num),
    nearestEven_tie_odd _ 6004799503160661 (by norm_num) (by norm_num)]
  norm_num

theorem nine_step7 : roundNearestEven (3002399751580331 / 4503599627370496 + 2001599834386887 / 18014398509481984) = 3502799710177053 / 4503599627370496 := by
  rw [roundNearestEven_scaled _ 53 (by norm_num) (by norm_num) (by norm_num),
    nearestEven_tie_odd _ 7005599420354105 (by norm_num) (by norm_num)]
  norm_num

theorem nine_step8 : roundNearestEven (3502799710177053 / 4503599627370496 + 2001599834386887 / 18014398509481984) = 4003199668773775 / 4503599627370496 := by
  rw [roundNearestEven_scaled _ 53 (by norm_num) (by norm_num) (by norm_num),
    nearestEven_tie_odd _ 8006399337547549 (by norm_num) (by norm_num)]
  norm_num

theorem nine_step9 : roundNearestEven (4003199668773775 / 4503599627370496 + 2001599834386887 / 18014398509481984) = 4503599627370497 / 4503599627370496 := by
  rw [roundNearestEven_scaled _ 52 (by norm_num) (by norm_num) (by norm_num),
    nearestEven_up _ 4503599627370496 (by norm_num) (by norm_num)]
  norm_num

/-- Nine additions of `1.0 / 9` to `0.0` give `1 + 2^(-52)`, the `double` printed
as 1.0000000000000002. -/
theorem nine_additions :
    ((fun x : Binary64 => x + 1 / ((9 : ℕ) : Binary64))^[9] 0).val = 1 + 1 / 2 ^ 52 := by
  simp only [Function.iterate_succ_apply', Function.iterate_zero_apply, Binary64.val_add,
    Binary64.val_zero, nine_inverse]
  rw [nine_step1, nine_step2, nine_step3, nine_step4, nine_step5, nine_step6, nine_step7,
    nine_step8, nine_step9]
  norm_num

/-- C14 fails as stated in the arithmetic of the program.  For the document of
nine words "a" the program adds `1.0 / 9` nine times to `0.0`: the entry of "a"
is `1 + 2^(-52)` (printed 1.0000000000000002), not `9 / 9`, and not a value in
`(0, 1]`. -/
theorem C14_counterexample :
    ((emptyEngine (R := Binary64)).AddDocument 1 "a a a a a a a a a".toList
      DocumentStatus.ACTUAL [5]).1 = .ok () ∧
    ∃ v : Binary64,
      ((emptyEngine (R := Binary64)).AddDocument 1 "a a a a a a a a a".toList
        DocumentStatus.ACTUAL [5]).2.entry "a".toList 1 = some v ∧
      v.val = 1 + 1 / 2 ^ 52 ∧ 1 < v.val ∧ v.val ≠ 9 / 9 := by
  refine ⟨rfl, (fun x : Binary64 => x + 1 / ((9 : ℕ) : Binary64))^[9] 0, rfl, nine_additions, ?_, ?_⟩
  · rw [nine_additions]
    norm_num
  · rw [nine_additions]
    norm_num

end IndexEntriesCounterexample

/-! ## C12: the term frequencies of a document sum to 1 -/

section FrequencySum

variable {R : Type} [LinearOrderedField R]

theorem freqSum_upsert (idx : StdMap Str (StdMap Int R)) (hps : ∀ p ∈ idx, StdMap.WF p.2)
    (w : Str) (id : Int) (x : R) :
    ((StdMap.upsert w [] (StdMap.upsert id 0 (fun y => y + x)) idx).map
        (fun p => (StdMap.find p.2 id).getD 0)).sum =
      (idx.map (fun p => (StdMap.find p.2 id).getD 0)).sum + x := by
  have hnil : StdMap.WF ([] : StdMap Int R) := List.Pairwise.nil
  induction idx with
  | nil =>
    simp [StdMap.upsert, StdMap.find]
  | cons p m ih =>
    obtain ⟨k', ps⟩ := p
    have hps1 : StdMap.WF ps := hps (k', ps) (List.mem_cons_self _ _)
    have hps2 : ∀ p ∈ m, StdMap.WF p.2 := fun p hp => hps p (List.mem_cons_of_mem _ hp)
    by_cases h1 : w = k'
    · simp only [StdMap.upsert, h1, if_true, List.map_cons, List.sum_cons,
        StdMap.find_upsert _ _ _ _ hps1, Option.getD_some]
      ring
    · by_cases h2 : w < k'
      · simp only [StdMap.upsert, h1, h2, if_false, if_true, List.map_cons, List.sum_cons,
          StdMap.find_upsert _ _ _ _ hnil, Option.getD_some]
        simp only [StdMap.find, Option.getD_none, if_true, Option.getD_some]
        ring
      · simp only [StdMap.upsert, h1, h2, if_false, List.map_cons, List.sum_cons, ih hps2]
        ring

theorem freqSum_AddWords (id : Int) (n : Nat) (ws : List Str) (idx : StdMap Str (StdMap Int R))
    (hps : ∀ p ∈ idx, StdMap.WF p.2) :
    ((SearchServer.AddWords id n ws idx).map (fun p => (StdMap.find p.2 id).getD 0)).sum =
      (idx.map (fun p => (StdMap.find p.2 id).getD 0)).sum + (ws.length : R) * (1 / (n : R)) := by
  induction ws generalizing idx with
  | nil => simp [SearchServer.AddWords]
  | cons w ws ih =>
    simp only [SearchServer.AddWords]
    have hnil : StdMap.WF ([] : StdMap Int R) := List.Pairwise.nil
    rw [ih _ (StdMap.forall_upsert (fun ps => StdMap.WF ps) _ _ _ _ hps
      (StdMap.WF_upsert _ _ _ _ hnil) (fun ps h => StdMap.WF_upsert _ _ _ _ h)),
      freqSum_upsert idx hps]
    simp only [List.length_cons]
    push_cast
    ring

theorem freqSum_not_posted (s : SearchServer R) (hs : Consistent s) (id : Int)
    (hnew : id ∉ StdMap.keys s.documents_) : s.termFreqSum id = 0 := by
  unfold SearchServer.termFreqSum
  apply List.sum_eq_zero
  intro x hx
  obtain ⟨p, hp, rfl⟩ := List.mem_map.1 hx
  have : StdMap.find p.2 id = none := by
    rw [StdMap.find_eq_none_iff]
    exact fun hin => hnew (hs.postings_ids p hp id hin)
  rw [this]
  rfl

theorem freqSum_AddDocument (s : SearchServer R) (hs : Consistent s) (id : Int)
    (text : Str) (status : DocumentStatus) (ratings : List Int)
    (hok : (s.AddDocument id text status ratings).1 = .ok ()) :
    (s.AddDocument id text status ratings).2.termFreqSum id =
      ((s.retainedTokens text).length : R) * (1 / ((s.retainedTokens text).length : R)) := by
  obtain ⟨_, hnew, _⟩ := (AddDocument_ok_iff s _ _ _ _).1 hok
  have h0 := freqSum_not_posted s hs id hnew
  unfold SearchServer.termFreqSum at h0 ⊢
  rw [AddDocument_ok_state s _ _ _ _ hok]
  simp only []
  rw [freqSum_AddWords _ _ _ _ hs.postings_wf, h0, SplitIntoWordsNoStop_eq, zero_add]

end FrequencySum

section FrequencySumDouble

theorem retainedTokens_ne_nil {R : Type} (s : SearchServer R) (text : Str)
    (h : ∃ w ∈ SplitIntoWords text, w ∉ s.stop_words_) : s.retainedTokens text ≠ [] := by
  obtain ⟨w, hw, hw2⟩ := h
  intro e
  have : w ∈ s.retainedTokens text := by
    unfold SearchServer.retainedTokens
    simp [hw, hw2]
  rw [e] at this
  exact absurd this (List.not_mem_nil _)

theorem retainedTokens_eq_nil {R : Type} (s : SearchServer R) (text : Str)
    (h : ∀ w ∈ SplitIntoWords text, w ∈ s.stop_words_) : s.retainedTokens text = [] := by
  unfold SearchServer.retainedTokens
  rw [List.filter_eq_nil_iff]
  intro w hw
  simp [h w hw]

theorem indexValueSum_upsert (idx : StdMap Str (StdMap Int Binary64))
    (hps : ∀ p ∈ idx, StdMap.WF p.2) (w : Str) (id : Int) (a : Binary64) :
    ∃ x : Binary64, (x = 0 ∨ ∃ p ∈ idx, StdMap.find p.2 id = some x) ∧
      indexValueSum (StdMap.upsert w [] (StdMap.upsert id 0 (fun y => y + a)) idx) id =
        indexValueSum idx id - x.val + (x + a).val := by
  have hnil : StdMap.WF ([] : StdMap Int Binary64) := List.Pairwise.nil
  unfold indexValueSum
  induction idx with
  | nil =>
    refine ⟨0, Or.inl rfl, ?_⟩
    simp [StdMap.upsert, StdMap.find, Binary64.val_zero]
  | cons p m ih =>
    obtain ⟨k', ps⟩ := p
    have hps1 : StdMap.WF ps := hps (k', ps) (List.mem_cons_self _ _)
    have hps2 : ∀ p ∈ m, StdMap.WF p.2 := fun p hp => hps p (List.mem_cons_of_mem _ hp)
    by_cases h1 : w = k'
    · refine ⟨(StdMap.find ps id).getD 0, ?_, ?_⟩
      · cases hf : StdMap.find ps id with
        | none => exact Or.inl rfl
        | some v => exact Or.inr ⟨(k', ps), List.mem_cons_self _ _, hf⟩
      · simp only [StdMap.upsert, h1, if_true, List.map_cons, List.sum_cons,
          StdMap.find_upsert _ _ _ _ hps1, Option.getD_some]
        ring
    · by_cases h2 : w < k'
      · refine ⟨0, Or.inl rfl, ?_⟩
        simp only [StdMap.upsert, h1, h2, if_false, if_true, List.map_cons, List.sum_cons,
          StdMap.find_upsert _ _ _ _ hnil, Option.getD_some]
        simp only [StdMap.find, Option.getD_none, if_true, Option.getD_some, Binary64.val_zero]
        ring
      · obtain ⟨x, hx, hsum⟩ := ih hps2
        refine ⟨x, ?_, ?_⟩
        · rcases hx with hx | ⟨p, hp, hp2⟩
          · exact Or.inl hx
          · exact Or.inr ⟨p, List.mem_cons_of_mem _ hp, hp2⟩
        · simp only [StdMap.upsert, h1, h2, if_false, List.map_cons, List.sum_cons, hsum]
          ring

theorem postings_nonneg_upsert (id : Int) (a : Binary64) (ha : 0 < a.val)
    (ps : StdMap Int Binary64) (hwf : StdMap.WF ps)
    (hps : ∀ v, StdMap.find ps id = some v → 0 ≤ v.val) :
    StdMap.WF (StdMap.upsert id 0 (fun y => y + a) ps) ∧
      ∀ v, StdMap.find (StdMap.upsert id 0 (fun y => y + a) ps) id = some v → 0 ≤ v.val := by
  refine ⟨StdMap.WF_upsert _ _ _ _ hwf, ?_⟩
  intro v hv
  rw [StdMap.find_upsert _ _ _ _ hwf, if_pos rfl] at hv
  cases hv
  rw [Binary64.val_add]
  apply roundNearestEven_nonneg
  have : 0 ≤ ((StdMap.find ps id).getD 0).val := by
    cases hf : StdMap.find ps id with
    | none => exact le_of_eq Binary64.val_zero.symm
    | some v => exact hps v hf
  linarith

theorem indexValueSum_step (idx : StdMap Str (StdMap Int Binary64)) (id : Int)
    (hP : ∀ p ∈ idx, StdMap.WF p.2 ∧ ∀ v, StdMap.find p.2 id = some v → 0 ≤ v.val)
    (w : Str) (a : Binary64) (ha : 0 < a.val) (h2 : indexValueSum idx id + a.val < 2) :
    (∀ p ∈ StdMap.upsert w [] (StdMap.upsert id 0 (fun y => y + a)) idx,
      StdMap.WF p.2 ∧ ∀ v, StdMap.find p.2 id = some v → 0 ≤ v.val) ∧
    |indexValueSum (StdMap.upsert w [] (StdMap.upsert id 0 (fun y => y + a)) idx) id -
        (indexValueSum idx id + a.val)| ≤ 1 / 2 ^ (53 : ℕ) := by
  constructor
  · refine StdMap.forall_upsert
      (fun ps : StdMap Int Binary64 =>
        StdMap.WF ps ∧ ∀ v : Binary64, StdMap.find ps id = some v → 0 ≤ v.val)
      w [] (StdMap.upsert id 0 (fun y => y + a)) idx hP ?_ ?_
    · exact postings_nonneg_upsert id a ha [] List.Pairwise.nil (fun v hv => by cases hv)
    · intro ps hps
      exact postings_nonneg_upsert id a ha ps hps.1 hps.2
  · obtain ⟨x, hx, hsum⟩ := indexValueSum_upsert idx (fun p hp => (hP p hp).1) w id a
    have hterms : ∀ q ∈ idx.map (fun p => ((StdMap.find p.2 id).getD 0).val), (0 : ℚ) ≤ q := by
      intro q hq
      obtain ⟨p, hp, rfl⟩ := List.mem_map.1 hq
      cases hf : StdMap.find p.2 id with
      | none => exact le_of_eq Binary64.val_zero.symm
      | some v => exact (hP p hp).2 v hf
    have hx0 : 0 ≤ x.val ∧ x.val ≤ indexValueSum idx id := by
      rcases hx with hx | ⟨p, hp, hp2⟩
      · rw [hx, Binary64.val_zero]
        exact ⟨le_refl _, List.sum_nonneg hterms⟩
      · refine ⟨(hP p hp).2 x hp2, ?_⟩
        apply List.single_le_sum hterms
        refine List.mem_map.2 ⟨p, hp, ?_⟩
        rw [hp2]
        rfl
    obtain ⟨_, herr⟩ := Binary64.add_error x a hx0.1 ha (by linarith [hx0.2])
    rw [hsum]
    have e : indexValueSum idx id - x.val + (x + a).val - (indexValueSum idx id + a.val) =
        (x + a).val - (x.val + a.val) := by ring
    rw [e]
    exact herr

theorem indexValueSum_AddWords (id : Int) (n : Nat) (ha : 0 < (1 / (n : Binary64)).val)
    (ws : List Str) (idx : StdMap Str (StdMap Int Binary64)) (k : ℕ)
    (hP : ∀ p ∈ idx, StdMap.WF p.2 ∧ ∀ v, StdMap.find p.2 id = some v → 0 ≤ v.val)
    (hsum : |indexValueSum idx id - k * (1 / (n : Binary64)).val| ≤ k / 2 ^ (53 : ℕ))
    (hK : ((k + ws.length : ℕ) : ℚ) * (1 / (n : Binary64)).val +
      ((k + ws.length : ℕ) : ℚ) / 2 ^ (53 : ℕ) < 2) :
    |indexValueSum (SearchServer.AddWords id n ws idx) id -
        ((k + ws.length : ℕ) : ℚ) * (1 / (n : Binary64)).val| ≤
      ((k + ws.length : ℕ) : ℚ) / 2 ^ (53 : ℕ) := by
  induction ws generalizing idx k with
  | nil => simpa [SearchServer.AddWords] using hsum
  | cons w ws ih =>
    simp only [SearchServer.AddWords]
    have e : k + (w :: ws).length = (k + 1) + ws.length := by
      simp only [List.length_cons]
      omega
    rw [e] at hK ⊢
    have hk1 : ((k + 1 : ℕ) : ℚ) ≤ ((k + 1 + ws.length : ℕ) : ℚ) := by
      exact_mod_cast Nat.le_add_right _ _
    have hk2 : (k : ℚ) ≤ ((k + 1 + ws.length : ℕ) : ℚ) := by
      exact_mod_cast (by omega : k ≤ k + 1 + ws.length)
    have hbound : indexValueSum idx id + (1 / (n : Binary64)).val < 2 := by
      have h1 := (abs_le.1 hsum).2
      have h3 : ((k + 1 : ℕ) : ℚ) * (1 / (n : Binary64)).val ≤
          ((k + 1 + ws.length : ℕ) : ℚ) * (1 / (n : Binary64)).val :=
        mul_le_mul_of_nonneg_right hk1 (le_of_lt ha)
      have h4 : (k : ℚ) / 2 ^ (53 : ℕ) ≤ ((k + 1 + ws.length : ℕ) : ℚ) / 2 ^ (53 : ℕ) :=
        div_le_div_of_nonneg_right hk2 (by positivity)
      have hK2 := hK
      push_cast at h3 h4 hK2
      linarith
    obtain ⟨hP2, herr⟩ := indexValueSum_step idx id hP w _ ha hbound
    apply ih _ (k + 1) hP2 _ hK
    have e2 : indexValueSum (StdMap.upsert w [] (StdMap.upsert id 0
          (fun y => y + 1 / (n : Binary64))) idx) id - ((k + 1 : ℕ) : ℚ) * (1 / (n : Binary64)).val =
        (indexValueSum (StdMap.upsert w [] (StdMap.upsert id 0
          (fun y => y + 1 / (n : Binary64))) idx) id -
          (indexValueSum idx id + (1 / (n : Binary64)).val)) +
        (indexValueSum idx id - k * (1 / (n : Binary64)).val) := by
      push_cast
      ring
    rw [e2]
    refine le_trans (abs_add _ _) ?_
    have e3 : ((k + 1 : ℕ) : ℚ) / 2 ^ (53 : ℕ) = 1 / 2 ^ (53 : ℕ) + k / 2 ^ (53 : ℕ) := by
      push_cast
      ring
    rw [e3]
    exact add_le_add herr hsum

theorem termFreqValueSum_not_posted (s : SearchServer Binary64) (hs : Consistent s) (id : Int)
    (hnew : id ∉ StdMap.keys s.documents_) :
    indexValueSum s.word_to_document_freqs_ id = 0 ∧
    ∀ p ∈ s.word_to_document_freqs_,
      StdMap.WF p.2 ∧ ∀ v, StdMap.find p.2 id = some v → 0 ≤ v.val := by
  have hnone : ∀ p ∈ s.word_to_document_freqs_, StdMap.find p.2 id = none := by
    intro p hp
    rw [StdMap.find_eq_none_iff]
    exact fun hin => hnew (hs.postings_ids p hp id hin)
  constructor
  · unfold indexValueSum
    apply List.sum_eq_zero
    intro x hx
    obtain ⟨p, hp, rfl⟩ := List.mem_map.1 hx
    rw [hnone p hp]
    rfl
  · intro p hp
    refine ⟨hs.postings_wf p hp, fun v hv => ?_⟩
    rw [hnone p hp] at hv
    cases hv

/-- The term frequencies that the program records in `double` for a document
of `n >= 1` retained tokens, `n <= 2^32`, sum to 1 up to `(n + 1) * 2^(-53)`. -/
theorem termFreqValueSum_AddDocument (s : SearchServer Binary64) (hs : Consistent s) (id : Int)
    (text : Str) (status : DocumentStatus) (ratings : List Int)
    (hok : (s.AddDocument id text status ratings).1 = .ok ())
    (hne : s.retainedTokens text ≠ []) (hn : (s.retainedTokens text).length ≤ 2 ^ 32) :
    |(s.AddDocument id text status ratings).2.termFreqValueSum id - 1| ≤
      (((s.retainedTokens text).length : ℚ) + 1) / 2 ^ (53 : ℕ) := by
  obtain ⟨_, hnew, _⟩ := (AddDocument_ok_iff s _ _ _ _).1 hok
  obtain ⟨h0, hP⟩ := termFreqValueSum_not_posted s hs id hnew
  have h0n : 0 < (s.retainedTokens text).length := List.length_pos.2 hne
  have hnQ : (0 : ℚ) < ((s.retainedTokens text).length : ℚ) := by exact_mod_cast h0n
  have hn2 : ((s.retainedTokens text).length : ℚ) ≤ 2 ^ (32 : ℕ) := by exact_mod_cast hn
  obtain ⟨a1, a2⟩ := Binary64.inverse_natCast _ h0n (lt_of_le_of_lt hn (by norm_num))
  have hna : |((s.retainedTokens text).length : ℚ) *
      (1 / ((s.retainedTokens text).length : Binary64)).val - 1| ≤ 1 / 2 ^ (53 : ℕ) := by
    have e : ((s.retainedTokens text).length : ℚ) *
        (1 / ((s.retainedTokens text).length : Binary64)).val - 1 =
        ((s.retainedTokens text).length : ℚ) *
          ((1 / ((s.retainedTokens text).length : Binary64)).val -
            1 / ((s.retainedTokens text).length : ℚ)) := by
      field_simp
      ring
    rw [e, abs_mul, abs_of_pos hnQ]
    have := mul_le_mul_of_nonneg_left a2 (le_of_lt hnQ)
    refine le_trans this (le_of_eq ?_)
    field_simp
  have hK : ((0 + (s.retainedTokens text).length : ℕ) : ℚ) *
      (1 / ((s.retainedTokens text).length : Binary64)).val +
      ((0 + (s.retainedTokens text).length : ℕ) : ℚ) / 2 ^ (53 : ℕ) < 2 := by
    rw [Nat.zero_add]
    have h1 := (abs_le.1 hna).2
    have h2 : ((s.retainedTokens text).length : ℚ) / 2 ^ (53 : ℕ) ≤
        2 ^ (32 : ℕ) / 2 ^ (53 : ℕ) := div_le_div_of_nonneg_right hn2 (by positivity)
    have e : (2 : ℚ) ^ (32 : ℕ) / 2 ^ (53 : ℕ) + (1 + 1 / 2 ^ (53 : ℕ)) < 2 := by norm_num
    linarith
  have hmain := indexValueSum_AddWords id (s.retainedTokens text).length a1
    (s.retainedTokens text) s.word_to_document_freqs_ 0 hP (by rw [h0]; simp) hK
  rw [Nat.zero_add] at hmain
  unfold SearchServer.termFreqValueSum
  rw [AddDocument_ok_state s _ _ _ _ hok, SplitIntoWordsNoStop_eq]
  simp only []
  have e : indexValueSum (SearchServer.AddWords id (s.retainedTokens text).length
        (s.retainedTokens text) s.word_to_document_freqs_) id - 1 =
      (indexValueSum (SearchServer.AddWords id (s.retainedTokens text).length
        (s.retainedTokens text) s.word_to_document_freqs_) id -
        ((s.retainedTokens text).length : ℚ) *
          (1 / ((s.retainedTokens text).length : Binary64)).val) +
      (((s.retainedTokens text).length : ℚ) *
          (1 / ((s.retainedTokens text).length : Binary64)).val - 1) := by ring
  rw [e]
  refine le_trans (abs_add _ _) ?_
  have e2 : (((s.retainedTokens text).length : ℚ) + 1) / 2 ^ (53 : ℕ) =
      ((s.retainedTokens text).length : ℚ) / 2 ^ (53 : ℕ) + 1 / 2 ^ (53 : ℕ) := by ring
  rw [e2]
  exact add_le_add hmain hna

end FrequencySumDouble

section DoubleSum

theorem roundNearestEven_idem (x : ℚ) (hx : 0 ≤ x) :
    roundNearestEven (roundNearestEven x) = roundNearestEven x := by
  rcases eq_or_lt_of_le hx with h | h
  · rw [← h]
    simp [roundNearestEven]
  have hp : (0 : ℚ) < 2 ^ (Int.log 2 x - 52) := zpow_pos (by norm_num) _
  have hval := roundNearestEven_of_pos x h
  have hpos := roundNearestEven_pos x h
  obtain ⟨b1, b2⟩ := scaled_bounds x h
  have hm1 : (2 : ℤ) ^ (52 : ℕ) ≤ nearestEven (x / 2 ^ (Int.log 2 x - 52)) := by
    refine le_trans ?_ (floor_le_nearestEven _)
    rw [Int.le_floor]
    push_cast
    exact b1
  have hm2 : nearestEven (x / 2 ^ (Int.log 2 x - 52)) ≤ (2 : ℤ) ^ (53 : ℕ) := by
    have hf : ⌊x / 2 ^ (Int.log 2 x - 52)⌋ < (2 : ℤ) ^ (53 : ℕ) := by
      rw [Int.floor_lt]
      push_cast
      exact b2
    have : nearestEven (x / 2 ^ (Int.log 2 x - 52)) ≤ ⌊x / 2 ^ (Int.log 2 x - 52)⌋ + 1 := by
      unfold nearestEven
      split_ifs <;> omega
    omega
  rcases lt_or_eq_of_le hm2 with hlt | heq
  · rw [roundNearestEven_eq (roundNearestEven x) (Int.log 2 x - 52) hpos, hval]
    · rw [mul_div_assoc, div_self (ne_of_gt hp), mul_one, nearestEven_intCast]
    · rw [hval, mul_div_assoc, div_self (ne_of_gt hp), mul_one]
      exact_mod_cast hm1
    · rw [hval, mul_div_assoc, div_self (ne_of_gt hp), mul_one]
      exact_mod_cast hlt
  · have hp2 : (0 : ℚ) < 2 ^ (Int.log 2 x - 52 + 1) := zpow_pos (by norm_num) _
    have e : roundNearestEven x / 2 ^ (Int.log 2 x - 52 + 1) = ((2 ^ (52 : ℕ) : ℤ) : ℚ) := by
      rw [hval, heq, zpow_add₀ (by norm_num : (2 : ℚ) ≠ 0)]
      push_cast
      field_simp
      ring
    rw [roundNearestEven_eq (roundNearestEven x) (Int.log 2 x - 52 + 1) hpos]
    · rw [e, nearestEven_intCast, hval, heq, zpow_add₀ (by norm_num : (2 : ℚ) ≠ 0)]
      push_cast
      ring
    · rw [e]
      push_cast
      exact le_refl _
    · rw [e]
      push_cast
      norm_num

namespace Binary64

/-- The accumulation of non-negative terms in `double`, starting from a
`double` `sum`: the result is the exact sum up to `2^(-53)` for every term that
is not zero. -/
theorem foldl_add (terms : List Binary64) (sum : Binary64)
    (hrep : roundNearestEven sum.val = sum.val) (h0 : 0 ≤ sum.val)
    (hterms : ∀ t ∈ terms, 0 ≤ t.val)
    (h2 : sum.val + (terms.map Binary64.val).sum +
      ((terms.filter (fun t => decide (t.val ≠ 0))).length : ℚ) / 2 ^ (53 : ℕ) < 2) :
    |(terms.foldl (fun sum t => sum + t) sum).val - (sum.val + (terms.map Binary64.val).sum)| ≤
      ((terms.filter (fun t => decide (t.val ≠ 0))).length : ℚ) / 2 ^ (53 : ℕ) := by
  induction terms generalizing sum with
  | nil => simp
  | cons t ts ih =>
    have ht : 0 ≤ t.val := hterms t (List.mem_cons_self _ _)
    have hts : ∀ t ∈ ts, 0 ≤ t.val := fun u hu => hterms u (List.mem_cons_of_mem _ hu)
    have hrest : (0 : ℚ) ≤ (ts.map Binary64.val).sum := by
      apply List.sum_nonneg
      intro q hq
      obtain ⟨u, hu, rfl⟩ := List.mem_map.1 hq
      exact hts u hu
    have hcnt : (0 : ℚ) ≤ ((ts.filter (fun t => decide (t.val ≠ 0))).length : ℚ) / 2 ^ (53 : ℕ) := by
      positivity
    rw [List.foldl_cons]
    by_cases hz : t.val = 0
    · have hstep : (sum + t).val = sum.val := by
        rw [val_add, hz, add_zero, hrep]
      have hf : (t :: ts).filter (fun t => decide (t.val ≠ 0)) =
          ts.filter (fun t => decide (t.val ≠ 0)) := by
        simp [List.filter_cons, hz]
      rw [hf] at h2 ⊢
      simp only [List.map_cons, List.sum_cons, hz, zero_add] at h2 ⊢
      have := ih (sum + t) (by rw [hstep, hrep]) (by rw [hstep]; exact h0) hts
        (by rw [hstep]; exact h2)
      rw [hstep] at this
      exact this
    · have hpos : 0 < t.val := lt_of_le_of_ne ht (Ne.symm hz)
      have hf : (t :: ts).filter (fun t => decide (t.val ≠ 0)) =
          t :: ts.filter (fun t => decide (t.val ≠ 0)) := by
        simp [List.filter_cons, hz]
      rw [hf] at h2 ⊢
      simp only [List.map_cons, List.sum_cons, List.length_cons] at h2 ⊢
      push_cast at h2 ⊢
      obtain ⟨p1, p2⟩ := add_error sum t h0 hpos (by linarith)
      have hrep2 : roundNearestEven (sum + t).val = (sum + t).val := by
        rw [val_add]
        exact roundNearestEven_idem _ (by linarith)
      have hle := (abs_le.1 p2).2
      have := ih (sum + t) hrep2 (le_of_lt p1) hts (by
        have e : ((ts.filter (fun t => decide (t.val ≠ 0))).length + 1 : ℚ) / 2 ^ (53 : ℕ) =
            ((ts.filter (fun t => decide (t.val ≠ 0))).length : ℚ) / 2 ^ (53 : ℕ) +
              1 / 2 ^ (53 : ℕ) := by ring
        rw [e] at h2
        linarith)
      have e : (List.foldl (fun sum t => sum + t) (sum + t) ts).val -
          (sum.val + (t.val + (ts.map Binary64.val).sum)) =
          ((List.foldl (fun sum t => sum + t) (sum + t) ts).val -
            ((sum + t).val + (ts.map Binary64.val).sum)) +
          ((sum + t).val - (sum.val + t.val)) := by ring
      rw [e]
      refine le_trans (abs_add _ _) ?_
      have e2 : ((ts.filter (fun t => decide (t.val ≠ 0))).length + 1 : ℚ) / 2 ^ (53 : ℕ) =
          ((ts.filter (fun t => decide (t.val ≠ 0))).length : ℚ) / 2 ^ (53 : ℕ) +
            1 / 2 ^ (53 : ℕ) := by ring
      rw [e2]
      exact add_le_add this p2

end Binary64

theorem termFreqDoubleSum_eq (s : SearchServer Binary64) (id : Int) :
    s.termFreqDoubleSum id =
      (s.word_to_document_freqs_.map (fun p => (StdMap.find p.2 id).getD 0)).foldl
        (fun sum t => sum + t) 0 := by
  unfold SearchServer.termFreqDoubleSum
  rw [List.foldl_map]

theorem termFreqValueSum_eq (s : SearchServer Binary64) (id : Int) :
    s.termFreqValueSum id =
      ((s.word_to_document_freqs_.map (fun p => (StdMap.find p.2 id).getD 0)).map
        Binary64.val).sum := by
  unfold SearchServer.termFreqValueSum indexValueSum
  rw [List.map_map]
  rfl

/-- After a successful `AddDocument` the words with a term frequency that is
not zero for the document are at most as many as its retained tokens. -/
theorem posted_count_le (s : SearchServer Binary64) (hs : Consistent s) (id : Int)
    (text : Str) (status : DocumentStatus) (ratings : List Int)
    (hok : (s.AddDocument id text status ratings).1 = .ok ()) :
    (((s.AddDocument id text status ratings).2.word_to_document_freqs_.map
      (fun p => (StdMap.find p.2 id).getD 0)).filter
        (fun t => decide (t.val ≠ 0))).length ≤ (s.retainedTokens text).length := by
  have hs2 := Consistent_AddDocument s id text status ratings hs hok
  rw [List.filter_map, List.length_map]
  have hlen : ((s.AddDocument id text status ratings).2.word_to_document_freqs_.filter
      ((fun t : Binary64 => decide (t.val ≠ 0)) ∘
        fun p : Str × StdMap Int Binary64 => (StdMap.find p.2 id).getD 0)).length =
      (((s.AddDocument id text status ratings).2.word_to_document_freqs_.filter
      ((fun t : Binary64 => decide (t.val ≠ 0)) ∘
        fun p : Str × StdMap Int Binary64 => (StdMap.find p.2 id).getD 0)).map
        Prod.fst).length := by
    rw [List.length_map]
  rw [hlen]
  apply List.Subperm.length_le
  apply List.subperm_of_subset
  · have hnodup := StdMap.WF_nodup _ hs2.index_wf
    exact (List.Sublist.map Prod.fst (List.filter_sublist _)).nodup hnodup
  · intro w hw
    obtain ⟨p, hp, rfl⟩ := List.mem_map.1 hw
    obtain ⟨hp1, hp2⟩ := List.mem_filter.1 hp
    have hfind := StdMap.find_eq_some_of_mem _ hs2.index_wf p.1 p.2 hp1
    have hentry := entry_AddDocument s hs id text status ratings hok p.1 id
    unfold SearchServer.entry at hentry
    rw [hfind, if_pos rfl] at hentry
    simp only [] at hentry
    by_contra hnot
    rw [if_neg hnot] at hentry
    simp only [Function.comp, hentry, Option.getD_none, Binary64.val_zero, ne_eq,
      not_true_eq_false, decide_False] at hp2
    cases hp2

/-- The term frequencies of a document of `n >= 1` retained tokens,
`n <= 2^32`, accumulated in `double`, sum to 1 up to `(2 n + 1) * 2^(-53)`. -/
theorem termFreqDoubleSum_AddDocument (s : SearchServer Binary64) (hs : Consistent s) (id : Int)
    (text : Str) (status : DocumentStatus) (ratings : List Int)
    (hok : (s.AddDocument id text status ratings).1 = .ok ())
    (hne : s.retainedTokens text ≠ []) (hn : (s.retainedTokens text).length ≤ 2 ^ 32) :
    |((s.AddDocument id text status ratings).2.termFreqDoubleSum id).val - 1| ≤
      (2 * ((s.retainedTokens text).length : ℚ) + 1) / 2 ^ (53 : ℕ) := by
  have hs2 := Consistent_AddDocument s id text status ratings hs hok
  have hsum := termFreqValueSum_AddDocument s hs id text status ratings hok hne hn
  have hcnt := posted_count_le s hs id text status ratings hok
  have hn2 : ((s.retainedTokens text).length : ℚ) ≤ 2 ^ (32 : ℕ) := by exact_mod_cast hn
  rw [termFreqValueSum_eq] at hsum
  rw [termFreqDoubleSum_eq]
  have hcntQ : ((((s.AddDocument id text status ratings).2.word_to_document_freqs_.map
      (fun p => (StdMap.find p.2 id).getD 0)).filter
        (fun t => decide (t.val ≠ 0))).length : ℚ) ≤ ((s.retainedTokens text).length : ℚ) := by
    exact_mod_cast hcnt
  have hterms : ∀ t ∈ (s.AddDocument id text status ratings).2.word_to_document_freqs_.map
      (fun p => (StdMap.find p.2 id).getD 0), 0 ≤ t.val := by
    intro t ht
    obtain ⟨p, hp, rfl⟩ := List.mem_map.1 ht
    cases hf : StdMap.find p.2 id with
    | none => exact le_of_eq Binary64.val_zero.symm
    | some v =>
      have hfind := StdMap.find_eq_some_of_mem _ hs2.index_wf p.1 p.2 hp
      have hentry := entry_AddDocument s hs id text status ratings hok p.1 id
      unfold SearchServer.entry at hentry
      rw [hfind, if_pos rfl] at hentry
      simp only [] at hentry
      rw [hf] at hentry
      by_cases hmem : p.1 ∈ s.retainedTokens text
      · rw [if_pos hmem] at hentry
        cases hentry
        exact le_of_lt (Binary64.iterate_add_inverse _ _ (List.count_pos_iff.2 hmem)
          (List.count_le_length _ _) hn).1
      · rw [if_neg hmem] at hentry
        cases hentry
  have hdiv : ((((s.AddDocument id text status ratings).2.word_to_document_freqs_.map
      (fun p => (StdMap.find p.2 id).getD 0)).filter
        (fun t => decide (t.val ≠ 0))).length : ℚ) / 2 ^ (53 : ℕ) ≤
      ((s.retainedTokens text).length : ℚ) / 2 ^ (53 : ℕ) :=
    div_le_div_of_nonneg_right hcntQ (by positivity)
  have hup := (abs_le.1 hsum).2
  have hb1 : (((s.retainedTokens text).length : ℚ) + 1) / 2 ^ (53 : ℕ) ≤
      (2 ^ (32 : ℕ) + 1) / 2 ^ (53 : ℕ) :=
    div_le_div_of_nonneg_right (by linarith) (by positivity)
  have hb2 : ((s.retainedTokens text).length : ℚ) / 2 ^ (53 : ℕ) ≤
      2 ^ (32 : ℕ) / 2 ^ (53 : ℕ) := div_le_div_of_nonneg_right hn2 (by positivity)
  have hnum : (1 : ℚ) + (2 ^ (32 : ℕ) + 1) / 2 ^ (53 : ℕ) + 2 ^ (32 : ℕ) / 2 ^ (53 : ℕ) < 2 := by
    norm_num
  have hfold := Binary64.foldl_add _ 0 (by simp [Binary64.val_zero, roundNearestEven])
    (le_of_eq Binary64.val_zero.symm) hterms (by rw [Binary64.val_zero]; linarith)
  rw [Binary64.val_zero, zero_add] at hfold
  have tri : ∀ x y : ℚ, |x - 1| ≤ |x - y| + |y - 1| := fun x y => by
    have : x - 1 = (x - y) + (y - 1) := by ring
    rw [this]
    exact abs_add _ _
  refine le_trans (tri _ _) (le_trans (add_le_add (le_trans hfold hdiv) hsum) (le_of_eq ?_))
  ring

end DoubleSum

section DoubleSumZero

theorem termFreqDoubleSum_not_posted (s : SearchServer Binary64) (hs : Consistent s) (id : Int)
    (hnew : id ∉ StdMap.keys s.documents_) : (s.termFreqDoubleSum id).val = 0 := by
  have hnone : ∀ p ∈ s.word_to_document_freqs_, StdMap.find p.2 id = none := by
    intro p hp
    rw [StdMap.find_eq_none_iff]
    exact fun hin => hnew (hs.postings_ids p hp id hin)
  have hzero : ∀ t ∈ s.word_to_document_freqs_.map (fun p => (StdMap.find p.2 id).getD 0),
      t.val = 0 := by
    intro t ht
    obtain ⟨p, hp, rfl⟩ := List.mem_map.1 ht
    rw [hnone p hp]
    rfl
  have hfilter : (s.word_to_document_freqs_.map (fun p => (StdMap.find p.2 id).getD 0)).filter
      (fun t => decide (t.val ≠ 0)) = [] := by
    rw [List.filter_eq_nil_iff]
    intro t ht
    simp [hzero t ht]
  have hsum : ((s.word_to_document_freqs_.map (fun p => (StdMap.find p.2 id).getD 0)).map
      Binary64.val).sum = 0 := by
    apply List.sum_eq_zero
    intro q hq
    obtain ⟨t, ht, rfl⟩ := List.mem_map.1 hq
    exact hzero t ht
  have hfold := Binary64.foldl_add
    (s.word_to_document_freqs_.map (fun p => (StdMap.find p.2 id).getD 0)) 0
    (by simp [Binary64.val_zero, roundNearestEven]) (le_of_eq Binary64.val_zero.symm)
    (fun t ht => le_of_eq (hzero t ht).symm)
    (by rw [hfilter, hsum, Binary64.val_zero]; norm_num)
  rw [hfilter, hsum, Binary64.val_zero] at hfold
  rw [termFreqDoubleSum_eq]
  simpa using hfold

end DoubleSumZero

/-- C12, amended.  For a document successfully added to a consistent engine
(every reachable engine is one): when the document has at least one retained
token (a token that is not a stop word), the term frequencies recorded for it,
summed over all indexed words, are 1 exactly over an ordered field; in `double`
arithmetic, when there are at most `2^32` retained tokens, both the exact sum
of the recorded values and the sum accumulated in `double` are within `1e-6` of
1; when every token is a stop word, no term frequency is recorded for the
document and the sum is 0. -/
theorem C12_frequency_sum :
    (∀ (R : Type) [LinearOrderedField R] (s : SearchServer R), Consistent s →
      ∀ (document_id : Int) (document : Str) (status : DocumentStatus) (ratings : List Int),
        (s.AddDocument document_id document status ratings).1 = .ok () →
        ((∃ w ∈ SplitIntoWords document, w ∉ s.stop_words_) →
          (s.AddDocument document_id document status ratings).2.termFreqSum document_id = 1) ∧
        ((∀ w ∈ SplitIntoWords document, w ∈ s.stop_words_) →
          (∀ t, (s.AddDocument document_id document status ratings).2.entry t document_id =
            none) ∧
          (s.AddDocument document_id document status ratings).2.termFreqSum document_id = 0)) ∧
    (∀ (s : SearchServer Binary64), Consistent s →
      ∀ (document_id : Int) (document : Str) (status : DocumentStatus) (ratings : List Int),
        (s.AddDocument document_id document status ratings).1 = .ok () →
        ((∃ w ∈ SplitIntoWords document, w ∉ s.stop_words_) →
          (s.retainedTokens document).length ≤ 2 ^ 32 →
          |(s.AddDocument document_id document status ratings).2.termFreqValueSum document_id -
            1| < 1 / 1000000 ∧
          |((s.AddDocument document_id document status ratings).2.termFreqDoubleSum
            document_id).val - 1| < 1 / 1000000) ∧
        ((∀ w ∈ SplitIntoWords document, w ∈ s.stop_words_) →
          (∀ t, (s.AddDocument document_id document status ratings).2.entry t document_id =
            none) ∧
          (s.AddDocument document_id document status ratings).2.termFreqValueSum document_id =
            0 ∧
          ((s.AddDocument document_id document status ratings).2.termFreqDoubleSum
            document_id).val = 0)) := by
  constructor
  · intro R _ s hs document_id document status ratings hok
    have hsum := freqSum_AddDocument s hs document_id document status ratings hok
    constructor
    · intro hne
      have hlen : ((s.retainedTokens document).length : R) ≠ 0 := by
        have : (s.retainedTokens document).length ≠ 0 :=
          fun e => retainedTokens_ne_nil s document hne (List.length_eq_zero.1 e)
        exact_mod_cast this
      rw [hsum]
      field_simp
    · intro hall
      have hnil := retainedTokens_eq_nil s document hall
      refine ⟨fun t => ?_, ?_⟩
      · rw [entry_AddDocument s hs _ _ _ _ hok, if_pos rfl, hnil]
        rfl
      · rw [hsum, hnil]
        simp
  · intro s hs document_id document status ratings hok
    constructor
    · intro hne hn
      have hn2 : ((s.retainedTokens document).length : ℚ) ≤ 2 ^ (32 : ℕ) := by exact_mod_cast hn
      constructor
      · have h := termFreqValueSum_AddDocument s hs document_id document status ratings hok
          (retainedTokens_ne_nil s document hne) hn
        refine lt_of_le_of_lt h ?_
        have : (((s.retainedTokens document).length : ℚ) + 1) / 2 ^ (53 : ℕ) ≤
            (2 ^ (32 : ℕ) + 1) / 2 ^ (53 : ℕ) :=
          div_le_div_of_nonneg_right (by linarith) (by positivity)
        refine lt_of_le_of_lt this ?_
        norm_num
      · have h := termFreqDoubleSum_AddDocument s hs document_id document status ratings hok
          (retainedTokens_ne_nil s document hne) hn
        refine lt_of_le_of_lt h ?_
        have : (2 * ((s.retainedTokens document).length : ℚ) + 1) / 2 ^ (53 : ℕ) ≤
            (2 * 2 ^ (32 : ℕ) + 1) / 2 ^ (53 : ℕ) :=
          div_le_div_of_nonneg_right (by linarith) (by positivity)
        refine lt_of_le_of_lt this ?_
        norm_num
    · intro hall
      have hnil := retainedTokens_eq_nil s document hall
      obtain ⟨_, hnew, _⟩ := (AddDocument_ok_iff s _ _ _ _).1 hok
      have hstate : (s.AddDocument document_id document status ratings).2.word_to_document_freqs_ =
          s.word_to_document_freqs_ := by
        rw [AddDocument_ok_state s _ _ _ _ hok, SplitIntoWordsNoStop_eq, hnil]
        rfl
      refine ⟨fun t => ?_, ?_, ?_⟩
      · rw [entry_AddDocument s hs _ _ _ _ hok, if_pos rfl, hnil]
        rfl
      · unfold SearchServer.termFreqValueSum
        rw [hstate]
        exact (termFreqValueSum_not_posted s hs document_id hnew).1
      · have := termFreqDoubleSum_not_posted s hs document_id hnew
        unfold SearchServer.termFreqDoubleSum at this ⊢
        rw [hstate]
        exact this

/-- C12 on the first document of the scenario, over the rationals and in
`double`, and on the document "and and" of stop words. -/
theorem C12_frequency_sum_witness :
    ((scenarioFresh (R := ℚ)).AddDocument 1 "fluffy cat fluffy tail".toList
        DocumentStatus.ACTUAL [8, 2, 3, 4]).2.termFreqSum 1 = 1 ∧
    |(((scenarioFresh (R := Binary64)).AddDocument 1 "fluffy cat fluffy tail".toList
        DocumentStatus.ACTUAL [8, 2, 3, 4]).2.termFreqDoubleSum 1).val - 1| < 1 / 1000000 ∧
    ((scenarioFresh (R := Binary64)).AddDocument 1 "and and".toList
        DocumentStatus.ACTUAL [5]).2.termFreqValueSum 1 = 0 :=
  ⟨(C12_frequency_sum.1 ℚ (scenarioFresh (R := ℚ)) (Consistent_create ["and".toList] _ rfl) 1
      "fluffy cat fluffy tail".toList DocumentStatus.ACTUAL [8, 2, 3, 4] rfl).1
      ⟨"fluffy".toList, by decide, by decide⟩,
   ((C12_frequency_sum.2 (scenarioFresh (R := Binary64)) (Consistent_create ["and".toList] _ rfl) 1
      "fluffy cat fluffy tail".toList DocumentStatus.ACTUAL [8, 2, 3, 4] rfl).1
      ⟨"fluffy".toList, by decide, by decide⟩ (by decide)).2,
   ((C12_frequency_sum.2 (scenarioFresh (R := Binary64)) (Consistent_create ["and".toList] _ rfl) 1
      "and and".toList DocumentStatus.ACTUAL [5] rfl).2 (by decide)).2.1⟩

/-- C12 fails as stated: in the engine with the stop word "and" the document
"and" is added successfully, it has no non-stop token, no term frequency is
recorded for it and the sum is 0. -/
theorem C12_counterexample :
    ((scenarioFresh (R := ℚ)).AddDocument 1 "and".toList DocumentStatus.ACTUAL [5]).1 = .ok () ∧
    ((scenarioFresh (R := ℚ)).AddDocument 1 "and".toList DocumentStatus.ACTUAL
        [5]).2.word_to_document_freqs_ = [] ∧
    ((scenarioFresh (R := ℚ)).AddDocument 1 "and".toList DocumentStatus.ACTUAL
        [5]).2.termFreqSum 1 ≠ 1 := by
  refine ⟨rfl, rfl, ?_⟩
  have h : ((scenarioFresh (R := ℚ)).AddDocument 1 "and".toList DocumentStatus.ACTUAL
      [5]).2.termFreqSum 1 = 0 := rfl
  rw [h]
  norm_num

/-! ## C19: postings of a reachable engine -/

section ReachablePostings

variable {R : Type} [LinearOrderedField R]

theorem AddWords_forall_new (P : StdMap Int R → Prop) (id : Int) (n : Nat) (words : List Str)
    (index : StdMap Str (StdMap Int R)) (h : ∀ p ∈ index, P p.2)
    (hf : ∀ ps, P ps → P (StdMap.upsert id 0 (fun x => x + 1 / (n : R)) ps))
    (hd : P (StdMap.upsert id 0 (fun x => x + 1 / (n : R)) [])) :
    ∀ p ∈ SearchServer.AddWords id n words index, P p.2 := by
  induction words generalizing index with
  | nil => exact h
  | cons w ws ih =>
    exact ih _ (StdMap.forall_upsert P _ _ _ _ h hd hf)

theorem upsert_positive (id : Int) (x : R) (hx : 0 < x) (ps : StdMap Int R)
    (hps : ∀ q ∈ ps, 0 < q.2) :
    StdMap.upsert id 0 (fun y => y + x) ps ≠ [] ∧
      ∀ q ∈ StdMap.upsert id 0 (fun y => y + x) ps, 0 < q.2 := by
  constructor
  · intro e
    have : id ∈ StdMap.keys (StdMap.upsert id 0 (fun y => y + x) ps) :=
      (StdMap.mem_keys_upsert _ _ _ _ _).2 (Or.inl rfl)
    rw [e] at this
    simp [StdMap.keys] at this
  · exact StdMap.forall_upsert (fun v => 0 < v) id 0 (fun y => y + x) ps hps
      (by simpa using hx) (fun v hv => add_pos hv hx)

theorem Reachable.postings_positive {s : SearchServer R} (h : Reachable s) :
    ∀ p ∈ s.word_to_document_freqs_, p.2 ≠ [] ∧ ∀ q ∈ p.2, (0 : R) < q.2 := by
  induction h with
  | create stop_words s h =>
    unfold SearchServer.create at h
    by_cases hv : stop_words.all IsValidWord = true
    · rw [if_pos hv] at h; cases h; simp
    · rw [if_neg hv] at h; cases h
  | add s id text status ratings _ hok ih =>
    rw [AddDocument_ok_state s id text status ratings hok]
    simp only []
    cases hw : s.SplitIntoWordsNoStop text with
    | nil => exact ih
    | cons w ws =>
      have hx : (0 : R) < 1 / (((w :: ws).length : Nat) : R) := by
        apply div_pos one_pos
        exact_mod_cast Nat.succ_pos _
      apply AddWords_forall_new (fun ps => ps ≠ [] ∧ ∀ q ∈ ps, (0 : R) < q.2) _ _ _ _ ih
      · intro ps hps
        exact upsert_positive id _ hx ps hps.2
      · exact upsert_positive id _ hx [] (by simp)

theorem postings_length_le (s : SearchServer R) (hs : Consistent s) (t : Str)
    (ps : StdMap Int R) (hf : StdMap.find s.word_to_document_freqs_ t = some ps) :
    ps.length ≤ s.documents_.length := by
  have hmem := StdMap.mem_of_find_eq_some _ _ _ hf
  have hnodup : (StdMap.keys ps).Nodup := StdMap.WF_nodup ps (hs.postings_wf (t, ps) hmem)
  have hsub : StdMap.keys ps ⊆ StdMap.keys s.documents_ :=
    fun id hid => hs.postings_ids (t, ps) hmem id hid
  have := (List.subperm_of_subset hnodup hsub).length_le
  simpa [StdMap.keys] using this

theorem postingsShare_nonneg (s : SearchServer R) (pred : Int → DocumentStatus → Int → Bool)
    (idf : R) (hidf : 0 ≤ idf) (ps : StdMap Int R) (hps : ∀ q ∈ ps, (0 : R) < q.2) (id : Int) :
    0 ≤ s.postingsShare pred idf ps id := by
  unfold SearchServer.postingsShare
  apply List.sum_nonneg
  intro x hx
  obtain ⟨q, hq, rfl⟩ := List.mem_map.1 hx
  exact mul_nonneg (le_of_lt (hps q (List.mem_filter.1 hq).1)) hidf

/-- C19: in a reachable engine every indexed word has a non-empty postings map
whose document ids are all in the catalog; so for every indexed word
`1 <= df <= GetDocumentCount`, the divisor of the idf is not zero, the idf is
`>= 0`, and `FindAllDocuments` returns (no lookup `documents_.at` fails) entries
of relevance `>= 0`.  The logarithm is any function that is `>= 0` from 1 on. -/
theorem C19_reachable_postings (ln : R → R) (hln : ∀ x, 1 ≤ x → 0 ≤ ln x) (s : SearchServer R)
    (hs : Reachable s) :
    (∀ p ∈ s.word_to_document_freqs_,
      p.2 ≠ [] ∧ ∀ id ∈ StdMap.keys p.2, id ∈ StdMap.keys s.documents_) ∧
    (∀ t ps, StdMap.find s.word_to_document_freqs_ t = some ps →
      1 ≤ ps.length ∧ (ps.length : Int) ≤ s.GetDocumentCount ∧ (ps.length : R) ≠ 0 ∧
      ∃ idf, s.ComputeWordInverseDocumentFreq ln t = .ok idf ∧ 0 ≤ idf) ∧
    (∀ query document_predicate,
      ∃ docs, s.FindAllDocuments ln query document_predicate = .ok docs ∧
        ∀ d ∈ docs, 0 ≤ d.relevance) := by
  have hc := hs.consistent
  have hp := hs.postings_positive
  have hdf : ∀ t ps, StdMap.find s.word_to_document_freqs_ t = some ps →
      1 ≤ ps.length ∧ ps.length ≤ s.documents_.length := by
    intro t ps hf
    have hmem := StdMap.mem_of_find_eq_some _ _ _ hf
    refine ⟨?_, postings_length_le s hc t ps hf⟩
    cases hps : ps with
    | nil => exact absurd hps (hp (t, ps) hmem).1
    | cons q qs => simp
  have hidf : ∀ t ps, StdMap.find s.word_to_document_freqs_ t = some ps →
      0 ≤ ln ((s.GetDocumentCount : R) * 1 / (ps.length : R)) := by
    intro t ps hf
    obtain ⟨h1, h2⟩ := hdf t ps hf
    apply hln
    have hpos : (0 : R) < (ps.length : R) := by exact_mod_cast h1
    rw [mul_one, le_div_iff₀ hpos, one_mul]
    unfold SearchServer.GetDocumentCount
    exact_mod_cast h2
  refine ⟨?_, ?_, ?_⟩
  · intro p hpm
    exact ⟨(hp p hpm).1, hc.postings_ids p hpm⟩
  · intro t ps hf
    obtain ⟨h1, h2⟩ := hdf t ps hf
    refine ⟨h1, ?_, ?_, _, ComputeWordInverseDocumentFreq_of_find ln s t ps hf, hidf t ps hf⟩
    · unfold SearchServer.GetDocumentCount
      exact_mod_cast h2
    · have : ps.length ≠ 0 := by omega
      exact_mod_cast this
  · intro query pred
    obtain ⟨docs, hd⟩ := FindAllDocuments_ok ln s hc query pred
    obtain ⟨_, _, f3⟩ := FindAllDocuments_spec ln s query pred docs hd
    refine ⟨docs, hd, ?_⟩
    intro d hdm
    rw [(f3 d hdm).1]
    apply List.sum_nonneg
    intro x hx
    obtain ⟨w, _, rfl⟩ := List.mem_map.1 hx
    unfold SearchServer.wordShare
    cases hf : StdMap.find s.word_to_document_freqs_ w with
    | none => exact le_refl _
    | some ps =>
      exact postingsShare_nonneg s pred _ (hidf w ps hf) ps
        (hp (w, ps) (StdMap.mem_of_find_eq_some _ _ _ hf)).2 d.id

/-- C19 on the engine of the scenario, with real numbers and the natural
logarithm, for the query with the plus-word "fluffy" and the minus-word "dog". -/
theorem C19_reachable_postings_witness :
    ∃ docs, (scenarioEngine (R := ℝ)).FindAllDocuments Real.log
        ⟨["fluffy".toList], ["dog".toList]⟩ (fun _ _ _ => true) = .ok docs ∧
      ∀ d ∈ docs, 0 ≤ d.relevance :=
  (C19_reachable_postings Real.log (fun _ hx => Real.log_nonneg hx) (scenarioEngine (R := ℝ))
    scenarioEngine_reachable).2.2 ⟨["fluffy".toList], ["dog".toList]⟩ (fun _ _ _ => true)

end ReachablePostings

/-! ## C13: the words that are keys of the index -/

section IndexKeys

variable {R : Type} [LinearOrderedField R]

theorem mem_keys_AddWords (id : Int) (n : Nat) (ws : List Str) (idx : StdMap Str (StdMap Int R))
    (t : Str) : t ∈ StdMap.keys (SearchServer.AddWords id n ws idx) ↔ t ∈ ws ∨ t ∈ StdMap.keys idx := by
  induction ws generalizing idx with
  | nil => simp [SearchServer.AddWords]
  | cons w ws ih =>
    simp only [SearchServer.AddWords]
    rw [ih, StdMap.mem_keys_upsert, List.mem_cons]
    tauto

/-- The half of the index invariant that holds: no key of the index of a
reachable engine has a character with a code below 32. -/
theorem Reachable.keys_valid {s : SearchServer R} (h : Reachable s) :
    ∀ t ∈ StdMap.keys s.word_to_document_freqs_, ∀ c ∈ t, 32 ≤ c.toNat := by
  induction h with
  | create stop_words s h =>
    unfold SearchServer.create at h
    by_cases hv : stop_words.all IsValidWord = true
    · rw [if_pos hv] at h; cases h; simp [StdMap.keys]
    · rw [if_neg hv] at h; cases h
  | add s id text status ratings _ hok ih =>
    obtain ⟨_, _, hvalid⟩ := (AddDocument_ok_iff s id text status ratings).1 hok
    rw [AddDocument_ok_state s id text status ratings hok]
    simp only []
    intro t ht
    rcases (mem_keys_AddWords _ _ _ _ t).1 ht with h1 | h1
    · exact (IsValidWord_eq_true_iff t).1 (List.all_eq_true.1 hvalid t h1)
    · exact ih t h1

/-- C13 at the failing input: `AddDocument(1, "fluffy  cat", ACTUAL, {5})` on the
engine constructed without stop words succeeds, and the empty string is a key of
the index of the reachable engine it leaves, with the term frequency 1/3 for
document 1. -/
theorem C13_empty_word_indexed :
    ((emptyEngine (R := ℚ)).AddDocument 1 "fluffy  cat".toList DocumentStatus.ACTUAL [5]).1 =
      .ok () ∧
    Reachable ((emptyEngine (R := ℚ)).AddDocument 1 "fluffy  cat".toList DocumentStatus.ACTUAL
      [5]).2 ∧
    ((emptyEngine (R := ℚ)).AddDocument 1 "fluffy  cat".toList DocumentStatus.ACTUAL
        [5]).2.word_to_document_freqs_ =
      [([], [(1, 0 + 1 / ((3 : Nat) : ℚ))]),
       ("cat".toList, [(1, 0 + 1 / ((3 : Nat) : ℚ))]),
       ("fluffy".toList, [(1, 0 + 1 / ((3 : Nat) : ℚ))])] ∧
    ([] : Str) ∈ StdMap.keys ((emptyEngine (R := ℚ)).AddDocument 1 "fluffy  cat".toList
      DocumentStatus.ACTUAL [5]).2.word_to_document_freqs_ :=
  ⟨rfl, Reachable.add _ _ _ _ _ (Reachable.create [] _ rfl) rfl, rfl,
    List.mem_cons_self _ _⟩

end IndexKeys

end SearchEngine
